import Mathlib

set_option linter.unusedVariables false
set_option autoImplicit false

/-!
# Path-directed field removal (`FieldRemoveMod.apply`)

A shallow embedding of `pkg/kapp/resources/mod_field_remove.go`.

The Go code walks a dynamically typed document (`interface{}` holding
`map[string]interface{}`, `[]interface{}`, scalars or `nil`) along a `Path`
and deletes map entries in place.  Here the walk is a pure function that
returns the document as it stands when the call ends together with the way
the call ended (`nil`, an error, or a panic), so that deletions made before
an error stay visible in the result.  The two things the code takes from
its environment are parameters of the walk: the package `regexp`, and the
order in which a `range` over a map yields its keys.
-/

namespace Kapp

/-! ## Documents -/

/-- Scalar leaves of a parsed document, by Go dynamic type. -/
inductive Scalar where
  | str (s : String)
  | int (n : Int)
  | float (bits : Nat)
  | bool (b : Bool)
  deriving DecidableEq, Repr

/-- A value held in a Go `interface{}` of a parsed document.
`null` is the nil interface, `array` is `[]interface{}` and `map` is
`map[string]interface{}`, its entries listed in the order in which `range`
yields them.  A typed nil map is written `map []`: the code only reads,
deletes from and ranges over maps, and a nil map behaves as an empty one
under these operations. -/
inductive Tree where
  | null
  | scalar (v : Scalar)
  | array (xs : List Tree)
  | map (kvs : List (String × Tree))

/-- The text that the verb `%T` prints for a value. -/
def Tree.goType : Tree → String
  | .null => "<nil>"
  | .scalar (.str _) => "string"
  | .scalar (.int _) => "int64"
  | .scalar (.float _) => "float64"
  | .scalar (.bool _) => "bool"
  | .array _ => "[]interface {}"
  | .map _ => "map[string]interface {}"

/-- A Go variable of type `map[string]interface{}`: `none` is the nil map. -/
abbrev GoMap := Option (List (String × Tree))

/-- The entries a `range` over the map yields; none for the nil map. -/
def GoMap.entries : GoMap → List (String × Tree)
  | none => []
  | some kvs => kvs

/-- The comma-ok assertion `obj.(map[string]interface{})`.  When the
assertion fails the first result is the zero value of the map type, which
is the nil map. -/
def assertMap : Tree → GoMap × Bool
  | .map kvs => (some kvs, true)
  | _ => (none, false)

/-- The comma-ok assertion `obj.([]interface{})`; a nil slice on failure. -/
def assertArray : Tree → List Tree × Bool
  | .array xs => (xs, true)
  | _ => ([], false)

/-- The index expression `typedObj[key]` in its comma-ok form. -/
def mapLookup (key : String) : List (String × Tree) → Option Tree
  | [] => none
  | (k, v) :: kvs => if k = key then some v else mapLookup key kvs

/-- The builtin `delete(typedObj, key)`. -/
def mapDelete (key : String) : List (String × Tree) → List (String × Tree)
  | [] => []
  | (k, v) :: kvs =>
    if k = key then mapDelete key kvs else (k, v) :: mapDelete key kvs

/-- The map after the value stored under `key` has been changed in place to
`val` (the effect, seen from the map, of mutating the value it refers to). -/
def mapUpdate (key : String) (val : Tree) : List (String × Tree) → List (String × Tree)
  | [] => []
  | (k, v) :: kvs =>
    if k = key then (k, val) :: kvs else (k, v) :: mapUpdate key val kvs

/-! ## Paths -/

/-- Modelled from the spec: the declaration of `PathPartArrayIndex` is not
in the source file; an array index part has an optional fixed `Index` and an
optional `All` flag, and the code tests which pointer is set. -/
structure PathPartArrayIndex where
  Index : Option Int
  All : Option Bool
  deriving DecidableEq, Repr

/-- Modelled from the spec: the declaration of the regex holder is not in
the source file; the code reads `part.RegexObj.Regex`, an optional pattern. -/
structure PathPartRegex where
  Regex : Option String
  deriving DecidableEq, Repr

/-- Modelled from the spec: the declaration of `PathPart` is not in the
source file; a part has three optional fields and the code dispatches on
which one is set, in the order `MapKey`, `ArrayIndex`, `RegexObj.Regex`. -/
structure PathPart where
  MapKey : Option String
  RegexObj : PathPartRegex
  ArrayIndex : Option PathPartArrayIndex
  deriving DecidableEq, Repr

/-- The Go type `Path`, a slice of parts. -/
abbrev Path := List PathPart

/-- The part `&PathPart{MapKey: &key}`. -/
def PathPart.mapKey (key : String) : PathPart :=
  { MapKey := some key, RegexObj := { Regex := none }, ArrayIndex := none }

/-- An array part selecting every element. -/
def PathPart.all : PathPart :=
  { MapKey := none, RegexObj := { Regex := none },
    ArrayIndex := some { Index := none, All := some true } }

/-- An array part selecting the element at a fixed offset. -/
def PathPart.index (i : Int) : PathPart :=
  { MapKey := none, RegexObj := { Regex := none },
    ArrayIndex := some { Index := some i, All := none } }

/-- A regex part selecting the keys that match a pattern. -/
def PathPart.regex (pattern : String) : PathPart :=
  { MapKey := none, RegexObj := { Regex := some pattern }, ArrayIndex := none }

/-! ## Outcomes -/

/-- The errors `apply` builds with `fmt.Errorf` or hands on from
`regexp.Compile`. -/
inductive Err where
  /-- "Unexpected non-map found: %T" (the spec's `TypeMismatch`). -/
  | nonMapFound (goType : String)
  /-- "Unexpected non-array found: %T" (the spec's `TypeMismatch`). -/
  | nonArrayFound (goType : String)
  /-- "Expected last part of the path to be map key" (`InvalidPath`). -/
  | lastPartNotMapKey
  /-- The error of `regexp.Compile` (`InvalidRegex`). -/
  | regexCompile (msg : String)
  deriving DecidableEq, Repr

/-- The ways a call can stop abnormally. -/
inductive Fault where
  /-- The statement `panic("unreachable")` after the loop. -/
  | unreachable
  /-- The panic "Unknown array index" of the inner switch. -/
  | unknownArrayIndex
  /-- The panic "Unexpected path part" of the outer switch. -/
  | unexpectedPathPart
  /-- The run-time panic of indexing a slice out of range. -/
  | indexOutOfRange
  /-- The run-time panic of dereferencing a nil pointer. -/
  | nilDereference
  deriving DecidableEq, Repr

/-- How a call ended: `return nil`, `return err`, or a panic. -/
inductive Outcome where
  | ok
  | error (e : Err)
  | fault (f : Fault)
  deriving DecidableEq, Repr

/-- The package `regexp` as far as the code uses it: `Compile` gives either
an error text or the `MatchString` function of the compiled expression. -/
structure Regexp where
  Compile : String → Except String (String → Bool)

/-- The order in which `range` yields the keys of a map.  Go leaves it
unspecified and may change it from one loop to the next, so it is a
parameter of a call: `rangeOrder keys` lists, in the order of the visit, the
keys of a map that holds them as `keys`. -/
structure MapOrder where
  rangeOrder : List String → List String
  rangeOrder_perm : ∀ keys, (rangeOrder keys).Perm keys

/-! ## The two loops of `apply` -/

/-- The loop `for _, obj := range typedObj` of the `All` case, `body` being
the recursive call on one element: elements are visited in order and the
first outcome that is not `nil` ends the loop. -/
def rangeElems (body : Tree → Tree × Outcome) : List Tree → List Tree × Outcome
  | [] => ([], .ok)
  | x :: xs =>
    match body x with
    | (x', .ok) =>
      match rangeElems body xs with
      | (xs', r) => (x' :: xs', r)
    | (x', r) => (x' :: xs, r)

/-- The loop `for _, key := range matchedKeys` of the regex case, `body`
being the recursive call on the same node with the synthesized path: each
call sees the node as the previous call left it. -/
def rangeKeys (body : Tree → String → Tree × Outcome) : Tree → List String → Tree × Outcome
  | obj, [] => (obj, .ok)
  | obj, key :: keys =>
    match body obj key with
    | (obj', .ok) => rangeKeys body obj' keys
    | (obj', r) => (obj', r)

/-- The method `obtainMatchingRegexKeys`: the matched keys and how the call
ended. -/
def obtainMatchingRegexKeys (re : Regexp) (ord : MapOrder) (obj : Tree) (part : PathPart) :
    List String × Outcome :=
  match part.RegexObj.Regex with
  | none => ([], .fault .nilDereference)
  | some pattern =>
    match re.Compile pattern with
    | .error msg => ([], .error (.regexCompile msg))
    | .ok regex =>
      match assertMap obj with
      | (typedObj, ok) =>
        if !ok && typedObj.isSome then
          ([], .error (.nonMapFound obj.goType))
        else
          ((ord.rangeOrder ((typedObj.entries).map Prod.fst)).filter regex, .ok)

/-- The measure under which `apply` recurses: twice the number of parts
left, plus one when the first part is not a map key part. -/
def pathRank : Path → Nat
  | [] => 0
  | part :: rest => 2 * (rest.length + 1) + (if part.MapKey.isSome then 0 else 1)

/-- The method `FieldRemoveMod.apply`.  One iteration of the loop
`for i, part := range path` is one unfolding on `part :: rest`, with `rest`
standing for `path[i+1:]`; the iteration after an assignment to `obj` is the
call on the new `obj` and `rest`, whose result is put back where `obj` came
from. -/
def apply (re : Regexp) (ord : MapOrder) : Tree → Path → Tree × Outcome
  | obj, [] => (obj, .fault .unreachable)
  | obj, part :: rest =>
    let isLast := rest.isEmpty
    match hKey : part.MapKey with
    | some key =>
      match assertMap obj with
      | (typedObj, ok) =>
        if !ok then
          if typedObj.isNone then (obj, .ok)
          else (obj, .error (.nonMapFound obj.goType))
        else if isLast then
          (.map (mapDelete key typedObj.entries), .ok)
        else
          match mapLookup key typedObj.entries with
          | none => (obj, .ok)
          | some child =>
            match apply re ord child rest with
            | (child', r) => (.map (mapUpdate key child' typedObj.entries), r)
    | none =>
      match part.ArrayIndex with
      | some arrayIndex =>
        if isLast && part.RegexObj.Regex.isNone then
          (obj, .error .lastPartNotMapKey)
        else
          match arrayIndex.All with
          | some _ =>
            match assertArray obj with
            | (typedObj, ok) =>
              if !ok then (obj, .error (.nonArrayFound obj.goType))
              else
                match rangeElems (fun elem => apply re ord elem rest) typedObj with
                | (typedObj', r) => (.array typedObj', r)
          | none =>
            match arrayIndex.Index with
            | some index =>
              match assertArray obj with
              | (typedObj, ok) =>
                if !ok then (obj, .error (.nonArrayFound obj.goType))
                else if index < typedObj.length then
                  if index < 0 then (obj, .fault .indexOutOfRange)
                  else
                    match typedObj[index.toNat]? with
                    | none => (obj, .fault .indexOutOfRange)
                    | some child =>
                      match apply re ord child rest with
                      | (child', r) => (.array (typedObj.set index.toNat child'), r)
                else (obj, .ok)
            | none => (obj, .fault .unknownArrayIndex)
      | none =>
        match part.RegexObj.Regex with
        | some _ =>
          match obtainMatchingRegexKeys re ord obj part with
          | (matchedKeys, .ok) =>
            rangeKeys (fun o key => apply re ord o (PathPart.mapKey key :: rest)) obj matchedKeys
          | (_, r) => (obj, r)
        | none => (obj, .fault .unexpectedPathPart)
termination_by _ path => pathRank path
decreasing_by
  all_goals simp_wf
  · cases rest <;> simp only [pathRank, List.length_cons, List.length_nil] <;>
      (try split) <;> omega
  · cases rest <;> simp only [pathRank, List.length_cons, List.length_nil] <;>
      (try split) <;> omega
  · cases rest <;> simp only [pathRank, List.length_cons, List.length_nil] <;>
      (try split) <;> omega
  · simp [pathRank, PathPart.mapKey, hKey]

/-! ## Notions the properties are stated with -/

/-- One step of a concrete location: a key of a mapping or an offset into a
sequence. -/
inductive Step where
  | key (k : String)
  | idx (i : Nat)
  deriving DecidableEq, Repr

/-- The locations of `obj` that `path` addresses, each written as the steps
from `obj` down to it.  The parts are resolved in order: a map key part
selects the entry of that key when the node is a mapping that has it, an
`All` part selects every element of a sequence, an `Index` part selects the
element at that offset when it is within bounds, a regex part selects, like
a map key part would, the entry of every key of a mapping that matches a
pattern that compiles; the last part names the locations themselves.  A
part is read by the first of `MapKey`, `ArrayIndex`, `RegexObj.Regex` that
is set. -/
def locations (re : Regexp) : Path → Tree → List (List Step)
  | [], _ => []
  | part :: rest, obj =>
    match part.MapKey with
    | some key =>
      match obj with
      | .map kvs =>
        match mapLookup key kvs with
        | none => []
        | some child =>
          if rest.isEmpty then [[.key key]]
          else (locations re rest child).map (fun loc => Step.key key :: loc)
      | _ => []
    | none =>
      match part.ArrayIndex with
      | some arrayIndex =>
        match obj with
        | .array xs =>
          match arrayIndex.All with
          | some _ =>
            xs.enum.flatMap (fun jx =>
              if rest.isEmpty then [[.idx jx.1]]
              else (locations re rest jx.2).map (fun loc => Step.idx jx.1 :: loc))
          | none =>
            match arrayIndex.Index with
            | some index =>
              if index < 0 then []
              else
                match xs[index.toNat]? with
                | none => []
                | some child =>
                  if rest.isEmpty then [[.idx index.toNat]]
                  else (locations re rest child).map (fun loc => Step.idx index.toNat :: loc)
            | none => []
        | _ => []
      | none =>
        match part.RegexObj.Regex with
        | some pattern =>
          match re.Compile pattern, obj with
          | .ok regex, .map kvs =>
            ((kvs.map Prod.fst).filter regex).flatMap (fun key =>
              match mapLookup key kvs with
              | none => []
              | some child =>
                if rest.isEmpty then [[.key key]]
                else (locations re rest child).map (fun loc => Step.key key :: loc))
          | _, _ => []
        | none => []

/-- The walk of `path` from `obj` through map key parts whose key is present
and `Index` parts that are within bounds comes to a part that does not
resolve: a map key part whose key the current mapping lacks, a map key part
at an absent node, or an `Index` part, not the last part, whose offset is at
least the length of the current sequence. -/
def failsToResolve : Tree → Path → Bool
  | _, [] => false
  | obj, part :: rest =>
    match part.MapKey with
    | some key =>
      match obj with
      | .null => true
      | .map kvs =>
        match mapLookup key kvs with
        | none => true
        | some child => failsToResolve child rest
      | _ => false
    | none =>
      match part.ArrayIndex with
      | some arrayIndex =>
        match arrayIndex.All, arrayIndex.Index, obj with
        | none, some index, .array xs =>
          if rest.isEmpty then false
          else if (xs.length : Int) ≤ index then true
          else if index < 0 then false
          else
            match xs[index.toNat]? with
            | none => false
            | some child => failsToResolve child rest
        | _, _, _ => false
      | none => false

/-- The node that a path of map key parts and `Index` parts leads to, when
every map key part finds its key in a mapping and every `Index` part is
within the bounds of a sequence. -/
def descend : Tree → Path → Option Tree
  | obj, [] => some obj
  | obj, part :: rest =>
    match part.MapKey with
    | some key =>
      match obj with
      | .map kvs =>
        match mapLookup key kvs with
        | none => none
        | some child => descend child rest
      | _ => none
    | none =>
      match part.ArrayIndex with
      | some arrayIndex =>
        match arrayIndex.All, arrayIndex.Index, obj with
        | none, some index, .array xs =>
          if index < 0 then none
          else
            match xs[index.toNat]? with
            | none => none
            | some child => descend child rest
        | _, _, _ => none
      | none => none

/-- The value found by following a chain of keys through nested mappings. -/
def lookupPath : List String → Tree → Option Tree
  | [], t => some t
  | key :: keys, .map kvs =>
    match mapLookup key kvs with
    | none => none
    | some child => lookupPath keys child
  | _ :: _, _ => none

/-- The tree in which the mapping reached by all keys of a chain but the
last has lost its entry for the last key, and nothing else has changed. -/
def deleteAt : List String → Tree → Tree
  | [], t => t
  | key :: keys, .map kvs =>
    if keys.isEmpty then .map (mapDelete key kvs)
    else
      match mapLookup key kvs with
      | none => .map kvs
      | some child => .map (mapUpdate key (deleteAt keys child) kvs)
  | _ :: _, t => t

/-- Two chains of keys part ways: after a common start one continues with a
key where the other continues with a different key. -/
def diverge : List String → List String → Bool
  | a :: p, b :: q => if a = b then diverge p q else true
  | _, _ => false

/-- A part in which exactly one of `MapKey`, `ArrayIndex`, `RegexObj.Regex`
is set, whose `ArrayIndex`, when set, has exactly one of `All`, `Index`
set, and whose `Index` is not negative. -/
def PathPart.wellFormed (part : PathPart) : Bool :=
  match part.MapKey, part.ArrayIndex, part.RegexObj.Regex with
  | some _, none, none => true
  | none, some arrayIndex, none =>
    match arrayIndex.All, arrayIndex.Index with
    | some _, none => true
    | none, some index => decide (0 ≤ index)
    | _, _ => false
  | none, none, some _ => true
  | _, _, _ => false

/-- An outcome that is `nil` or an error, not a panic. -/
def Outcome.returns : Outcome → Bool
  | .ok => true
  | .error _ => true
  | .fault _ => false

/-- Two runs agree on success: one returns `nil` exactly when the other
does, and when they do they have left the same result. -/
def AgreeOnSuccess {α : Type} (a b : α × Outcome) : Prop :=
  (a.2 = .ok ↔ b.2 = .ok) ∧ (a.2 = .ok → a = b)

/-- The locations of `A` that lie below the step `s`, written from there. -/
def under (s : Step) (A : List (List Step)) : List (List Step) :=
  A.filterMap (fun loc =>
    match loc with
    | [] => none
    | s' :: rest => if s' = s then some rest else none)

mutual
/-- `PrunedAt A t' t`: the tree `t'` is the tree `t` with some map entries
removed and nothing else changed, and every removed entry is at a location
listed in `A`.  An absent node and a scalar are as they were, a sequence has
the same length with each element pruned in its place, a mapping keeps its
entries in their order under their keys, each either dropped or pruned. -/
inductive PrunedAt : List (List Step) → Tree → Tree → Prop
  | null (A) : PrunedAt A .null .null
  | scalar (A v) : PrunedAt A (.scalar v) (.scalar v)
  | array (A) {xs' xs} : PrunedElems A 0 xs' xs → PrunedAt A (.array xs') (.array xs)
  | map (A) {kvs' kvs} : PrunedEntries A kvs' kvs → PrunedAt A (.map kvs') (.map kvs)
/-- The elements of a sequence, counted from offset `j`, each pruned in its
place. -/
inductive PrunedElems : List (List Step) → Nat → List Tree → List Tree → Prop
  | nil (A j) : PrunedElems A j [] []
  | cons (A j) {x' x xs' xs} : PrunedAt (under (.idx j) A) x' x →
      PrunedElems A (j + 1) xs' xs → PrunedElems A j (x' :: xs') (x :: xs)
/-- The entries of a mapping, each either dropped, which takes its location
to be listed, or kept under its key with its value pruned. -/
inductive PrunedEntries :
    List (List Step) → List (String × Tree) → List (String × Tree) → Prop
  | nil (A) : PrunedEntries A [] []
  | drop (A) {k v kvs' kvs} : [Step.key k] ∈ A → PrunedEntries A kvs' kvs →
      PrunedEntries A kvs' ((k, v) :: kvs)
  | keep (A) {k v' v kvs' kvs} : PrunedAt (under (.key k) A) v' v →
      PrunedEntries A kvs' kvs → PrunedEntries A ((k, v') :: kvs') ((k, v) :: kvs)
end

/-- The first outcome of a list that is not `nil`, and `nil` when there is
none. -/
def firstNotOk : List Outcome → Outcome
  | [] => .ok
  | .ok :: rs => firstNotOk rs
  | r :: _ => r

/-- The outcome of walking `path`, the parts that come before a last part
which is an array index part with no regex: "Expected last part of the path
to be map key" when the walk reaches that last part, and otherwise what
ended the walk before it.  A map key part ends the walk with `nil` when the
node is not a mapping or lacks the key; an array index part ends it with
"Unexpected non-array found" on a node that is not a sequence, an `Index`
part with `nil` at or beyond the end and with a panic below zero; a regex
part ends it with the compile error, or with `nil` on a node that is not a
mapping.  Under an `All` part the elements, and under a regex part the
matched keys in the order of the visit, are walked one after the other: the
first walk that does not end with `nil` decides, and `nil` is the outcome
when there is none. -/
def outcomeBeforeLast (re : Regexp) (ord : MapOrder) : Path → Tree → Outcome
  | [], _ => .error .lastPartNotMapKey
  | part :: rest, obj =>
    match part.MapKey with
    | some key =>
      match obj with
      | .map kvs =>
        match mapLookup key kvs with
        | none => .ok
        | some child => outcomeBeforeLast re ord rest child
      | _ => .ok
    | none =>
      match part.ArrayIndex with
      | some arrayIndex =>
        match arrayIndex.All with
        | some _ =>
          match obj with
          | .array xs => firstNotOk (xs.map (fun x => outcomeBeforeLast re ord rest x))
          | _ => .error (.nonArrayFound obj.goType)
        | none =>
          match arrayIndex.Index with
          | some index =>
            match obj with
            | .array xs =>
              if index < xs.length then
                if index < 0 then .fault .indexOutOfRange
                else
                  match xs[index.toNat]? with
                  | none => .fault .indexOutOfRange
                  | some child => outcomeBeforeLast re ord rest child
              else .ok
            | _ => .error (.nonArrayFound obj.goType)
          | none => .fault .unknownArrayIndex
      | none =>
        match part.RegexObj.Regex with
        | some pattern =>
          match re.Compile pattern with
          | .error msg => .error (.regexCompile msg)
          | .ok regex =>
            match obj with
            | .map kvs =>
              firstNotOk (((ord.rangeOrder (kvs.map Prod.fst)).filter regex).map (fun key =>
                match mapLookup key kvs with
                | none => .ok
                | some child => outcomeBeforeLast re ord rest child))
            | _ => .ok
        | none => .fault .unexpectedPathPart

/-! ## Sample data -/

/-- A small regex engine for the examples: `^` followed by literal text
matches the strings that start with that text; nothing else compiles. -/
def sampleRegexp : Regexp where
  Compile pattern :=
    match pattern.data with
    | '^' :: cs => .ok (fun s => cs.isPrefixOf s.data)
    | _ => .error "error parsing regexp"

/-- The visiting order that follows the order in which the keys are held. -/
def storedOrder : MapOrder where
  rangeOrder keys := keys
  rangeOrder_perm keys := List.Perm.refl keys

/-- The visiting order that goes through the keys from the last one held to
the first. -/
def reverseOrder : MapOrder where
  rangeOrder keys := keys.reverse
  rangeOrder_perm keys := List.reverse_perm keys

/-- The number `n` as a scalar leaf. -/
def num (n : Int) : Tree := .scalar (.int n)

/-- The document `{"items": [{"x":1,"y":2},{"x":3,"y":4}]}`. -/
def sampleItems : Tree :=
  .map [("items", .array [.map [("x", num 1), ("y", num 2)],
    .map [("x", num 3), ("y", num 4)]])]

/-- The document `{"a": 7, "b": [{"x": 1}]}`. -/
def sampleMixed : Tree :=
  .map [("a", num 7), ("b", .array [.map [("x", num 1)]])]

/-- The path `[Regex("^"), All, MapKey("x")]`; the pattern matches every key. -/
def sampleMixedPath : Path := [.regex "^", .all, .mapKey "x"]

/-- The document `{"a": {"x": 1}, "b": {"x": 2}}`. -/
def samplePair : Tree :=
  .map [("a", .map [("x", num 1)]), ("b", .map [("x", num 2)])]

/-- The path `[Regex("^"), MapKey("x")]`; the pattern matches every key. -/
def samplePairPath : Path := [.regex "^", .mapKey "x"]

/-- The path `[MapKey("items"), All, MapKey("x")]`. -/
def sampleItemsPath : Path := [.mapKey "items", .all, .mapKey "x"]

/-! ## Unfolding `apply` one part at a time -/

variable (re : Regexp) (ord ord' : MapOrder)

theorem assertMap_of_false {obj : Tree} (h : (assertMap obj).2 = false) :
    assertMap obj = (none, false) := by
  cases obj <;> simp_all [assertMap]

theorem assertArray_of_false {obj : Tree} (h : (assertArray obj).2 = false) :
    assertArray obj = ([], false) := by
  cases obj <;> simp_all [assertArray]

theorem apply_mapKey_nonMap {part : PathPart} {key : String} (obj : Tree) (rest : Path)
    (hk : part.MapKey = some key) (hobj : (assertMap obj).2 = false) :
    apply re ord obj (part :: rest) = (obj, .ok) := by
  rw [apply.eq_2]
  split
  · rw [assertMap_of_false hobj]; simp
  · simp_all

theorem apply_mapKey_last {part : PathPart} {key : String} (kvs : List (String × Tree))
    (hk : part.MapKey = some key) :
    apply re ord (.map kvs) [part] = (.map (mapDelete key kvs), .ok) := by
  rw [apply.eq_2]
  split
  · rename_i k hk'
    have : k = key := by simp_all
    subst this
    simp [assertMap, GoMap.entries]
  · simp_all

theorem apply_mapKey_missing {part : PathPart} {key : String} (kvs : List (String × Tree))
    {rest : Path} (hk : part.MapKey = some key) (hrest : rest ≠ [])
    (hl : mapLookup key kvs = none) :
    apply re ord (.map kvs) (part :: rest) = (.map kvs, .ok) := by
  rw [apply.eq_2]
  split
  · rename_i k hk'
    have : k = key := by simp_all
    subst this
    simp [assertMap, GoMap.entries, hrest, hl]
  · simp_all

theorem apply_mapKey_found {part : PathPart} {key : String} (kvs : List (String × Tree))
    {rest : Path} {child : Tree} (hk : part.MapKey = some key) (hrest : rest ≠ [])
    (hl : mapLookup key kvs = some child) :
    apply re ord (.map kvs) (part :: rest) =
      (.map (mapUpdate key (apply re ord child rest).1 kvs), (apply re ord child rest).2) := by
  rw [apply.eq_2]
  split
  · rename_i k hk'
    have : k = key := by simp_all
    subst this
    simp [assertMap, GoMap.entries, hrest, hl]
  · simp_all

theorem apply_arrayIndex_last {part : PathPart} {arrayIndex : PathPartArrayIndex} (obj : Tree)
    (hk : part.MapKey = none) (ha : part.ArrayIndex = some arrayIndex)
    (hr : part.RegexObj.Regex = none) :
    apply re ord obj [part] = (obj, .error .lastPartNotMapKey) := by
  rw [apply.eq_2]
  split
  · simp_all
  · simp [ha, hr]

theorem apply_all_nonArray {part : PathPart} {arrayIndex : PathPartArrayIndex} {all : Bool}
    (obj : Tree) {rest : Path}
    (hk : part.MapKey = none) (ha : part.ArrayIndex = some arrayIndex)
    (hlast : rest ≠ [] ∨ part.RegexObj.Regex ≠ none)
    (hall : arrayIndex.All = some all) (hobj : (assertArray obj).2 = false) :
    apply re ord obj (part :: rest) = (obj, .error (.nonArrayFound obj.goType)) := by
  have hl : (rest.isEmpty && part.RegexObj.Regex.isNone) = false := by
    rcases hlast with h | h
    · simp [h]
    · cases hreg : part.RegexObj.Regex <;> simp_all
  rw [apply.eq_2]
  split
  · simp_all
  · simp [ha, hl, hall, assertArray_of_false hobj]

theorem apply_all_array {part : PathPart} {arrayIndex : PathPartArrayIndex} {all : Bool}
    (xs : List Tree) {rest : Path}
    (hk : part.MapKey = none) (ha : part.ArrayIndex = some arrayIndex)
    (hlast : rest ≠ [] ∨ part.RegexObj.Regex ≠ none)
    (hall : arrayIndex.All = some all) :
    apply re ord (.array xs) (part :: rest) =
      (.array (rangeElems (fun elem => apply re ord elem rest) xs).1,
        (rangeElems (fun elem => apply re ord elem rest) xs).2) := by
  have hl : (rest.isEmpty && part.RegexObj.Regex.isNone) = false := by
    rcases hlast with h | h
    · simp [h]
    · cases hreg : part.RegexObj.Regex <;> simp_all
  rw [apply.eq_2]
  split
  · simp_all
  · simp [ha, hl, hall, assertArray]

theorem apply_index_nonArray {part : PathPart} {arrayIndex : PathPartArrayIndex} {index : Int}
    (obj : Tree) {rest : Path}
    (hk : part.MapKey = none) (ha : part.ArrayIndex = some arrayIndex)
    (hlast : rest ≠ [] ∨ part.RegexObj.Regex ≠ none)
    (hall : arrayIndex.All = none) (hidx : arrayIndex.Index = some index)
    (hobj : (assertArray obj).2 = false) :
    apply re ord obj (part :: rest) = (obj, .error (.nonArrayFound obj.goType)) := by
  have hl : (rest.isEmpty && part.RegexObj.Regex.isNone) = false := by
    rcases hlast with h | h
    · simp [h]
    · cases hreg : part.RegexObj.Regex <;> simp_all
  rw [apply.eq_2]
  split
  · simp_all
  · simp [ha, hl, hall, hidx, assertArray_of_false hobj]

theorem apply_index_beyond {part : PathPart} {arrayIndex : PathPartArrayIndex} {index : Int}
    (xs : List Tree) {rest : Path}
    (hk : part.MapKey = none) (ha : part.ArrayIndex = some arrayIndex)
    (hlast : rest ≠ [] ∨ part.RegexObj.Regex ≠ none)
    (hall : arrayIndex.All = none) (hidx : arrayIndex.Index = some index)
    (hlen : (xs.length : Int) ≤ index) :
    apply re ord (.array xs) (part :: rest) = (.array xs, .ok) := by
  have hl : (rest.isEmpty && part.RegexObj.Regex.isNone) = false := by
    rcases hlast with h | h
    · simp [h]
    · cases hreg : part.RegexObj.Regex <;> simp_all
  rw [apply.eq_2]
  split
  · simp_all
  · simp [ha, hl, hall, hidx, assertArray]
    omega

theorem apply_index_negative {part : PathPart} {arrayIndex : PathPartArrayIndex} {index : Int}
    (xs : List Tree) {rest : Path}
    (hk : part.MapKey = none) (ha : part.ArrayIndex = some arrayIndex)
    (hlast : rest ≠ [] ∨ part.RegexObj.Regex ≠ none)
    (hall : arrayIndex.All = none) (hidx : arrayIndex.Index = some index)
    (hneg : index < 0) :
    apply re ord (.array xs) (part :: rest) = (.array xs, .fault .indexOutOfRange) := by
  have hl : (rest.isEmpty && part.RegexObj.Regex.isNone) = false := by
    rcases hlast with h | h
    · simp [h]
    · cases hreg : part.RegexObj.Regex <;> simp_all
  rw [apply.eq_2]
  split
  · simp_all
  · have hlt : index < xs.length := by omega
    simp [ha, hl, hall, hidx, assertArray, hlt, hneg]

theorem apply_index_within {part : PathPart} {arrayIndex : PathPartArrayIndex} {index : Int}
    (xs : List Tree) {rest : Path} {child : Tree}
    (hk : part.MapKey = none) (ha : part.ArrayIndex = some arrayIndex)
    (hlast : rest ≠ [] ∨ part.RegexObj.Regex ≠ none)
    (hall : arrayIndex.All = none) (hidx : arrayIndex.Index = some index)
    (hpos : 0 ≤ index) (hget : xs[index.toNat]? = some child) :
    apply re ord (.array xs) (part :: rest) =
      (.array (xs.set index.toNat (apply re ord child rest).1), (apply re ord child rest).2) := by
  have hl : (rest.isEmpty && part.RegexObj.Regex.isNone) = false := by
    rcases hlast with h | h
    · simp [h]
    · cases hreg : part.RegexObj.Regex <;> simp_all
  have hlt : index < xs.length := by
    have := (List.getElem?_eq_some_iff.mp hget).1
    omega
  rw [apply.eq_2]
  split
  · simp_all
  · simp [ha, hl, hall, hidx, assertArray, hlt, hget, Int.not_lt.mpr hpos]

theorem apply_arrayIndex_unknown {part : PathPart} {arrayIndex : PathPartArrayIndex}
    (obj : Tree) {rest : Path}
    (hk : part.MapKey = none) (ha : part.ArrayIndex = some arrayIndex)
    (hlast : rest ≠ [] ∨ part.RegexObj.Regex ≠ none)
    (hall : arrayIndex.All = none) (hidx : arrayIndex.Index = none) :
    apply re ord obj (part :: rest) = (obj, .fault .unknownArrayIndex) := by
  have hl : (rest.isEmpty && part.RegexObj.Regex.isNone) = false := by
    rcases hlast with h | h
    · simp [h]
    · cases hreg : part.RegexObj.Regex <;> simp_all
  rw [apply.eq_2]
  split
  · simp_all
  · simp [ha, hl, hall, hidx]

theorem apply_unexpected {part : PathPart} (obj : Tree) (rest : Path)
    (hk : part.MapKey = none) (ha : part.ArrayIndex = none)
    (hr : part.RegexObj.Regex = none) :
    apply re ord obj (part :: rest) = (obj, .fault .unexpectedPathPart) := by
  rw [apply.eq_2]
  split
  · simp_all
  · simp [ha, hr]

theorem apply_regex {part : PathPart} {pattern : String} (obj : Tree) (rest : Path)
    (hk : part.MapKey = none) (ha : part.ArrayIndex = none)
    (hr : part.RegexObj.Regex = some pattern) :
    apply re ord obj (part :: rest) =
      match obtainMatchingRegexKeys re ord obj part with
      | (matchedKeys, .ok) =>
        rangeKeys (fun o key => apply re ord o (PathPart.mapKey key :: rest)) obj matchedKeys
      | (_, r) => (obj, r) := by
  rw [apply.eq_2]
  split
  · simp_all
  · simp [ha, hr]

/-! ## Facts about the map operations -/

theorem mapLookup_mapUpdate_self (key : String) (val : Tree) (kvs : List (String × Tree))
    {old : Tree} (h : mapLookup key kvs = some old) :
    mapLookup key (mapUpdate key val kvs) = some val := by
  induction kvs with
  | nil => simp [mapLookup] at h
  | cons kv kvs ih =>
    obtain ⟨k, v⟩ := kv
    by_cases hk : k = key
    · simp [mapUpdate, mapLookup, hk]
    · simp only [mapLookup, hk, if_false] at h
      simp [mapUpdate, mapLookup, hk, ih h]

theorem mapLookup_mapUpdate_other {key other : String} (val : Tree)
    (kvs : List (String × Tree)) (h : other ≠ key) :
    mapLookup other (mapUpdate key val kvs) = mapLookup other kvs := by
  induction kvs with
  | nil => simp [mapUpdate]
  | cons kv kvs ih =>
    obtain ⟨k, v⟩ := kv
    by_cases hk : k = key
    · have : ¬ k = other := fun e => h (e ▸ hk)
      simp [mapUpdate, mapLookup, hk]
      subst hk
      simp [this]
    · by_cases ho : k = other
      · subst ho
        simp [mapUpdate, mapLookup, hk]
      · simp [mapUpdate, mapLookup, hk, ho, ih]

theorem mapUpdate_same (key : String) (val : Tree) (kvs : List (String × Tree))
    (h : mapLookup key kvs = some val) : mapUpdate key val kvs = kvs := by
  induction kvs with
  | nil => rfl
  | cons kv kvs ih =>
    obtain ⟨k, v⟩ := kv
    by_cases hk : k = key
    · simp only [mapLookup, hk, if_true, Option.some.injEq] at h
      simp [mapUpdate, hk, h]
    · simp only [mapLookup, hk, if_false] at h
      simp [mapUpdate, hk, ih h]

theorem mapUpdate_keys (key : String) (val : Tree) (kvs : List (String × Tree)) :
    (mapUpdate key val kvs).map Prod.fst = kvs.map Prod.fst := by
  induction kvs with
  | nil => rfl
  | cons kv kvs ih =>
    obtain ⟨k, v⟩ := kv
    by_cases hk : k = key <;> simp [mapUpdate, hk, ih]

theorem mapDelete_eq_filter (key : String) (kvs : List (String × Tree)) :
    mapDelete key kvs = kvs.filter (fun kv => decide (kv.1 ≠ key)) := by
  induction kvs with
  | nil => rfl
  | cons kv kvs ih =>
    obtain ⟨k, v⟩ := kv
    by_cases hk : k = key <;> simp [mapDelete, hk, ih]

theorem mapLookup_eq_none_iff (key : String) (kvs : List (String × Tree)) :
    mapLookup key kvs = none ↔ key ∉ kvs.map Prod.fst := by
  induction kvs with
  | nil => simp [mapLookup]
  | cons kv kvs ih =>
    obtain ⟨k, v⟩ := kv
    by_cases hk : k = key
    · simp [mapLookup, hk]
    · have : ¬ key = k := fun e => hk e.symm
      simp [mapLookup, hk, ih, this]

theorem mapDelete_of_not_mem (key : String) (kvs : List (String × Tree))
    (h : key ∉ kvs.map Prod.fst) : mapDelete key kvs = kvs := by
  rw [mapDelete_eq_filter]
  apply List.filter_eq_self.mpr
  intro kv hkv
  have : kv.1 ≠ key := by
    intro e
    exact h (by rw [← e]; exact List.mem_map_of_mem _ hkv)
  simp [this]

theorem mapDelete_idem (key : String) (kvs : List (String × Tree)) :
    mapDelete key (mapDelete key kvs) = mapDelete key kvs := by
  simp [mapDelete_eq_filter, List.filter_filter]

theorem mapLookup_mapDelete_self (key : String) (kvs : List (String × Tree)) :
    mapLookup key (mapDelete key kvs) = none := by
  rw [mapLookup_eq_none_iff, mapDelete_eq_filter]
  simp

theorem mapLookup_mapDelete_other {key other : String} (kvs : List (String × Tree))
    (h : other ≠ key) : mapLookup other (mapDelete key kvs) = mapLookup other kvs := by
  induction kvs with
  | nil => rfl
  | cons kv kvs ih =>
    obtain ⟨k, v⟩ := kv
    by_cases hk : k = key
    · have : ¬ k = other := fun e => h (e ▸ hk)
      simp [mapDelete, mapLookup, hk, ih]
      subst hk
      simp [this]
    · by_cases ho : k = other
      · subst ho
        simp [mapDelete, mapLookup, hk]
      · simp [mapDelete, mapLookup, hk, ho, ih]

/-! ## Facts about the loop over the elements of a sequence -/

theorem rangeElems_cons_ok (body : Tree → Tree × Outcome) (x : Tree) (xs : List Tree)
    (h : (body x).2 = .ok) :
    rangeElems body (x :: xs) =
      ((body x).1 :: (rangeElems body xs).1, (rangeElems body xs).2) := by
  rcases hb : body x with ⟨x', r⟩
  rw [hb] at h
  simp only at h
  subst h
  simp [rangeElems, hb]

theorem rangeElems_cons_stop (body : Tree → Tree × Outcome) (x : Tree) (xs : List Tree)
    (h : (body x).2 ≠ .ok) :
    rangeElems body (x :: xs) = ((body x).1 :: xs, (body x).2) := by
  rcases hb : body x with ⟨x', r⟩
  rw [hb] at h
  simp only at h
  cases r with
  | ok => exact absurd rfl h
  | error e => simp [rangeElems, hb]
  | fault f => simp [rangeElems, hb]

theorem rangeElems_length (body : Tree → Tree × Outcome) (xs : List Tree) :
    (rangeElems body xs).1.length = xs.length := by
  induction xs with
  | nil => rfl
  | cons x xs ih =>
    by_cases h : (body x).2 = .ok
    · simp [rangeElems_cons_ok body x xs h, ih]
    · simp [rangeElems_cons_stop body x xs h]

theorem rangeElems_ok_iff (body : Tree → Tree × Outcome) (xs : List Tree) :
    (rangeElems body xs).2 = .ok ↔ ∀ x ∈ xs, (body x).2 = .ok := by
  induction xs with
  | nil => simp [rangeElems]
  | cons x xs ih =>
    by_cases h : (body x).2 = .ok
    · simp [rangeElems_cons_ok body x xs h, ih, h]
    · simp [rangeElems_cons_stop body x xs h, h]

theorem rangeElems_of_ok (body : Tree → Tree × Outcome) (xs : List Tree)
    (h : ∀ x ∈ xs, (body x).2 = .ok) :
    rangeElems body xs = (xs.map (fun x => (body x).1), .ok) := by
  induction xs with
  | nil => rfl
  | cons x xs ih =>
    have hx : (body x).2 = .ok := h x (List.mem_cons_self _ _)
    have hxs : ∀ y ∈ xs, (body y).2 = .ok := fun y hy => h y (List.mem_cons_of_mem _ hy)
    simp [rangeElems_cons_ok body x xs hx, ih hxs]

theorem rangeElems_first_stop (body : Tree → Tree × Outcome) (xs : List Tree) (k : Nat)
    (e : Tree) (hk : xs[k]? = some e) (hbad : (body e).2 ≠ .ok)
    (hbefore : ∀ j x, j < k → xs[j]? = some x → (body x).2 = .ok) :
    rangeElems body xs =
      ((xs.take k).map (fun x => (body x).1) ++ (body e).1 :: xs.drop (k + 1), (body e).2) := by
  induction xs generalizing k with
  | nil => simp at hk
  | cons x xs ih =>
    cases k with
    | zero =>
      simp only [List.getElem?_cons_zero, Option.some.injEq] at hk
      subst hk
      simp [rangeElems_cons_stop body x xs hbad]
    | succ k =>
      have hx : (body x).2 = .ok := hbefore 0 x (Nat.succ_pos k) (by simp)
      have hk' : xs[k]? = some e := by simpa using hk
      have hb' : ∀ j y, j < k → xs[j]? = some y → (body y).2 = .ok := by
        intro j y hj hy
        exact hbefore (j + 1) y (Nat.succ_lt_succ hj) (by simpa using hy)
      rw [rangeElems_cons_ok body x xs hx, ih k hk' hb']
      simp

/-- Storing at an offset the element already there changes nothing. -/
theorem list_set_same (xs : List Tree) (i : Nat) (x : Tree) (h : xs[i]? = some x) :
    xs.set i x = xs := by
  induction xs generalizing i with
  | nil => rfl
  | cons y ys ih =>
    cases i with
    | zero =>
      simp only [List.getElem?_cons_zero, Option.some.injEq] at h
      simp [h]
    | succ i =>
      have h' : ys[i]? = some x := by simpa using h
      simp [ih i h']

/-! ## Paths that do not resolve -/

theorem failsToResolve_rest_ne_nil {obj : Tree} {rest : Path}
    (h : failsToResolve obj rest = true) : rest ≠ [] := by
  intro e
  subst e
  simp [failsToResolve] at h

theorem apply_of_failsToResolve (obj : Tree) (path : Path)
    (h : failsToResolve obj path = true) : apply re ord obj path = (obj, .ok) := by
  induction path generalizing obj with
  | nil => simp [failsToResolve] at h
  | cons part rest ih =>
    cases hk : part.MapKey with
    | some key =>
      cases obj with
      | null => exact apply_mapKey_nonMap re ord _ _ hk rfl
      | scalar v => simp [failsToResolve, hk] at h
      | array xs => simp [failsToResolve, hk] at h
      | map kvs =>
        cases hl : mapLookup key kvs with
        | none =>
          by_cases hrest : rest = []
          · subst hrest
            rw [apply_mapKey_last re ord kvs hk,
              mapDelete_of_not_mem key kvs ((mapLookup_eq_none_iff key kvs).mp hl)]
          · exact apply_mapKey_missing re ord kvs hk hrest hl
        | some child =>
          simp only [failsToResolve, hk, hl] at h
          have hrest := failsToResolve_rest_ne_nil h
          rw [apply_mapKey_found re ord kvs hk hrest hl, ih child h]
          simp [mapUpdate_same key child kvs hl]
    | none =>
      cases ha : part.ArrayIndex with
      | none => simp [failsToResolve, hk, ha] at h
      | some arrayIndex =>
        cases hall : arrayIndex.All with
        | some b => simp [failsToResolve, hk, ha, hall] at h
        | none =>
          cases hidx : arrayIndex.Index with
          | none => simp [failsToResolve, hk, ha, hall, hidx] at h
          | some index =>
            cases obj with
            | null => simp [failsToResolve, hk, ha, hall, hidx] at h
            | scalar v => simp [failsToResolve, hk, ha, hall, hidx] at h
            | map kvs => simp [failsToResolve, hk, ha, hall, hidx] at h
            | array xs =>
              simp only [failsToResolve, hk, ha, hall, hidx] at h
              by_cases hrest : rest = []
              · simp [hrest] at h
              · have hre : rest.isEmpty = false := by simpa using hrest
                simp only [hre, Bool.false_eq_true, if_false] at h
                by_cases hlen : (xs.length : Int) ≤ index
                · exact apply_index_beyond re ord xs hk ha (Or.inl hrest) hall hidx hlen
                · simp only [hlen, if_false] at h
                  by_cases hneg : index < 0
                  · simp [hneg] at h
                  · simp only [hneg, if_false] at h
                    cases hget : xs[index.toNat]? with
                    | none => simp [hget] at h
                    | some child =>
                      simp only [hget] at h
                      rw [apply_index_within re ord xs hk ha (Or.inl hrest) hall hidx
                        (Int.not_lt.mp hneg) hget, ih child h]
                      simp only [Prod.mk.injEq, Tree.array.injEq, and_true]
                      exact list_set_same xs _ child hget

/-! ## Paths that lead to a node -/

theorem apply_of_descend (T : Tree) (P : Path) (a : PathPart) (n : Tree)
    (arrayIndex : PathPartArrayIndex)
    (hk : a.MapKey = none) (ha : a.ArrayIndex = some arrayIndex)
    (hr : a.RegexObj.Regex = none) (hd : descend T P = some n) :
    apply re ord T (P ++ [a]) = (T, .error .lastPartNotMapKey) := by
  induction P generalizing T with
  | nil => exact apply_arrayIndex_last re ord T hk ha hr
  | cons part rest ih =>
    have hne : rest ++ [a] ≠ [] := by simp
    cases hpk : part.MapKey with
    | some key =>
      cases T with
      | null => simp [descend, hpk] at hd
      | scalar v => simp [descend, hpk] at hd
      | array xs => simp [descend, hpk] at hd
      | map kvs =>
        cases hl : mapLookup key kvs with
        | none => simp [descend, hpk, hl] at hd
        | some child =>
          simp only [descend, hpk, hl] at hd
          rw [List.cons_append, apply_mapKey_found re ord kvs hpk hne hl, ih child hd]
          simp [mapUpdate_same key child kvs hl]
    | none =>
      cases hpa : part.ArrayIndex with
      | none => simp [descend, hpk, hpa] at hd
      | some ai =>
        cases hall : ai.All with
        | some b => simp [descend, hpk, hpa, hall] at hd
        | none =>
          cases hidx : ai.Index with
          | none => simp [descend, hpk, hpa, hall, hidx] at hd
          | some index =>
            cases T with
            | null => simp [descend, hpk, hpa, hall, hidx] at hd
            | scalar v => simp [descend, hpk, hpa, hall, hidx] at hd
            | map kvs => simp [descend, hpk, hpa, hall, hidx] at hd
            | array xs =>
              simp only [descend, hpk, hpa, hall, hidx] at hd
              by_cases hneg : index < 0
              · simp [hneg] at hd
              · simp only [hneg, if_false] at hd
                cases hget : xs[index.toNat]? with
                | none => simp [hget] at hd
                | some child =>
                  simp only [hget] at hd
                  rw [List.cons_append, apply_index_within re ord xs hpk hpa (Or.inl hne) hall hidx
                    (Int.not_lt.mp hneg) hget, ih child hd]
                  simp only [Prod.mk.injEq, Tree.array.injEq, and_true]
                  exact list_set_same xs _ child hget

/-! ## The regex case -/

theorem mem_rangeOrder (keys : List String) (k : String) :
    k ∈ ord.rangeOrder keys ↔ k ∈ keys :=
  (ord.rangeOrder_perm keys).mem_iff

theorem rangeOrder_nil : ord.rangeOrder [] = [] :=
  List.Perm.eq_nil (ord.rangeOrder_perm [])

theorem obtainMatchingRegexKeys_compiled {part : PathPart} {pattern : String}
    {regex : String → Bool} (obj : Tree)
    (hr : part.RegexObj.Regex = some pattern) (hc : re.Compile pattern = .ok regex) :
    obtainMatchingRegexKeys re ord obj part =
      ((ord.rangeOrder (((assertMap obj).1.entries).map Prod.fst)).filter regex, .ok) := by
  cases obj <;> simp [obtainMatchingRegexKeys, hr, hc, assertMap]

theorem obtainMatchingRegexKeys_failed {part : PathPart} {pattern : String}
    {msg : String} (obj : Tree)
    (hr : part.RegexObj.Regex = some pattern) (hc : re.Compile pattern = .error msg) :
    obtainMatchingRegexKeys re ord obj part = ([], .error (.regexCompile msg)) := by
  simp [obtainMatchingRegexKeys, hr, hc]

theorem apply_regex_compiled {part : PathPart} {pattern : String} {regex : String → Bool}
    (obj : Tree) (rest : Path)
    (hk : part.MapKey = none) (ha : part.ArrayIndex = none)
    (hr : part.RegexObj.Regex = some pattern) (hc : re.Compile pattern = .ok regex) :
    apply re ord obj (part :: rest) =
      rangeKeys (fun o key => apply re ord o (PathPart.mapKey key :: rest)) obj
        ((ord.rangeOrder (((assertMap obj).1.entries).map Prod.fst)).filter regex) := by
  rw [apply_regex re ord obj rest hk ha hr, obtainMatchingRegexKeys_compiled re ord obj hr hc]

theorem apply_regex_failed {part : PathPart} {pattern : String} {msg : String}
    (obj : Tree) (rest : Path)
    (hk : part.MapKey = none) (ha : part.ArrayIndex = none)
    (hr : part.RegexObj.Regex = some pattern) (hc : re.Compile pattern = .error msg) :
    apply re ord obj (part :: rest) = (obj, .error (.regexCompile msg)) := by
  rw [apply_regex re ord obj rest hk ha hr, obtainMatchingRegexKeys_failed re ord obj hr hc]

theorem rangeKeys_cons_ok (body : Tree → String → Tree × Outcome) (obj : Tree)
    (key : String) (keys : List String) (h : (body obj key).2 = .ok) :
    rangeKeys body obj (key :: keys) = rangeKeys body (body obj key).1 keys := by
  rcases hb : body obj key with ⟨o, r⟩
  rw [hb] at h
  simp only at h
  subst h
  simp [rangeKeys, hb]

theorem rangeKeys_cons_stop (body : Tree → String → Tree × Outcome) (obj : Tree)
    (key : String) (keys : List String) (h : (body obj key).2 ≠ .ok) :
    rangeKeys body obj (key :: keys) = body obj key := by
  rcases hb : body obj key with ⟨o, r⟩
  rw [hb] at h
  simp only at h
  cases r with
  | ok => exact absurd rfl h
  | error e => simp [rangeKeys, hb]
  | fault f => simp [rangeKeys, hb]

/-- Deleting a list of keys one after the other keeps the entries whose key
is not in the list. -/
theorem rangeKeys_delete (kvs : List (String × Tree)) (keys : List String) :
    rangeKeys (fun o key => apply re ord o [PathPart.mapKey key]) (.map kvs) keys =
      (.map (kvs.filter (fun kv => decide (kv.1 ∉ keys))), .ok) := by
  induction keys generalizing kvs with
  | nil => simp [rangeKeys]
  | cons key keys ih =>
    have hb : apply re ord (.map kvs) [PathPart.mapKey key] = (.map (mapDelete key kvs), .ok) :=
      apply_mapKey_last re ord kvs rfl
    rw [rangeKeys_cons_ok _ _ _ _ (by simp [hb])]
    simp only [hb, ih, mapDelete_eq_filter, List.filter_filter]
    simp only [Prod.mk.injEq, Tree.map.injEq, and_true]
    apply List.filter_congr
    intro kv _
    by_cases h1 : kv.1 = key <;> simp [h1]

theorem apply_terminal_regex {part : PathPart} {pattern : String} {regex : String → Bool}
    (kvs : List (String × Tree))
    (hk : part.MapKey = none) (ha : part.ArrayIndex = none)
    (hr : part.RegexObj.Regex = some pattern) (hc : re.Compile pattern = .ok regex) :
    apply re ord (.map kvs) [part] = (.map (kvs.filter (fun kv => !regex kv.1)), .ok) := by
  rw [apply_regex_compiled re ord _ _ hk ha hr hc, rangeKeys_delete]
  simp only [Prod.mk.injEq, Tree.map.injEq, and_true, assertMap, GoMap.entries]
  apply List.filter_congr
  intro kv hkv
  by_cases hm : regex kv.1 = true
  · have : kv.1 ∈ List.filter regex (ord.rangeOrder (List.map Prod.fst kvs)) :=
      List.mem_filter.mpr
        ⟨(mem_rangeOrder ord _ _).mpr (List.mem_map_of_mem _ hkv), hm⟩
    simp [hm, this]
  · have : kv.1 ∉ List.filter regex (ord.rangeOrder (List.map Prod.fst kvs)) :=
      fun h => hm (List.mem_filter.mp h).2
    simp [hm, this]

/-- A regex part whose pattern compiles finds no key in a node that is not
a mapping and returns `nil`. -/
theorem apply_regex_nonMap {part : PathPart} {pattern : String} {regex : String → Bool}
    (obj : Tree) (rest : Path)
    (hk : part.MapKey = none) (ha : part.ArrayIndex = none)
    (hr : part.RegexObj.Regex = some pattern) (hc : re.Compile pattern = .ok regex)
    (hobj : (assertMap obj).2 = false) :
    apply re ord obj (part :: rest) = (obj, .ok) := by
  rw [apply_regex_compiled re ord obj rest hk ha hr hc, assertMap_of_false hobj]
  simp [GoMap.entries, rangeOrder_nil, rangeKeys]

/-! ## The same steps for the four plain kinds of part -/

theorem apply_mapKey_nonMap_plain (obj : Tree) (key : String) (rest : Path)
    (hobj : (assertMap obj).2 = false) :
    apply re ord obj (.mapKey key :: rest) = (obj, .ok) :=
  apply_mapKey_nonMap re ord obj rest rfl hobj

theorem apply_mapKey_last_plain (kvs : List (String × Tree)) (key : String) :
    apply re ord (.map kvs) [.mapKey key] = (.map (mapDelete key kvs), .ok) :=
  apply_mapKey_last re ord kvs rfl

theorem apply_mapKey_missing_plain (kvs : List (String × Tree)) (key : String)
    (rest : Path) (hrest : rest ≠ []) (hl : mapLookup key kvs = none) :
    apply re ord (.map kvs) (.mapKey key :: rest) = (.map kvs, .ok) :=
  apply_mapKey_missing re ord kvs rfl hrest hl

theorem apply_mapKey_found_plain (kvs : List (String × Tree)) (key : String)
    (rest : Path) (child : Tree) (hrest : rest ≠ [])
    (hl : mapLookup key kvs = some child) :
    apply re ord (.map kvs) (.mapKey key :: rest) =
      (.map (mapUpdate key (apply re ord child rest).1 kvs), (apply re ord child rest).2) :=
  apply_mapKey_found re ord kvs rfl hrest hl

theorem apply_all_nonArray_plain (obj : Tree) (rest : Path) (hrest : rest ≠ [])
    (hobj : (assertArray obj).2 = false) :
    apply re ord obj (.all :: rest) = (obj, .error (.nonArrayFound obj.goType)) :=
  @apply_all_nonArray re ord PathPart.all _ true obj rest rfl rfl (Or.inl hrest) rfl hobj

theorem apply_all_array_plain (xs : List Tree) (rest : Path) (hrest : rest ≠ []) :
    apply re ord (.array xs) (.all :: rest) =
      (.array (rangeElems (fun elem => apply re ord elem rest) xs).1,
        (rangeElems (fun elem => apply re ord elem rest) xs).2) :=
  @apply_all_array re ord PathPart.all _ true xs rest rfl rfl (Or.inl hrest) rfl

theorem apply_index_nonArray_plain (obj : Tree) (i : Int) (rest : Path) (hrest : rest ≠ [])
    (hobj : (assertArray obj).2 = false) :
    apply re ord obj (.index i :: rest) = (obj, .error (.nonArrayFound obj.goType)) :=
  @apply_index_nonArray re ord (PathPart.index i) _ i obj rest rfl rfl (Or.inl hrest)
    rfl rfl hobj

theorem apply_regex_compiled_plain (obj : Tree) (pattern : String) (regex : String → Bool)
    (rest : Path) (hc : re.Compile pattern = .ok regex) :
    apply re ord obj (.regex pattern :: rest) =
      rangeKeys (fun o key => apply re ord o (PathPart.mapKey key :: rest)) obj
        ((ord.rangeOrder (((assertMap obj).1.entries).map Prod.fst)).filter regex) :=
  apply_regex_compiled re ord obj rest rfl rfl rfl hc

theorem apply_regex_nonMap_plain (obj : Tree) (pattern : String) (regex : String → Bool)
    (rest : Path) (hc : re.Compile pattern = .ok regex) (hobj : (assertMap obj).2 = false) :
    apply re ord obj (.regex pattern :: rest) = (obj, .ok) :=
  apply_regex_nonMap re ord obj rest rfl rfl rfl hc hobj

theorem apply_terminal_regex_plain (kvs : List (String × Tree)) (pattern : String)
    (regex : String → Bool) (hc : re.Compile pattern = .ok regex) :
    apply re ord (.map kvs) [.regex pattern] =
      (.map (kvs.filter (fun kv => !regex kv.1)), .ok) :=
  apply_terminal_regex re ord kvs rfl rfl rfl hc

/-! ## Chains of map keys -/

theorem apply_mapKey_chain (T : Tree) (ks : List String) (k : String)
    (m : List (String × Tree)) (h : lookupPath ks T = some (.map m)) :
    apply re ord T ((ks ++ [k]).map PathPart.mapKey) = (deleteAt (ks ++ [k]) T, .ok) := by
  induction ks generalizing T with
  | nil =>
    simp only [lookupPath, Option.some.injEq] at h
    subst h
    simp [apply_mapKey_last_plain re ord m k, deleteAt]
  | cons k1 ks ih =>
    cases T with
    | null => simp [lookupPath] at h
    | scalar v => simp [lookupPath] at h
    | array xs => simp [lookupPath] at h
    | map kvs =>
      cases hl : mapLookup k1 kvs with
      | none => simp [lookupPath, hl] at h
      | some child =>
        simp only [lookupPath, hl] at h
        have hne : (ks ++ [k]).map PathPart.mapKey ≠ [] := by simp
        rw [List.cons_append, List.map_cons,
          apply_mapKey_found_plain re ord kvs k1 _ child hne hl, ih child h]
        simp [deleteAt, hl]

theorem lookupPath_deleteAt_target (T : Tree) (ks : List String) (k : String)
    (m : List (String × Tree)) (h : lookupPath ks T = some (.map m)) :
    lookupPath ks (deleteAt (ks ++ [k]) T) =
      some (.map (m.filter (fun kv => decide (kv.1 ≠ k)))) := by
  induction ks generalizing T with
  | nil =>
    simp only [lookupPath, Option.some.injEq] at h
    subst h
    simp [deleteAt, lookupPath, mapDelete_eq_filter]
  | cons k1 ks ih =>
    cases T with
    | null => simp [lookupPath] at h
    | scalar v => simp [lookupPath] at h
    | array xs => simp [lookupPath] at h
    | map kvs =>
      cases hl : mapLookup k1 kvs with
      | none => simp [lookupPath, hl] at h
      | some child =>
        simp only [lookupPath, hl] at h
        simp [deleteAt, hl, lookupPath, mapLookup_mapUpdate_self k1 _ kvs hl, ih child h]

theorem deleteAt_of_absent (T : Tree) (ks : List String) (k : String)
    (m : List (String × Tree)) (h : lookupPath ks T = some (.map m))
    (hk : k ∉ m.map Prod.fst) : deleteAt (ks ++ [k]) T = T := by
  induction ks generalizing T with
  | nil =>
    simp only [lookupPath, Option.some.injEq] at h
    subst h
    simp [deleteAt, mapDelete_of_not_mem k m hk]
  | cons k1 ks ih =>
    cases T with
    | null => simp [lookupPath] at h
    | scalar v => simp [lookupPath] at h
    | array xs => simp [lookupPath] at h
    | map kvs =>
      cases hl : mapLookup k1 kvs with
      | none => simp [lookupPath, hl] at h
      | some child =>
        simp only [lookupPath, hl] at h
        simp [deleteAt, hl, ih child h, mapUpdate_same k1 child kvs hl]

theorem diverge_nil_right (q : List String) : diverge q [] = false := by
  cases q <;> rfl

theorem lookupPath_deleteAt_diverge (p : List String) (T : Tree) (q : List String)
    (h : diverge q p = true) : lookupPath q (deleteAt p T) = lookupPath q T := by
  induction p generalizing T q with
  | nil => simp [diverge_nil_right] at h
  | cons key keys ih =>
    cases q with
    | nil => simp [diverge] at h
    | cons a q' =>
      cases T with
      | null => rfl
      | scalar v => rfl
      | array xs => rfl
      | map kvs =>
        by_cases hak : a = key
        · subst hak
          simp only [diverge, if_true] at h
          have hne : keys.isEmpty = false := by
            cases keys with
            | nil => simp [diverge_nil_right] at h
            | cons k ks => rfl
          simp only [deleteAt, hne]
          cases hl : mapLookup a kvs with
          | none => rfl
          | some child =>
            simp only [lookupPath, mapLookup_mapUpdate_self a _ kvs hl, hl]
            exact ih child q' h
        · simp only [deleteAt]
          split
          · simp [lookupPath, mapLookup_mapDelete_other kvs hak]
          · split
            · rfl
            · simp [lookupPath, mapLookup_mapUpdate_other _ kvs hak]

/-! ## Running `apply` a second time -/

/-- The three shapes of a call whose first part is a map key part that is
not the last part. -/
theorem apply_mapKey_inner (obj : Tree) (key : String) {rest : Path} (hrest : rest ≠ []) :
    (apply re ord obj (PathPart.mapKey key :: rest) = (obj, .ok) ∧
        ∀ kvs, obj = .map kvs → mapLookup key kvs = none) ∨
      ∃ kvs child, obj = .map kvs ∧ mapLookup key kvs = some child ∧
        apply re ord obj (PathPart.mapKey key :: rest) =
          (.map (mapUpdate key (apply re ord child rest).1 kvs), (apply re ord child rest).2) := by
  cases obj with
  | null => exact Or.inl ⟨apply_mapKey_nonMap re ord _ _ rfl rfl, by intro kvs h; cases h⟩
  | scalar v => exact Or.inl ⟨apply_mapKey_nonMap re ord _ _ rfl rfl, by intro kvs h; cases h⟩
  | array xs => exact Or.inl ⟨apply_mapKey_nonMap re ord _ _ rfl rfl, by intro kvs h; cases h⟩
  | map kvs =>
    cases hl : mapLookup key kvs with
    | none =>
      refine Or.inl ⟨apply_mapKey_missing re ord kvs rfl hrest hl, ?_⟩
      intro kvs' h
      cases h
      exact hl
    | some child =>
      exact Or.inr ⟨kvs, child, rfl, hl, apply_mapKey_found re ord kvs rfl hrest hl⟩

/-- A map key part that is not last leaves the keys of a node as they are. -/
theorem keys_apply_mapKey_inner (obj : Tree) (key : String) {rest : Path}
    (hrest : rest ≠ []) :
    ((assertMap (apply re ord obj (PathPart.mapKey key :: rest)).1).1.entries).map Prod.fst =
      ((assertMap obj).1.entries).map Prod.fst := by
  rcases apply_mapKey_inner re ord obj key hrest with ⟨h, -⟩ | ⟨kvs, child, ho, -, h⟩
  · rw [h]
  · rw [h, ho]
    simp [assertMap, GoMap.entries, mapUpdate_keys]

theorem keys_rangeKeys_inner (obj : Tree) (keys : List String) {rest : Path}
    (hrest : rest ≠ []) :
    ((assertMap (rangeKeys (fun o key => apply re ord o (PathPart.mapKey key :: rest))
        obj keys).1).1.entries).map Prod.fst =
      ((assertMap obj).1.entries).map Prod.fst := by
  induction keys generalizing obj with
  | nil => rfl
  | cons key keys ih =>
    by_cases h : (apply re ord obj (PathPart.mapKey key :: rest)).2 = .ok
    · rw [rangeKeys_cons_ok _ obj key keys h, ih, keys_apply_mapKey_inner re ord obj key hrest]
    · rw [rangeKeys_cons_stop _ obj key keys h, keys_apply_mapKey_inner re ord obj key hrest]

/-- A key whose call changes nothing and returns `nil` stays so after the
call for any key. -/
theorem settled_after_step (obj : Tree) (k k' : String) {rest : Path} (hrest : rest ≠ [])
    (hs : apply re ord obj (PathPart.mapKey k :: rest) = (obj, .ok)) :
    apply re ord (apply re ord obj (PathPart.mapKey k' :: rest)).1 (PathPart.mapKey k :: rest) =
      ((apply re ord obj (PathPart.mapKey k' :: rest)).1, .ok) := by
  rcases apply_mapKey_inner re ord obj k' hrest with ⟨h, -⟩ | ⟨kvs, c', ho, hl', h⟩
  · rw [h]
    exact hs
  · subst ho
    rw [h]
    by_cases hkk : k = k'
    · subst hkk
      have hs' := hs
      rw [h] at hs'
      rw [hs']
      exact hs
    · rcases apply_mapKey_inner re ord (.map kvs) k hrest with ⟨-, hn⟩ | ⟨kvs2, c, ho2, hl, h2⟩
      · have hl : mapLookup k kvs = none := hn kvs rfl
        exact apply_mapKey_missing re ord _ rfl hrest
          (by rw [mapLookup_mapUpdate_other _ kvs hkk]; exact hl)
      · cases ho2
        rw [h2] at hs
        simp only [Prod.mk.injEq, Tree.map.injEq] at hs
        obtain ⟨hupd, hok⟩ := hs
        have hc : (apply re ord c rest).1 = c := by
          have := mapLookup_mapUpdate_self k (apply re ord c rest).1 kvs hl
          rw [hupd, hl] at this
          exact (Option.some.inj this).symm
        have hl2 : mapLookup k (mapUpdate k' (apply re ord c' rest).1 kvs) = some c := by
          rw [mapLookup_mapUpdate_other _ kvs hkk]; exact hl
        rw [apply_mapKey_found re ord _ rfl hrest hl2, hc, hok,
          mapUpdate_same k c _ hl2]

theorem settled_after_rangeKeys (obj : Tree) (k : String) (keys : List String)
    {rest : Path} (hrest : rest ≠ [])
    (hs : apply re ord obj (PathPart.mapKey k :: rest) = (obj, .ok)) :
    apply re ord (rangeKeys (fun o key => apply re ord o (PathPart.mapKey key :: rest)) obj keys).1
        (PathPart.mapKey k :: rest) =
      ((rangeKeys (fun o key => apply re ord o (PathPart.mapKey key :: rest)) obj keys).1, .ok) := by
  induction keys generalizing obj with
  | nil => exact hs
  | cons k' keys ih =>
    by_cases h : (apply re ord obj (PathPart.mapKey k' :: rest)).2 = .ok
    · rw [rangeKeys_cons_ok _ obj k' keys h]
      exact ih _ (settled_after_step re ord obj k k' hrest hs)
    · rw [rangeKeys_cons_stop _ obj k' keys h]
      exact settled_after_step re ord obj k k' hrest hs

/-- Running the loop over the keys again, on the node the first run left,
changes nothing and ends the same way. -/
theorem rangeKeys_stable (obj : Tree) (keys : List String) {rest : Path}
    (hrest : rest ≠ [])
    (hstep : ∀ o key, apply re ord (apply re ord o (PathPart.mapKey key :: rest)).1
      (PathPart.mapKey key :: rest) = apply re ord o (PathPart.mapKey key :: rest)) :
    rangeKeys (fun o key => apply re ord o (PathPart.mapKey key :: rest))
        (rangeKeys (fun o key => apply re ord o (PathPart.mapKey key :: rest)) obj keys).1 keys =
      rangeKeys (fun o key => apply re ord o (PathPart.mapKey key :: rest)) obj keys := by
  induction keys generalizing obj with
  | nil => rfl
  | cons k keys ih =>
    by_cases h : (apply re ord obj (PathPart.mapKey k :: rest)).2 = .ok
    · have hs : apply re ord (apply re ord obj (PathPart.mapKey k :: rest)).1
          (PathPart.mapKey k :: rest) = ((apply re ord obj (PathPart.mapKey k :: rest)).1, .ok) := by
        rw [hstep obj k]
        exact Prod.ext rfl h
      have hs' := settled_after_rangeKeys re ord _ k keys hrest hs
      rw [rangeKeys_cons_ok _ obj k keys h]
      rw [rangeKeys_cons_ok _ _ k keys (by rw [hs'])]
      rw [hs']
      exact ih _
    · rw [rangeKeys_cons_stop _ obj k keys h]
      have h2 : (apply re ord (apply re ord obj (PathPart.mapKey k :: rest)).1
          (PathPart.mapKey k :: rest)).2 ≠ .ok := by rw [hstep obj k]; exact h
      rw [rangeKeys_cons_stop _ _ k keys h2]
      exact hstep obj k

/-- Running the loop over the elements again, on the elements the first run
left, changes nothing and ends the same way. -/
theorem rangeElems_stable (body : Tree → Tree × Outcome) (xs : List Tree)
    (hbody : ∀ x, body (body x).1 = body x) :
    rangeElems body (rangeElems body xs).1 = rangeElems body xs := by
  induction xs with
  | nil => rfl
  | cons x xs ih =>
    by_cases h : (body x).2 = .ok
    · rw [rangeElems_cons_ok body x xs h]
      have h2 : (body (body x).1).2 = .ok := by rw [hbody x]; exact h
      rw [rangeElems_cons_ok body _ _ h2, ih, hbody x]
    · rw [rangeElems_cons_stop body x xs h]
      have h2 : (body (body x).1).2 ≠ .ok := by rw [hbody x]; exact h
      rw [rangeElems_cons_stop body _ _ h2, hbody x]

theorem pathRank_tail_lt (part : PathPart) (rest : Path) :
    pathRank rest < pathRank (part :: rest) := by
  cases rest with
  | nil => simp [pathRank]
  | cons p r =>
    simp only [pathRank, List.length_cons]
    split <;> split <;> omega

theorem pathRank_mapKey_lt {part : PathPart} (key : String) (rest : Path)
    (hk : part.MapKey = none) :
    pathRank (PathPart.mapKey key :: rest) < pathRank (part :: rest) := by
  simp [pathRank, PathPart.mapKey, hk]

/-- A call that hands back the node it was given ends the same way when it
is run on that node again. -/
theorem stable_of_unchanged {obj : Tree} {path : Path} {r : Outcome}
    (h : apply re ord obj path = (obj, r)) :
    apply re ord (apply re ord obj path).1 path = apply re ord obj path := by
  rw [h]
  exact h

/-- Running `apply` a second time with the same path on the tree the first
run left leaves that tree as it is and ends as the first run did. -/
theorem apply_stable_aux (n : Nat) :
    ∀ (obj : Tree) (path : Path), pathRank path ≤ n →
      apply re ord (apply re ord obj path).1 path = apply re ord obj path := by
  induction n using Nat.strong_induction_on with
  | _ n ih =>
    intro obj path hn
    cases path with
    | nil => simp [apply.eq_1]
    | cons part rest =>
      have ihrest : ∀ o, apply re ord (apply re ord o rest).1 rest = apply re ord o rest := fun o =>
        ih (pathRank rest) (lt_of_lt_of_le (pathRank_tail_lt part rest) hn) o rest le_rfl
      cases hk : part.MapKey with
      | some key =>
        cases obj with
        | null => exact stable_of_unchanged re ord (apply_mapKey_nonMap re ord _ _ hk rfl)
        | scalar v => exact stable_of_unchanged re ord (apply_mapKey_nonMap re ord _ _ hk rfl)
        | array xs => exact stable_of_unchanged re ord (apply_mapKey_nonMap re ord _ _ hk rfl)
        | map kvs =>
          by_cases hrest : rest = []
          · subst hrest
            rw [apply_mapKey_last re ord kvs hk]
            simp only
            rw [apply_mapKey_last re ord _ hk, mapDelete_idem]
          · cases hl : mapLookup key kvs with
            | none => exact stable_of_unchanged re ord (apply_mapKey_missing re ord kvs hk hrest hl)
            | some child =>
              rw [apply_mapKey_found re ord kvs hk hrest hl]
              simp only
              have hl2 := mapLookup_mapUpdate_self key (apply re ord child rest).1 kvs hl
              rw [apply_mapKey_found re ord _ hk hrest hl2, ihrest child,
                mapUpdate_same key _ _ hl2]
      | none =>
        cases ha : part.ArrayIndex with
        | none =>
          cases hr : part.RegexObj.Regex with
          | none => exact stable_of_unchanged re ord (apply_unexpected re ord obj rest hk ha hr)
          | some pattern =>
            cases hc : re.Compile pattern with
            | error msg =>
              exact stable_of_unchanged re ord (apply_regex_failed re ord obj rest hk ha hr hc)
            | ok regex =>
              by_cases hrest : rest = []
              · subst hrest
                cases obj with
                | map kvs =>
                  rw [apply_terminal_regex re ord kvs hk ha hr hc]
                  simp only
                  rw [apply_terminal_regex re ord _ hk ha hr hc, List.filter_filter]
                  simp
                | null =>
                  exact stable_of_unchanged re ord
                    (apply_regex_nonMap re ord _ _ hk ha hr hc rfl)
                | scalar v =>
                  exact stable_of_unchanged re ord
                    (apply_regex_nonMap re ord _ _ hk ha hr hc rfl)
                | array xs =>
                  exact stable_of_unchanged re ord
                    (apply_regex_nonMap re ord _ _ hk ha hr hc rfl)
              · have hstep : ∀ o key,
                    apply re ord (apply re ord o (PathPart.mapKey key :: rest)).1
                      (PathPart.mapKey key :: rest) =
                    apply re ord o (PathPart.mapKey key :: rest) := fun o key =>
                  ih _ (lt_of_lt_of_le (pathRank_mapKey_lt key rest hk) hn) o _ le_rfl
                rw [apply_regex_compiled re ord obj rest hk ha hr hc]
                rw [apply_regex_compiled re ord _ rest hk ha hr hc]
                rw [keys_rangeKeys_inner re ord obj _ hrest]
                exact rangeKeys_stable re ord obj _ hrest hstep
        | some arrayIndex =>
          by_cases hlast : rest = [] ∧ part.RegexObj.Regex = none
          · obtain ⟨hrest, hr⟩ := hlast
            subst hrest
            exact stable_of_unchanged re ord (apply_arrayIndex_last re ord obj hk ha hr)
          · have hlast' : rest ≠ [] ∨ part.RegexObj.Regex ≠ none := by
              by_cases hrest : rest = []
              · exact Or.inr (fun hr => hlast ⟨hrest, hr⟩)
              · exact Or.inl hrest
            cases hall : arrayIndex.All with
            | some all =>
              cases obj with
              | null =>
                exact stable_of_unchanged re ord (apply_all_nonArray re ord _ hk ha hlast' hall rfl)
              | scalar v =>
                exact stable_of_unchanged re ord (apply_all_nonArray re ord _ hk ha hlast' hall rfl)
              | map kvs =>
                exact stable_of_unchanged re ord (apply_all_nonArray re ord _ hk ha hlast' hall rfl)
              | array xs =>
                rw [apply_all_array re ord xs hk ha hlast' hall]
                simp only
                rw [apply_all_array re ord _ hk ha hlast' hall,
                  rangeElems_stable _ xs ihrest]
            | none =>
              cases hidx : arrayIndex.Index with
              | none =>
                exact stable_of_unchanged re ord
                  (apply_arrayIndex_unknown re ord obj hk ha hlast' hall hidx)
              | some index =>
                cases obj with
                | null =>
                  exact stable_of_unchanged re ord
                    (apply_index_nonArray re ord _ hk ha hlast' hall hidx rfl)
                | scalar v =>
                  exact stable_of_unchanged re ord
                    (apply_index_nonArray re ord _ hk ha hlast' hall hidx rfl)
                | map kvs =>
                  exact stable_of_unchanged re ord
                    (apply_index_nonArray re ord _ hk ha hlast' hall hidx rfl)
                | array xs =>
                  by_cases hneg : index < 0
                  · exact stable_of_unchanged re ord
                      (apply_index_negative re ord xs hk ha hlast' hall hidx hneg)
                  · by_cases hlen : (xs.length : Int) ≤ index
                    · exact stable_of_unchanged re ord
                        (apply_index_beyond re ord xs hk ha hlast' hall hidx hlen)
                    · have hpos : 0 ≤ index := Int.not_lt.mp hneg
                      have hlt : index.toNat < xs.length := by omega
                      have hget : xs[index.toNat]? = some xs[index.toNat] :=
                        List.getElem?_eq_getElem hlt
                      rw [apply_index_within re ord xs hk ha hlast' hall hidx hpos hget]
                      simp only
                      have hget2 : (xs.set index.toNat (apply re ord xs[index.toNat] rest).1)[
                          index.toNat]? = some (apply re ord xs[index.toNat] rest).1 := by
                        simp [hlt]
                      rw [apply_index_within re ord _ hk ha hlast' hall hidx hpos hget2,
                        ihrest, list_set_same _ _ _ hget2]

theorem apply_stable (obj : Tree) (path : Path) :
    apply re ord (apply re ord obj path).1 path = apply re ord obj path :=
  apply_stable_aux re ord (pathRank path) obj path le_rfl

/-! ## What a path addresses after `apply` -/

/-- What a map key part addresses in a node does not change when the entry
of a different key is worked on. -/
theorem locations_after_other_key (obj : Tree) {k k' : String} {rest : Path}
    (hrest : rest ≠ []) (hkk : k ≠ k') :
    locations re (PathPart.mapKey k :: rest)
        (apply re ord obj (PathPart.mapKey k' :: rest)).1 =
      locations re (PathPart.mapKey k :: rest) obj := by
  rcases apply_mapKey_inner re ord obj k' hrest with ⟨h, -⟩ | ⟨kvs, c', ho, -, h⟩
  · rw [h]
  · rw [h, ho]
    simp [locations, PathPart.mapKey, mapLookup_mapUpdate_other _ kvs hkk]

theorem locations_after_rangeKeys_keep (obj : Tree) (k : String) (keys : List String)
    {rest : Path} (hrest : rest ≠ [])
    (hstep : ∀ o key, (apply re ord o (PathPart.mapKey key :: rest)).2 = .ok →
      locations re (PathPart.mapKey key :: rest)
        (apply re ord o (PathPart.mapKey key :: rest)).1 = [])
    (hgood : locations re (PathPart.mapKey k :: rest) obj = [])
    (hok : (rangeKeys (fun o key => apply re ord o (PathPart.mapKey key :: rest)) obj keys).2 =
      .ok) :
    locations re (PathPart.mapKey k :: rest)
      (rangeKeys (fun o key => apply re ord o (PathPart.mapKey key :: rest)) obj keys).1 = [] := by
  induction keys generalizing obj with
  | nil => exact hgood
  | cons k' keys ih =>
    by_cases h : (apply re ord obj (PathPart.mapKey k' :: rest)).2 = .ok
    · rw [rangeKeys_cons_ok _ obj k' keys h] at hok ⊢
      apply ih _ _ hok
      by_cases hkk : k = k'
      · subst hkk
        exact hstep obj k h
      · rw [locations_after_other_key re ord obj hrest hkk]
        exact hgood
    · rw [rangeKeys_cons_stop _ obj k' keys h] at hok
      exact absurd hok h

theorem locations_after_rangeKeys (obj : Tree) (keys : List String)
    {rest : Path} (hrest : rest ≠ [])
    (hstep : ∀ o key, (apply re ord o (PathPart.mapKey key :: rest)).2 = .ok →
      locations re (PathPart.mapKey key :: rest)
        (apply re ord o (PathPart.mapKey key :: rest)).1 = [])
    (hok : (rangeKeys (fun o key => apply re ord o (PathPart.mapKey key :: rest)) obj keys).2 =
      .ok) :
    ∀ k ∈ keys, locations re (PathPart.mapKey k :: rest)
      (rangeKeys (fun o key => apply re ord o (PathPart.mapKey key :: rest)) obj keys).1 = [] := by
  induction keys generalizing obj with
  | nil => intro k hk; cases hk
  | cons k' keys ih =>
    intro k hk
    by_cases h : (apply re ord obj (PathPart.mapKey k' :: rest)).2 = .ok
    · rw [rangeKeys_cons_ok _ obj k' keys h] at hok ⊢
      by_cases hkk : k = k'
      · subst hkk
        exact locations_after_rangeKeys_keep re ord _ k keys hrest hstep (hstep obj k h) hok
      · have hmem : k ∈ keys := by
          rcases List.mem_cons.mp hk with h1 | h1
          · exact absurd h1 hkk
          · exact h1
        exact ih _ hok k hmem
    · rw [rangeKeys_cons_stop _ obj k' keys h] at hok
      exact absurd hok h

theorem outcome_ne_of_eq {obj t : Tree} {path : Path} {r : Outcome}
    (h : apply re ord obj path = (t, r)) (hr : r ≠ .ok) : (apply re ord obj path).2 ≠ .ok := by
  rw [h]
  exact hr

/-- After a call that returned `nil`, the path addresses nothing in the
tree the call left. -/
theorem locations_after_apply_aux (n : Nat) :
    ∀ (obj : Tree) (path : Path), pathRank path ≤ n → (apply re ord obj path).2 = .ok →
      locations re path (apply re ord obj path).1 = [] := by
  induction n using Nat.strong_induction_on with
  | _ n ih =>
    intro obj path hn hok
    cases path with
    | nil => simp [locations]
    | cons part rest =>
      have ihrest : ∀ o, (apply re ord o rest).2 = .ok →
          locations re rest (apply re ord o rest).1 = [] := fun o =>
        ih (pathRank rest) (lt_of_lt_of_le (pathRank_tail_lt part rest) hn) o rest le_rfl
      cases hk : part.MapKey with
      | some key =>
        cases obj with
        | null =>
          rw [apply_mapKey_nonMap re ord .null rest hk rfl]
          simp [locations, hk]
        | scalar v =>
          rw [apply_mapKey_nonMap re ord (.scalar v) rest hk rfl]
          simp [locations, hk]
        | array xs =>
          rw [apply_mapKey_nonMap re ord (.array xs) rest hk rfl]
          simp [locations, hk]
        | map kvs =>
          by_cases hrest : rest = []
          · subst hrest
            rw [apply_mapKey_last re ord kvs hk]
            simp [locations, hk, mapLookup_mapDelete_self]
          · cases hl : mapLookup key kvs with
            | none =>
              rw [apply_mapKey_missing re ord kvs hk hrest hl]
              simp [locations, hk, hl]
            | some child =>
              rw [apply_mapKey_found re ord kvs hk hrest hl] at hok ⊢
              simp only at hok
              simp [locations, hk, mapLookup_mapUpdate_self key _ kvs hl, hrest,
                ihrest child hok]
      | none =>
        cases ha : part.ArrayIndex with
        | none =>
          cases hr : part.RegexObj.Regex with
          | none =>
            exact absurd hok (outcome_ne_of_eq re ord (apply_unexpected re ord obj rest hk ha hr)
              (by simp))
          | some pattern =>
            cases hc : re.Compile pattern with
            | error msg =>
              exact absurd hok (outcome_ne_of_eq re ord
                (apply_regex_failed re ord obj rest hk ha hr hc) (by simp))
            | ok regex =>
              by_cases hrest : rest = []
              · subst hrest
                cases obj with
                | map kvs =>
                  rw [apply_terminal_regex re ord kvs hk ha hr hc]
                  simp only [locations, hk, ha, hr, hc]
                  have : List.filter regex (List.map Prod.fst
                      (List.filter (fun kv => !regex kv.1) kvs)) = [] := by
                    rw [List.filter_eq_nil_iff]
                    intro a hmem
                    obtain ⟨kv, hkv, rfl⟩ := List.mem_map.mp hmem
                    have := (List.mem_filter.mp hkv).2
                    simpa using this
                  rw [this]
                  rfl
                | null =>
                  rw [apply_regex_nonMap re ord .null [] hk ha hr hc rfl]
                  simp [locations, hk, ha, hr, hc]
                | scalar v =>
                  rw [apply_regex_nonMap re ord (.scalar v) [] hk ha hr hc rfl]
                  simp [locations, hk, ha, hr, hc]
                | array xs =>
                  rw [apply_regex_nonMap re ord (.array xs) [] hk ha hr hc rfl]
                  simp [locations, hk, ha, hr, hc]
              · have hstep : ∀ o key, (apply re ord o (PathPart.mapKey key :: rest)).2 = .ok →
                    locations re (PathPart.mapKey key :: rest)
                      (apply re ord o (PathPart.mapKey key :: rest)).1 = [] := fun o key =>
                  ih _ (lt_of_lt_of_le (pathRank_mapKey_lt key rest hk) hn) o _ le_rfl
                rw [apply_regex_compiled re ord obj rest hk ha hr hc] at hok ⊢
                have hkeys := keys_rangeKeys_inner re ord obj
                  ((ord.rangeOrder (((assertMap obj).1.entries).map Prod.fst)).filter regex) hrest
                have hall := locations_after_rangeKeys re ord obj _ hrest hstep hok
                generalize rangeKeys (fun o key => apply re ord o (PathPart.mapKey key :: rest))
                  obj ((ord.rangeOrder (((assertMap obj).1.entries).map Prod.fst)).filter regex) = res
                  at hkeys hall
                rcases res with ⟨o', r⟩
                simp only at hkeys hall ⊢
                cases o' with
                | null => simp [locations, hk, ha, hr, hc]
                | scalar v => simp [locations, hk, ha, hr, hc]
                | array xs => simp [locations, hk, ha, hr, hc]
                | map kvs' =>
                  have hkeys' : kvs'.map Prod.fst = ((assertMap obj).1.entries).map Prod.fst :=
                    hkeys
                  simp only [locations, hk, ha, hr, hc]
                  rw [List.flatMap_eq_nil_iff]
                  intro key hkey
                  rw [hkeys'] at hkey
                  have hmem : key ∈ (ord.rangeOrder
                      (((assertMap obj).1.entries).map Prod.fst)).filter regex :=
                    List.mem_filter.mpr ⟨(mem_rangeOrder ord _ _).mpr
                      (List.mem_filter.mp hkey).1, (List.mem_filter.mp hkey).2⟩
                  have := hall key hmem
                  simpa [locations, PathPart.mapKey] using this
        | some arrayIndex =>
          by_cases hlast : rest = [] ∧ part.RegexObj.Regex = none
          · obtain ⟨hrest, hr⟩ := hlast
            subst hrest
            exact absurd hok (outcome_ne_of_eq re ord (apply_arrayIndex_last re ord obj hk ha hr)
              (by simp))
          · have hlast' : rest ≠ [] ∨ part.RegexObj.Regex ≠ none := by
              by_cases hrest : rest = []
              · exact Or.inr (fun hr => hlast ⟨hrest, hr⟩)
              · exact Or.inl hrest
            cases hall : arrayIndex.All with
            | some all =>
              cases obj with
              | null =>
                exact absurd hok (outcome_ne_of_eq re ord
                  (apply_all_nonArray re ord _ hk ha hlast' hall rfl) (by simp))
              | scalar v =>
                exact absurd hok (outcome_ne_of_eq re ord
                  (apply_all_nonArray re ord _ hk ha hlast' hall rfl) (by simp))
              | map kvs =>
                exact absurd hok (outcome_ne_of_eq re ord
                  (apply_all_nonArray re ord _ hk ha hlast' hall rfl) (by simp))
              | array xs =>
                rw [apply_all_array re ord xs hk ha hlast' hall] at hok ⊢
                simp only at hok ⊢
                have hall_ok := (rangeElems_ok_iff _ xs).mp hok
                rw [rangeElems_of_ok _ xs hall_ok]
                simp only [locations, hk, ha, hall]
                rw [List.flatMap_eq_nil_iff]
                intro jx hjx
                have hmem := List.snd_mem_of_mem_enum hjx
                obtain ⟨x, hx, hxe⟩ := List.mem_map.mp hmem
                by_cases hrest : rest = []
                · subst hrest
                  have := hall_ok x hx
                  simp [apply.eq_1] at this
                · have := ihrest x (hall_ok x hx)
                  rw [hxe] at this
                  simp [hrest, this]
            | none =>
              cases hidx : arrayIndex.Index with
              | none =>
                exact absurd hok (outcome_ne_of_eq re ord
                  (apply_arrayIndex_unknown re ord obj hk ha hlast' hall hidx) (by simp))
              | some index =>
                cases obj with
                | null =>
                  exact absurd hok (outcome_ne_of_eq re ord
                    (apply_index_nonArray re ord _ hk ha hlast' hall hidx rfl) (by simp))
                | scalar v =>
                  exact absurd hok (outcome_ne_of_eq re ord
                    (apply_index_nonArray re ord _ hk ha hlast' hall hidx rfl) (by simp))
                | map kvs =>
                  exact absurd hok (outcome_ne_of_eq re ord
                    (apply_index_nonArray re ord _ hk ha hlast' hall hidx rfl) (by simp))
                | array xs =>
                  by_cases hneg : index < 0
                  · exact absurd hok (outcome_ne_of_eq re ord
                      (apply_index_negative re ord xs hk ha hlast' hall hidx hneg) (by simp))
                  · by_cases hlen : (xs.length : Int) ≤ index
                    · rw [apply_index_beyond re ord xs hk ha hlast' hall hidx hlen]
                      have hnone : xs[index.toNat]? = none := by
                        apply List.getElem?_eq_none
                        omega
                      simp [locations, hk, ha, hall, hidx, hneg, hnone]
                    · have hpos : 0 ≤ index := Int.not_lt.mp hneg
                      have hlt : index.toNat < xs.length := by omega
                      have hget : xs[index.toNat]? = some xs[index.toNat] :=
                        List.getElem?_eq_getElem hlt
                      rw [apply_index_within re ord xs hk ha hlast' hall hidx hpos hget] at hok ⊢
                      simp only at hok ⊢
                      by_cases hrest : rest = []
                      · subst hrest
                        simp [apply.eq_1] at hok
                      · simp [locations, hk, ha, hall, hidx, hneg, hlt, hrest,
                          ihrest _ hok]

theorem locations_after_apply (obj : Tree) (path : Path) (hok : (apply re ord obj path).2 = .ok) :
    locations re path (apply re ord obj path).1 = [] :=
  locations_after_apply_aux re ord (pathRank path) obj path le_rfl hok

/-! ## A second run under another visiting order -/

theorem rangeElems_of_fixed (body : Tree → Tree × Outcome) (xs : List Tree)
    (h : ∀ x ∈ xs, body x = (x, .ok)) : rangeElems body xs = (xs, .ok) := by
  rw [rangeElems_of_ok body xs (fun x hx => by rw [h x hx])]
  simp only [Prod.mk.injEq, and_true]
  calc xs.map (fun x => (body x).1) = xs.map id :=
        List.map_congr_left (fun x hx => by rw [h x hx]; rfl)
    _ = xs := List.map_id xs

theorem rangeKeys_of_fixed (body : Tree → String → Tree × Outcome) (obj : Tree)
    (keys : List String) (h : ∀ k ∈ keys, body obj k = (obj, .ok)) :
    rangeKeys body obj keys = (obj, .ok) := by
  induction keys with
  | nil => rfl
  | cons k keys ih =>
    have hk := h k (List.mem_cons_self _ _)
    rw [rangeKeys_cons_ok body obj k keys (by rw [hk]), hk]
    exact ih (fun k' hk' => h k' (List.mem_cons_of_mem _ hk'))

/-- A key whose call, under one visiting order, changes nothing and returns
`nil` stays so after a call for a different key under any visiting order. -/
theorem settled_after_other_key (obj : Tree) {k k' : String} {rest : Path}
    (hrest : rest ≠ []) (hkk : k ≠ k')
    (hs : apply re ord' obj (PathPart.mapKey k :: rest) = (obj, .ok)) :
    apply re ord' (apply re ord obj (PathPart.mapKey k' :: rest)).1
        (PathPart.mapKey k :: rest) =
      ((apply re ord obj (PathPart.mapKey k' :: rest)).1, .ok) := by
  rcases apply_mapKey_inner re ord obj k' hrest with ⟨h, -⟩ | ⟨kvs, c', ho, hl', h⟩
  · rw [h]
    exact hs
  · subst ho
    rw [h]
    rcases apply_mapKey_inner re ord' (.map kvs) k hrest with ⟨-, hn⟩ | ⟨kvs2, c, ho2, hl, h2⟩
    · have hl : mapLookup k kvs = none := hn kvs rfl
      exact apply_mapKey_missing re ord' _ rfl hrest
        (by rw [mapLookup_mapUpdate_other _ kvs hkk]; exact hl)
    · cases ho2
      rw [h2] at hs
      simp only [Prod.mk.injEq, Tree.map.injEq] at hs
      obtain ⟨hupd, hok⟩ := hs
      have hc : (apply re ord' c rest).1 = c := by
        have := mapLookup_mapUpdate_self k (apply re ord' c rest).1 kvs hl
        rw [hupd, hl] at this
        exact (Option.some.inj this).symm
      have hl2 : mapLookup k (mapUpdate k' (apply re ord c' rest).1 kvs) = some c := by
        rw [mapLookup_mapUpdate_other _ kvs hkk]; exact hl
      rw [apply_mapKey_found re ord' _ rfl hrest hl2, hc, hok,
        mapUpdate_same k c _ hl2]

theorem settled_kept_by_rangeKeys (obj : Tree) (k : String) (keys : List String)
    {rest : Path} (hrest : rest ≠ [])
    (hstep : ∀ o key, (apply re ord o (PathPart.mapKey key :: rest)).2 = .ok →
      apply re ord' (apply re ord o (PathPart.mapKey key :: rest)).1
          (PathPart.mapKey key :: rest) =
        ((apply re ord o (PathPart.mapKey key :: rest)).1, .ok))
    (hs : apply re ord' obj (PathPart.mapKey k :: rest) = (obj, .ok))
    (hok : (rangeKeys (fun o key => apply re ord o (PathPart.mapKey key :: rest))
      obj keys).2 = .ok) :
    apply re ord'
        (rangeKeys (fun o key => apply re ord o (PathPart.mapKey key :: rest)) obj keys).1
        (PathPart.mapKey k :: rest) =
      ((rangeKeys (fun o key => apply re ord o (PathPart.mapKey key :: rest)) obj keys).1,
        .ok) := by
  induction keys generalizing obj with
  | nil => exact hs
  | cons k' keys ih =>
    by_cases h : (apply re ord obj (PathPart.mapKey k' :: rest)).2 = .ok
    · rw [rangeKeys_cons_ok _ obj k' keys h] at hok ⊢
      apply ih _ _ hok
      by_cases hkk : k = k'
      · subst hkk
        exact hstep obj k h
      · exact settled_after_other_key re ord ord' obj hrest hkk hs
    · rw [rangeKeys_cons_stop _ obj k' keys h] at hok
      exact absurd hok h

theorem settled_by_rangeKeys (obj : Tree) (keys : List String)
    {rest : Path} (hrest : rest ≠ [])
    (hstep : ∀ o key, (apply re ord o (PathPart.mapKey key :: rest)).2 = .ok →
      apply re ord' (apply re ord o (PathPart.mapKey key :: rest)).1
          (PathPart.mapKey key :: rest) =
        ((apply re ord o (PathPart.mapKey key :: rest)).1, .ok))
    (hok : (rangeKeys (fun o key => apply re ord o (PathPart.mapKey key :: rest))
      obj keys).2 = .ok) :
    ∀ k ∈ keys, apply re ord'
        (rangeKeys (fun o key => apply re ord o (PathPart.mapKey key :: rest)) obj keys).1
        (PathPart.mapKey k :: rest) =
      ((rangeKeys (fun o key => apply re ord o (PathPart.mapKey key :: rest)) obj keys).1,
        .ok) := by
  induction keys generalizing obj with
  | nil => intro k hk; cases hk
  | cons k' keys ih =>
    intro k hk
    by_cases h : (apply re ord obj (PathPart.mapKey k' :: rest)).2 = .ok
    · rw [rangeKeys_cons_ok _ obj k' keys h] at hok ⊢
      by_cases hkk : k = k'
      · subst hkk
        exact settled_kept_by_rangeKeys re ord ord' _ k keys hrest hstep (hstep obj k h) hok
      · have hmem : k ∈ keys := by
          rcases List.mem_cons.mp hk with h1 | h1
          · exact absurd h1 hkk
          · exact h1
        exact ih _ hok k hmem
    · rw [rangeKeys_cons_stop _ obj k' keys h] at hok
      exact absurd hok h

/-- After a call that returned `nil`, a second call with the same path,
under any visiting order, changes nothing and returns `nil`. -/
theorem apply_settled_aux (n : Nat) :
    ∀ (obj : Tree) (path : Path), pathRank path ≤ n → (apply re ord obj path).2 = .ok →
      apply re ord' (apply re ord obj path).1 path = ((apply re ord obj path).1, .ok) := by
  induction n using Nat.strong_induction_on with
  | _ n ih =>
    intro obj path hn hok
    cases path with
    | nil => simp [apply.eq_1] at hok
    | cons part rest =>
      have ihrest : ∀ o, (apply re ord o rest).2 = .ok →
          apply re ord' (apply re ord o rest).1 rest = ((apply re ord o rest).1, .ok) :=
        fun o =>
          ih (pathRank rest) (lt_of_lt_of_le (pathRank_tail_lt part rest) hn) o rest le_rfl
      cases hk : part.MapKey with
      | some key =>
        cases obj with
        | null =>
          rw [apply_mapKey_nonMap re ord .null rest hk rfl]
          exact apply_mapKey_nonMap re ord' .null rest hk rfl
        | scalar v =>
          rw [apply_mapKey_nonMap re ord (.scalar v) rest hk rfl]
          exact apply_mapKey_nonMap re ord' (.scalar v) rest hk rfl
        | array xs =>
          rw [apply_mapKey_nonMap re ord (.array xs) rest hk rfl]
          exact apply_mapKey_nonMap re ord' (.array xs) rest hk rfl
        | map kvs =>
          by_cases hrest : rest = []
          · subst hrest
            rw [apply_mapKey_last re ord kvs hk]
            simp only
            rw [apply_mapKey_last re ord' _ hk, mapDelete_idem]
          · cases hl : mapLookup key kvs with
            | none =>
              rw [apply_mapKey_missing re ord kvs hk hrest hl]
              exact apply_mapKey_missing re ord' kvs hk hrest hl
            | some child =>
              rw [apply_mapKey_found re ord kvs hk hrest hl] at hok ⊢
              simp only at hok ⊢
              have hl2 := mapLookup_mapUpdate_self key (apply re ord child rest).1 kvs hl
              rw [apply_mapKey_found re ord' _ hk hrest hl2, ihrest child hok,
                mapUpdate_same key _ _ hl2]
      | none =>
        cases ha : part.ArrayIndex with
        | none =>
          cases hr : part.RegexObj.Regex with
          | none =>
            exact absurd hok (outcome_ne_of_eq re ord
              (apply_unexpected re ord obj rest hk ha hr) (by simp))
          | some pattern =>
            cases hc : re.Compile pattern with
            | error msg =>
              exact absurd hok (outcome_ne_of_eq re ord
                (apply_regex_failed re ord obj rest hk ha hr hc) (by simp))
            | ok regex =>
              by_cases hrest : rest = []
              · subst hrest
                cases obj with
                | map kvs =>
                  rw [apply_terminal_regex re ord kvs hk ha hr hc]
                  simp only
                  rw [apply_terminal_regex re ord' _ hk ha hr hc, List.filter_filter]
                  simp
                | null =>
                  rw [apply_regex_nonMap re ord .null [] hk ha hr hc rfl]
                  exact apply_regex_nonMap re ord' .null [] hk ha hr hc rfl
                | scalar v =>
                  rw [apply_regex_nonMap re ord (.scalar v) [] hk ha hr hc rfl]
                  exact apply_regex_nonMap re ord' (.scalar v) [] hk ha hr hc rfl
                | array xs =>
                  rw [apply_regex_nonMap re ord (.array xs) [] hk ha hr hc rfl]
                  exact apply_regex_nonMap re ord' (.array xs) [] hk ha hr hc rfl
              · have hstep : ∀ o key,
                    (apply re ord o (PathPart.mapKey key :: rest)).2 = .ok →
                    apply re ord' (apply re ord o (PathPart.mapKey key :: rest)).1
                        (PathPart.mapKey key :: rest) =
                      ((apply re ord o (PathPart.mapKey key :: rest)).1, .ok) :=
                  fun o key =>
                    ih _ (lt_of_lt_of_le (pathRank_mapKey_lt key rest hk) hn) o _ le_rfl
                rw [apply_regex_compiled re ord obj rest hk ha hr hc] at hok ⊢
                rw [apply_regex_compiled re ord' _ rest hk ha hr hc]
                rw [keys_rangeKeys_inner re ord obj _ hrest]
                have hall := settled_by_rangeKeys re ord ord' obj _ hrest hstep hok
                apply rangeKeys_of_fixed
                intro k hk'
                apply hall k
                exact List.mem_filter.mpr
                  ⟨(mem_rangeOrder ord _ _).mpr
                    ((mem_rangeOrder ord' _ _).mp (List.mem_filter.mp hk').1),
                    (List.mem_filter.mp hk').2⟩
        | some arrayIndex =>
          by_cases hlast : rest = [] ∧ part.RegexObj.Regex = none
          · obtain ⟨hrest, hr⟩ := hlast
            subst hrest
            exact absurd hok (outcome_ne_of_eq re ord
              (apply_arrayIndex_last re ord obj hk ha hr) (by simp))
          · have hlast' : rest ≠ [] ∨ part.RegexObj.Regex ≠ none := by
              by_cases hrest : rest = []
              · exact Or.inr (fun hr => hlast ⟨hrest, hr⟩)
              · exact Or.inl hrest
            cases hall : arrayIndex.All with
            | some all =>
              cases obj with
              | null =>
                exact absurd hok (outcome_ne_of_eq re ord
                  (apply_all_nonArray re ord _ hk ha hlast' hall rfl) (by simp))
              | scalar v =>
                exact absurd hok (outcome_ne_of_eq re ord
                  (apply_all_nonArray re ord _ hk ha hlast' hall rfl) (by simp))
              | map kvs =>
                exact absurd hok (outcome_ne_of_eq re ord
                  (apply_all_nonArray re ord _ hk ha hlast' hall rfl) (by simp))
              | array xs =>
                rw [apply_all_array re ord xs hk ha hlast' hall] at hok ⊢
                simp only at hok ⊢
                have hall_ok := (rangeElems_ok_iff _ xs).mp hok
                rw [rangeElems_of_ok _ xs hall_ok]
                simp only
                rw [apply_all_array re ord' _ hk ha hlast' hall, rangeElems_of_fixed]
                intro x' hx'
                obtain ⟨x, hx, rfl⟩ := List.mem_map.mp hx'
                exact ihrest x (hall_ok x hx)
            | none =>
              cases hidx : arrayIndex.Index with
              | none =>
                exact absurd hok (outcome_ne_of_eq re ord
                  (apply_arrayIndex_unknown re ord obj hk ha hlast' hall hidx) (by simp))
              | some index =>
                cases obj with
                | null =>
                  exact absurd hok (outcome_ne_of_eq re ord
                    (apply_index_nonArray re ord _ hk ha hlast' hall hidx rfl) (by simp))
                | scalar v =>
                  exact absurd hok (outcome_ne_of_eq re ord
                    (apply_index_nonArray re ord _ hk ha hlast' hall hidx rfl) (by simp))
                | map kvs =>
                  exact absurd hok (outcome_ne_of_eq re ord
                    (apply_index_nonArray re ord _ hk ha hlast' hall hidx rfl) (by simp))
                | array xs =>
                  by_cases hneg : index < 0
                  · exact absurd hok (outcome_ne_of_eq re ord
                      (apply_index_negative re ord xs hk ha hlast' hall hidx hneg) (by simp))
                  · by_cases hlen : (xs.length : Int) ≤ index
                    · rw [apply_index_beyond re ord xs hk ha hlast' hall hidx hlen]
                      exact apply_index_beyond re ord' xs hk ha hlast' hall hidx hlen
                    · have hpos : 0 ≤ index := Int.not_lt.mp hneg
                      have hlt : index.toNat < xs.length := by omega
                      have hget : xs[index.toNat]? = some xs[index.toNat] :=
                        List.getElem?_eq_getElem hlt
                      rw [apply_index_within re ord xs hk ha hlast' hall hidx hpos hget]
                        at hok ⊢
                      simp only at hok ⊢
                      have hget2 :
                          (xs.set index.toNat (apply re ord xs[index.toNat] rest).1)[
                            index.toNat]? = some (apply re ord xs[index.toNat] rest).1 := by
                        simp [hlt]
                      rw [apply_index_within re ord' _ hk ha hlast' hall hidx hpos hget2,
                        ihrest _ hok, list_set_same _ _ _ hget2]

theorem apply_settled (obj : Tree) (path : Path) (hok : (apply re ord obj path).2 = .ok) :
    apply re ord' (apply re ord obj path).1 path = ((apply re ord obj path).1, .ok) :=
  apply_settled_aux re ord ord' (pathRank path) obj path le_rfl hok

/-! ## Paths of well-formed parts -/

theorem rangeElems_returns (body : Tree → Tree × Outcome) (xs : List Tree)
    (h : ∀ x, (body x).2.returns = true) : (rangeElems body xs).2.returns = true := by
  induction xs with
  | nil => rfl
  | cons x xs ih =>
    by_cases hx : (body x).2 = .ok
    · rw [rangeElems_cons_ok body x xs hx]
      exact ih
    · rw [rangeElems_cons_stop body x xs hx]
      exact h x

theorem rangeKeys_returns (body : Tree → String → Tree × Outcome) (obj : Tree)
    (keys : List String) (h : ∀ o k, (body o k).2.returns = true) :
    (rangeKeys body obj keys).2.returns = true := by
  induction keys generalizing obj with
  | nil => rfl
  | cons k keys ih =>
    by_cases hk : (body obj k).2 = .ok
    · rw [rangeKeys_cons_ok body obj k keys hk]
      exact ih _
    · rw [rangeKeys_cons_stop body obj k keys hk]
      exact h obj k

theorem wellFormed_mapKey (key : String) : (PathPart.mapKey key).wellFormed = true := rfl

/-- On a non-empty path of well-formed parts no call of `apply` panics. -/
theorem apply_returns_aux (n : Nat) :
    ∀ (obj : Tree) (path : Path), pathRank path ≤ n → path ≠ [] →
      (∀ part ∈ path, part.wellFormed = true) →
      (apply re ord obj path).2.returns = true := by
  induction n using Nat.strong_induction_on with
  | _ n ih =>
    intro obj path hn hne hwf
    cases path with
    | nil => exact absurd rfl hne
    | cons part rest =>
      have hpart : part.wellFormed = true := hwf part (List.mem_cons_self _ _)
      have hrestwf : ∀ p ∈ rest, p.wellFormed = true :=
        fun p hp => hwf p (List.mem_cons_of_mem _ hp)
      have ihrest : rest ≠ [] → ∀ o, (apply re ord o rest).2.returns = true :=
        fun hr o => ih (pathRank rest) (lt_of_lt_of_le (pathRank_tail_lt part rest) hn)
          o rest le_rfl hr hrestwf
      cases hk : part.MapKey with
      | some key =>
        cases obj with
        | null => rw [apply_mapKey_nonMap re ord .null rest hk rfl]; rfl
        | scalar v => rw [apply_mapKey_nonMap re ord (.scalar v) rest hk rfl]; rfl
        | array xs => rw [apply_mapKey_nonMap re ord (.array xs) rest hk rfl]; rfl
        | map kvs =>
          by_cases hrest : rest = []
          · subst hrest
            rw [apply_mapKey_last re ord kvs hk]; rfl
          · cases hl : mapLookup key kvs with
            | none => rw [apply_mapKey_missing re ord kvs hk hrest hl]; rfl
            | some child =>
              rw [apply_mapKey_found re ord kvs hk hrest hl]
              exact ihrest hrest child
      | none =>
        cases ha : part.ArrayIndex with
        | none =>
          cases hr : part.RegexObj.Regex with
          | none => simp [PathPart.wellFormed, hk, ha, hr] at hpart
          | some pattern =>
            cases hc : re.Compile pattern with
            | error msg => rw [apply_regex_failed re ord obj rest hk ha hr hc]; rfl
            | ok regex =>
              rw [apply_regex_compiled re ord obj rest hk ha hr hc]
              apply rangeKeys_returns
              intro o k
              apply ih _ (lt_of_lt_of_le (pathRank_mapKey_lt k rest hk) hn) o _ le_rfl
                (by simp)
              intro p hp
              rcases List.mem_cons.mp hp with h1 | h1
              · rw [h1]; rfl
              · exact hrestwf p h1
        | some arrayIndex =>
          cases hr : part.RegexObj.Regex with
          | some pattern => simp [PathPart.wellFormed, hk, ha, hr] at hpart
          | none =>
            by_cases hrest : rest = []
            · subst hrest
              rw [apply_arrayIndex_last re ord obj hk ha hr]; rfl
            · have hlast' : rest ≠ [] ∨ part.RegexObj.Regex ≠ none := Or.inl hrest
              cases hall : arrayIndex.All with
              | some all =>
                cases obj with
                | null => rw [apply_all_nonArray re ord .null hk ha hlast' hall rfl]; rfl
                | scalar v =>
                  rw [apply_all_nonArray re ord (.scalar v) hk ha hlast' hall rfl]; rfl
                | map kvs =>
                  rw [apply_all_nonArray re ord (.map kvs) hk ha hlast' hall rfl]; rfl
                | array xs =>
                  rw [apply_all_array re ord xs hk ha hlast' hall]
                  exact rangeElems_returns _ xs (ihrest hrest)
              | none =>
                cases hidx : arrayIndex.Index with
                | none => simp [PathPart.wellFormed, hk, ha, hr, hall, hidx] at hpart
                | some index =>
                  have hpos : 0 ≤ index := by
                    simpa [PathPart.wellFormed, hk, ha, hr, hall, hidx] using hpart
                  cases obj with
                  | null =>
                    rw [apply_index_nonArray re ord .null hk ha hlast' hall hidx rfl]; rfl
                  | scalar v =>
                    rw [apply_index_nonArray re ord (.scalar v) hk ha hlast' hall hidx rfl]
                    rfl
                  | map kvs =>
                    rw [apply_index_nonArray re ord (.map kvs) hk ha hlast' hall hidx rfl]
                    rfl
                  | array xs =>
                    by_cases hlen : (xs.length : Int) ≤ index
                    · rw [apply_index_beyond re ord xs hk ha hlast' hall hidx hlen]; rfl
                    · have hlt : index.toNat < xs.length := by omega
                      have hget : xs[index.toNat]? = some xs[index.toNat] :=
                        List.getElem?_eq_getElem hlt
                      rw [apply_index_within re ord xs hk ha hlast' hall hidx hpos hget]
                      exact ihrest hrest _

theorem apply_returns (obj : Tree) (path : Path) (hne : path ≠ [])
    (hwf : ∀ part ∈ path, part.wellFormed = true) :
    (apply re ord obj path).2.returns = true :=
  apply_returns_aux re ord (pathRank path) obj path le_rfl hne hwf

/-! ## The visiting order of map keys does not matter on success -/

theorem AgreeOnSuccess.rfl' {α : Type} (a : α × Outcome) : AgreeOnSuccess a a :=
  ⟨Iff.rfl, fun _ => rfl⟩

theorem AgreeOnSuccess.of_eq {α : Type} {a b : α × Outcome} (h : a = b) :
    AgreeOnSuccess a b := by
  subst h
  exact AgreeOnSuccess.rfl' a

theorem AgreeOnSuccess.trans' {α : Type} {a b c : α × Outcome}
    (h1 : AgreeOnSuccess a b) (h2 : AgreeOnSuccess b c) : AgreeOnSuccess a c :=
  ⟨h1.1.trans h2.1, fun h => (h1.2 h).trans (h2.2 (h1.1.mp h))⟩

theorem AgreeOnSuccess.of_not_ok {α : Type} {a b : α × Outcome}
    (ha : a.2 ≠ .ok) (hb : b.2 ≠ .ok) : AgreeOnSuccess a b :=
  ⟨⟨fun h => absurd h ha, fun h => absurd h hb⟩, fun h => absurd h ha⟩

theorem mapUpdate_comm {x y : String} (a b : Tree) (kvs : List (String × Tree))
    (h : x ≠ y) :
    mapUpdate x a (mapUpdate y b kvs) = mapUpdate y b (mapUpdate x a kvs) := by
  induction kvs with
  | nil => rfl
  | cons kv kvs ih =>
    obtain ⟨k, v⟩ := kv
    by_cases hy : k = y
    · subst hy
      have hx : ¬ k = x := fun e => h e.symm
      simp [mapUpdate, hx]
    · by_cases hx : k = x
      · subst hx
        simp [mapUpdate, hy]
      · simp [mapUpdate, hx, hy, ih]

theorem mapDelete_comm (x y : String) (kvs : List (String × Tree)) :
    mapDelete x (mapDelete y kvs) = mapDelete y (mapDelete x kvs) := by
  simp only [mapDelete_eq_filter, List.filter_filter]
  apply List.filter_congr
  intro kv _
  exact Bool.and_comm _ _

/-- The outcome of the call for one key is not changed by a call for a
different key made before it. -/
theorem step_outcome_after_other (obj : Tree) {x y : String} (rest : Path) (h : x ≠ y) :
    (apply re ord (apply re ord obj (PathPart.mapKey y :: rest)).1
        (PathPart.mapKey x :: rest)).2 =
      (apply re ord obj (PathPart.mapKey x :: rest)).2 := by
  by_cases hrest : rest = []
  · subst hrest
    cases obj with
    | map kvs => simp [apply_mapKey_last_plain]
    | null => simp [apply_mapKey_nonMap_plain re ord .null _ [] rfl]
    | scalar v => simp [apply_mapKey_nonMap_plain re ord (.scalar v) _ [] rfl]
    | array xs => simp [apply_mapKey_nonMap_plain re ord (.array xs) _ [] rfl]
  · rcases apply_mapKey_inner re ord obj y hrest with ⟨hy, -⟩ | ⟨kvs, cy, ho, hly, hy⟩
    · rw [hy]
    · subst ho
      rw [hy]
      cases hlx : mapLookup x kvs with
      | none =>
        rw [apply_mapKey_missing_plain re ord kvs x rest hrest hlx,
          apply_mapKey_missing_plain re ord _ x rest hrest
            (by rw [mapLookup_mapUpdate_other _ kvs h]; exact hlx)]
      | some cx =>
        rw [apply_mapKey_found_plain re ord kvs x rest cx hrest hlx,
          apply_mapKey_found_plain re ord _ x rest cx hrest
            (by rw [mapLookup_mapUpdate_other _ kvs h]; exact hlx)]

/-- The calls for two different keys leave the same node in either order. -/
theorem step_result_comm (obj : Tree) {x y : String} (rest : Path) (h : x ≠ y) :
    (apply re ord (apply re ord obj (PathPart.mapKey y :: rest)).1
        (PathPart.mapKey x :: rest)).1 =
      (apply re ord (apply re ord obj (PathPart.mapKey x :: rest)).1
        (PathPart.mapKey y :: rest)).1 := by
  by_cases hrest : rest = []
  · subst hrest
    cases obj with
    | map kvs => simp [apply_mapKey_last_plain, mapDelete_comm x y]
    | null => simp [apply_mapKey_nonMap_plain re ord .null _ [] rfl]
    | scalar v => simp [apply_mapKey_nonMap_plain re ord (.scalar v) _ [] rfl]
    | array xs => simp [apply_mapKey_nonMap_plain re ord (.array xs) _ [] rfl]
  · cases obj with
    | null => simp [apply_mapKey_nonMap_plain re ord .null _ rest rfl]
    | scalar v => simp [apply_mapKey_nonMap_plain re ord (.scalar v) _ rest rfl]
    | array xs => simp [apply_mapKey_nonMap_plain re ord (.array xs) _ rest rfl]
    | map kvs =>
      have hyx : y ≠ x := fun e => h e.symm
      cases hlx : mapLookup x kvs with
      | none =>
        cases hly : mapLookup y kvs with
        | none =>
          rw [apply_mapKey_missing_plain re ord kvs y rest hrest hly,
            apply_mapKey_missing_plain re ord kvs x rest hrest hlx,
            apply_mapKey_missing_plain re ord kvs y rest hrest hly]
        | some cy =>
          rw [apply_mapKey_found_plain re ord kvs y rest cy hrest hly,
            apply_mapKey_missing_plain re ord kvs x rest hrest hlx,
            apply_mapKey_found_plain re ord kvs y rest cy hrest hly,
            apply_mapKey_missing_plain re ord _ x rest hrest
              (by rw [mapLookup_mapUpdate_other _ kvs h]; exact hlx)]
      | some cx =>
        cases hly : mapLookup y kvs with
        | none =>
          rw [apply_mapKey_missing_plain re ord kvs y rest hrest hly,
            apply_mapKey_found_plain re ord kvs x rest cx hrest hlx,
            apply_mapKey_missing_plain re ord _ y rest hrest
              (by rw [mapLookup_mapUpdate_other _ kvs hyx]; exact hly)]
        | some cy =>
          rw [apply_mapKey_found_plain re ord kvs y rest cy hrest hly,
            apply_mapKey_found_plain re ord kvs x rest cx hrest hlx,
            apply_mapKey_found_plain re ord _ x rest cx hrest
              (by rw [mapLookup_mapUpdate_other _ kvs h]; exact hlx),
            apply_mapKey_found_plain re ord _ y rest cy hrest
              (by rw [mapLookup_mapUpdate_other _ kvs hyx]; exact hly)]
          simp only [Tree.map.injEq]
          exact mapUpdate_comm _ _ kvs h

/-- Visiting the keys in another order does not change whether the loop
over them succeeds, nor what it leaves when it does, provided the calls for
different keys do not affect each other. -/
theorem rangeKeys_perm (body : Tree → String → Tree × Outcome)
    (hout : ∀ o x y, x ≠ y → (body (body o y).1 x).2 = (body o x).2)
    (hres : ∀ o x y, x ≠ y → (body (body o y).1 x).1 = (body (body o x).1 y).1)
    {ks ks' : List String} (hp : ks.Perm ks') :
    ∀ o, AgreeOnSuccess (rangeKeys body o ks) (rangeKeys body o ks') := by
  induction hp with
  | nil => intro o; exact AgreeOnSuccess.rfl' _
  | cons x _ ih =>
    intro o
    by_cases hx : (body o x).2 = .ok
    · rw [rangeKeys_cons_ok body o x _ hx, rangeKeys_cons_ok body o x _ hx]
      exact ih _
    · rw [rangeKeys_cons_stop body o x _ hx, rangeKeys_cons_stop body o x _ hx]
      exact AgreeOnSuccess.rfl' _
  | swap x y l =>
    intro o
    by_cases hxy : x = y
    · subst hxy
      exact AgreeOnSuccess.rfl' _
    · have hyx : y ≠ x := fun e => hxy e.symm
      by_cases hy : (body o y).2 = .ok
      · by_cases hx : (body o x).2 = .ok
        · have hx' : (body (body o y).1 x).2 = .ok := by rw [hout o x y hxy]; exact hx
          have hy' : (body (body o x).1 y).2 = .ok := by rw [hout o y x hyx]; exact hy
          rw [rangeKeys_cons_ok body o y _ hy, rangeKeys_cons_ok body _ x _ hx',
            rangeKeys_cons_ok body o x _ hx, rangeKeys_cons_ok body _ y _ hy',
            hres o x y hxy]
          exact AgreeOnSuccess.rfl' _
        · have hx' : (body (body o y).1 x).2 ≠ .ok := by rw [hout o x y hxy]; exact hx
          rw [rangeKeys_cons_ok body o y _ hy, rangeKeys_cons_stop body _ x _ hx',
            rangeKeys_cons_stop body o x _ hx]
          exact AgreeOnSuccess.of_not_ok hx' hx
      · rw [rangeKeys_cons_stop body o y _ hy]
        by_cases hx : (body o x).2 = .ok
        · have hy' : (body (body o x).1 y).2 ≠ .ok := by rw [hout o y x hyx]; exact hy
          rw [rangeKeys_cons_ok body o x _ hx, rangeKeys_cons_stop body _ y _ hy']
          exact AgreeOnSuccess.of_not_ok hy hy'
        · rw [rangeKeys_cons_stop body o x _ hx]
          exact AgreeOnSuccess.of_not_ok hy hx
  | trans _ _ ih1 ih2 =>
    intro o
    exact (ih1 o).trans' (ih2 o)

theorem rangeKeys_agree (body body' : Tree → String → Tree × Outcome)
    (h : ∀ o k, AgreeOnSuccess (body o k) (body' o k)) (obj : Tree) (keys : List String) :
    AgreeOnSuccess (rangeKeys body obj keys) (rangeKeys body' obj keys) := by
  induction keys generalizing obj with
  | nil => exact AgreeOnSuccess.rfl' _
  | cons k keys ih =>
    by_cases hk : (body obj k).2 = .ok
    · have he := (h obj k).2 hk
      have hk' : (body' obj k).2 = .ok := (h obj k).1.mp hk
      rw [rangeKeys_cons_ok body obj k keys hk, rangeKeys_cons_ok body' obj k keys hk', he]
      exact ih _
    · have hk' : (body' obj k).2 ≠ .ok := fun e => hk ((h obj k).1.mpr e)
      rw [rangeKeys_cons_stop body obj k keys hk, rangeKeys_cons_stop body' obj k keys hk']
      exact AgreeOnSuccess.of_not_ok hk hk'

theorem rangeElems_agree (body body' : Tree → Tree × Outcome)
    (h : ∀ x, AgreeOnSuccess (body x) (body' x)) (xs : List Tree) :
    AgreeOnSuccess (rangeElems body xs) (rangeElems body' xs) := by
  induction xs with
  | nil => exact AgreeOnSuccess.rfl' _
  | cons x xs ih =>
    by_cases hx : (body x).2 = .ok
    · have he := (h x).2 hx
      have hx' : (body' x).2 = .ok := (h x).1.mp hx
      rw [rangeElems_cons_ok body x xs hx, rangeElems_cons_ok body' x xs hx', he]
      refine ⟨?_, ?_⟩
      · exact ih.1
      · intro hok
        have := ih.2 hok
        rw [this]
    · have hx' : (body' x).2 ≠ .ok := fun e => hx ((h x).1.mpr e)
      rw [rangeElems_cons_stop body x xs hx, rangeElems_cons_stop body' x xs hx']
      exact AgreeOnSuccess.of_not_ok hx hx'

theorem agree_of_both {α : Type} {a b c : α × Outcome} (ha : a = c) (hb : b = c) :
    AgreeOnSuccess a b := by
  subst ha
  subst hb
  exact AgreeOnSuccess.rfl' _

/-- Putting the results of two runs on a child back into the same place
keeps their agreement. -/
theorem agree_wrap {c c' : Tree × Outcome} (f : Tree → Tree)
    (h : AgreeOnSuccess c c') : AgreeOnSuccess (f c.1, c.2) (f c'.1, c'.2) := by
  refine ⟨h.1, ?_⟩
  intro hok
  have := h.2 hok
  rw [this]

theorem agree_wrap_list {c c' : List Tree × Outcome} (f : List Tree → Tree)
    (h : AgreeOnSuccess c c') : AgreeOnSuccess (f c.1, c.2) (f c'.1, c'.2) := by
  refine ⟨h.1, ?_⟩
  intro hok
  have := h.2 hok
  rw [this]

/-- Two runs of `apply` under different visiting orders of map keys succeed
together, and then leave the same tree. -/
theorem apply_order_agree_aux (n : Nat) :
    ∀ (obj : Tree) (path : Path), pathRank path ≤ n →
      AgreeOnSuccess (apply re ord obj path) (apply re ord' obj path) := by
  induction n using Nat.strong_induction_on with
  | _ n ih =>
    intro obj path hn
    cases path with
    | nil => exact agree_of_both (apply.eq_1 re ord obj) (apply.eq_1 re ord' obj)
    | cons part rest =>
      have ihrest : ∀ o, AgreeOnSuccess (apply re ord o rest) (apply re ord' o rest) :=
        fun o =>
          ih (pathRank rest) (lt_of_lt_of_le (pathRank_tail_lt part rest) hn) o rest le_rfl
      cases hk : part.MapKey with
      | some key =>
        cases obj with
        | null =>
          exact agree_of_both (apply_mapKey_nonMap re ord .null rest hk rfl)
            (apply_mapKey_nonMap re ord' .null rest hk rfl)
        | scalar v =>
          exact agree_of_both (apply_mapKey_nonMap re ord (.scalar v) rest hk rfl)
            (apply_mapKey_nonMap re ord' (.scalar v) rest hk rfl)
        | array xs =>
          exact agree_of_both (apply_mapKey_nonMap re ord (.array xs) rest hk rfl)
            (apply_mapKey_nonMap re ord' (.array xs) rest hk rfl)
        | map kvs =>
          by_cases hrest : rest = []
          · subst hrest
            exact agree_of_both (apply_mapKey_last re ord kvs hk)
              (apply_mapKey_last re ord' kvs hk)
          · cases hl : mapLookup key kvs with
            | none =>
              exact agree_of_both (apply_mapKey_missing re ord kvs hk hrest hl)
                (apply_mapKey_missing re ord' kvs hk hrest hl)
            | some child =>
              rw [apply_mapKey_found re ord kvs hk hrest hl,
                apply_mapKey_found re ord' kvs hk hrest hl]
              exact agree_wrap (fun c => .map (mapUpdate key c kvs)) (ihrest child)
      | none =>
        cases ha : part.ArrayIndex with
        | none =>
          cases hr : part.RegexObj.Regex with
          | none =>
            exact agree_of_both (apply_unexpected re ord obj rest hk ha hr)
              (apply_unexpected re ord' obj rest hk ha hr)
          | some pattern =>
            cases hc : re.Compile pattern with
            | error msg =>
              exact agree_of_both (apply_regex_failed re ord obj rest hk ha hr hc)
                (apply_regex_failed re ord' obj rest hk ha hr hc)
            | ok regex =>
              rw [apply_regex_compiled re ord obj rest hk ha hr hc,
                apply_regex_compiled re ord' obj rest hk ha hr hc]
              have hperm : ((ord.rangeOrder (((assertMap obj).1.entries).map
                    Prod.fst)).filter regex).Perm
                  ((ord'.rangeOrder (((assertMap obj).1.entries).map Prod.fst)).filter
                    regex) :=
                List.Perm.filter _ ((ord.rangeOrder_perm _).trans
                  (ord'.rangeOrder_perm _).symm)
              have h1 := rangeKeys_perm
                (fun o key => apply re ord o (PathPart.mapKey key :: rest))
                (fun o x y hxy => step_outcome_after_other re ord o rest hxy)
                (fun o x y hxy => step_result_comm re ord o rest hxy) hperm obj
              have h2 := rangeKeys_agree
                (fun o key => apply re ord o (PathPart.mapKey key :: rest))
                (fun o key => apply re ord' o (PathPart.mapKey key :: rest))
                (fun o key =>
                  ih _ (lt_of_lt_of_le (pathRank_mapKey_lt key rest hk) hn) o _ le_rfl)
                obj ((ord'.rangeOrder (((assertMap obj).1.entries).map Prod.fst)).filter
                  regex)
              exact h1.trans' h2
        | some arrayIndex =>
          by_cases hlast : rest = [] ∧ part.RegexObj.Regex = none
          · obtain ⟨hrest, hr⟩ := hlast
            subst hrest
            exact agree_of_both (apply_arrayIndex_last re ord obj hk ha hr)
              (apply_arrayIndex_last re ord' obj hk ha hr)
          · have hlast' : rest ≠ [] ∨ part.RegexObj.Regex ≠ none := by
              by_cases hrest : rest = []
              · exact Or.inr (fun hr => hlast ⟨hrest, hr⟩)
              · exact Or.inl hrest
            cases hall : arrayIndex.All with
            | some all =>
              cases obj with
              | null =>
                exact agree_of_both (apply_all_nonArray re ord .null hk ha hlast' hall rfl)
                  (apply_all_nonArray re ord' .null hk ha hlast' hall rfl)
              | scalar v =>
                exact agree_of_both
                  (apply_all_nonArray re ord (.scalar v) hk ha hlast' hall rfl)
                  (apply_all_nonArray re ord' (.scalar v) hk ha hlast' hall rfl)
              | map kvs =>
                exact agree_of_both
                  (apply_all_nonArray re ord (.map kvs) hk ha hlast' hall rfl)
                  (apply_all_nonArray re ord' (.map kvs) hk ha hlast' hall rfl)
              | array xs =>
                rw [apply_all_array re ord xs hk ha hlast' hall,
                  apply_all_array re ord' xs hk ha hlast' hall]
                exact agree_wrap_list Tree.array (rangeElems_agree _ _ ihrest xs)
            | none =>
              cases hidx : arrayIndex.Index with
              | none =>
                exact agree_of_both
                  (apply_arrayIndex_unknown re ord obj hk ha hlast' hall hidx)
                  (apply_arrayIndex_unknown re ord' obj hk ha hlast' hall hidx)
              | some index =>
                cases obj with
                | null =>
                  exact agree_of_both
                    (apply_index_nonArray re ord .null hk ha hlast' hall hidx rfl)
                    (apply_index_nonArray re ord' .null hk ha hlast' hall hidx rfl)
                | scalar v =>
                  exact agree_of_both
                    (apply_index_nonArray re ord (.scalar v) hk ha hlast' hall hidx rfl)
                    (apply_index_nonArray re ord' (.scalar v) hk ha hlast' hall hidx rfl)
                | map kvs =>
                  exact agree_of_both
                    (apply_index_nonArray re ord (.map kvs) hk ha hlast' hall hidx rfl)
                    (apply_index_nonArray re ord' (.map kvs) hk ha hlast' hall hidx rfl)
                | array xs =>
                  by_cases hneg : index < 0
                  · exact agree_of_both
                      (apply_index_negative re ord xs hk ha hlast' hall hidx hneg)
                      (apply_index_negative re ord' xs hk ha hlast' hall hidx hneg)
                  · by_cases hlen : (xs.length : Int) ≤ index
                    · exact agree_of_both
                        (apply_index_beyond re ord xs hk ha hlast' hall hidx hlen)
                        (apply_index_beyond re ord' xs hk ha hlast' hall hidx hlen)
                    · have hpos : 0 ≤ index := Int.not_lt.mp hneg
                      have hlt : index.toNat < xs.length := by omega
                      have hget : xs[index.toNat]? = some xs[index.toNat] :=
                        List.getElem?_eq_getElem hlt
                      rw [apply_index_within re ord xs hk ha hlast' hall hidx hpos hget,
                        apply_index_within re ord' xs hk ha hlast' hall hidx hpos hget]
                      exact agree_wrap (fun c => .array (xs.set index.toNat c)) (ihrest _)

theorem apply_order_agree (obj : Tree) (path : Path) :
    AgreeOnSuccess (apply re ord obj path) (apply re ord' obj path) :=
  apply_order_agree_aux re ord ord' (pathRank path) obj path le_rfl

/-! ## Trees with some map entries removed -/

mutual
theorem prunedAt_refl : ∀ (A : List (List Step)) (t : Tree), PrunedAt A t t
  | A, .null => .null A
  | A, .scalar v => .scalar A v
  | A, .array xs => .array A (prunedElems_refl A 0 xs)
  | A, .map kvs => .map A (prunedEntries_refl A kvs)
theorem prunedElems_refl : ∀ (A : List (List Step)) (j : Nat) (xs : List Tree),
    PrunedElems A j xs xs
  | A, j, [] => .nil A j
  | A, j, x :: xs => .cons A j (prunedAt_refl _ x) (prunedElems_refl A (j + 1) xs)
theorem prunedEntries_refl : ∀ (A : List (List Step)) (kvs : List (String × Tree)),
    PrunedEntries A kvs kvs
  | A, [] => .nil A
  | A, (k, v) :: kvs => .keep A (prunedAt_refl _ v) (prunedEntries_refl A kvs)
end

theorem mem_under (s : Step) (A : List (List Step)) (loc : List Step) :
    loc ∈ under s A ↔ s :: loc ∈ A := by
  simp only [under, List.mem_filterMap]
  constructor
  · rintro ⟨a, ha, hm⟩
    cases a with
    | nil => simp at hm
    | cons s' rest =>
      by_cases h : s' = s
      · simp only [h, if_true, Option.some.injEq] at hm
        subst h
        subst hm
        exact ha
      · simp [h] at hm
  · intro h
    exact ⟨s :: loc, h, by simp⟩

theorem under_subset (s : Step) {A B : List (List Step)} (h : A ⊆ B) :
    under s A ⊆ under s B := by
  intro loc hloc
  rw [mem_under] at hloc ⊢
  exact h hloc

theorem under_append (s : Step) (A B : List (List Step)) :
    under s (A ++ B) = under s A ++ under s B := by
  simp [under, List.filterMap_append]

mutual
theorem prunedAt_mono : ∀ {A B : List (List Step)} {t' t : Tree}, A ⊆ B →
    PrunedAt A t' t → PrunedAt B t' t
  | _, B, _, _, _, .null _ => .null B
  | _, B, _, _, _, .scalar _ v => .scalar B v
  | _, B, _, _, h, .array _ he => .array B (prunedElems_mono h he)
  | _, B, _, _, h, .map _ he => .map B (prunedEntries_mono h he)
theorem prunedElems_mono : ∀ {A B : List (List Step)} {j : Nat} {xs' xs : List Tree},
    A ⊆ B → PrunedElems A j xs' xs → PrunedElems B j xs' xs
  | _, B, j, _, _, _, .nil _ _ => .nil B j
  | _, B, j, _, _, h, .cons _ _ hx hxs =>
    .cons B j (prunedAt_mono (under_subset _ h) hx) (prunedElems_mono h hxs)
theorem prunedEntries_mono : ∀ {A B : List (List Step)} {kvs' kvs : List (String × Tree)},
    A ⊆ B → PrunedEntries A kvs' kvs → PrunedEntries B kvs' kvs
  | _, B, _, _, _, .nil _ => .nil B
  | _, B, _, _, h, .drop _ hm he => .drop B (h hm) (prunedEntries_mono h he)
  | _, B, _, _, h, .keep _ hv he =>
    .keep B (prunedAt_mono (under_subset _ h) hv) (prunedEntries_mono h he)
end

mutual
theorem prunedAt_trans : ∀ (t0 : Tree) {A B : List (List Step)} {t2 t1 : Tree},
    PrunedAt A t2 t1 → PrunedAt B t1 t0 → PrunedAt (A ++ B) t2 t0
  | .null, _, _, _, _, .null _, .null _ => .null _
  | .scalar _, _, _, _, _, .scalar _ _, .scalar _ v => .scalar _ v
  | .array xs0, _, _, _, _, .array _ h2, .array _ h1 =>
    .array _ (prunedElems_trans xs0 h2 h1)
  | .map kvs0, _, _, _, _, .map _ h2, .map _ h1 => .map _ (prunedEntries_trans kvs0 h2 h1)
termination_by structural t0 => t0
theorem prunedElems_trans : ∀ (xs0 : List Tree) {A B : List (List Step)} {j : Nat}
    {xs2 xs1 : List Tree},
    PrunedElems A j xs2 xs1 → PrunedElems B j xs1 xs0 → PrunedElems (A ++ B) j xs2 xs0
  | [], _, _, j, _, _, .nil _ _, .nil _ _ => .nil _ j
  | x0 :: xs0, A, B, j, _, _, .cons _ _ hx2 hxs2, .cons _ _ hx1 hxs1 =>
    .cons _ j (under_append _ A B ▸ prunedAt_trans x0 hx2 hx1)
      (prunedElems_trans xs0 hxs2 hxs1)
termination_by structural xs0 => xs0
theorem prunedEntries_trans : ∀ (kvs0 : List (String × Tree)) {A B : List (List Step)}
    {kvs2 kvs1 : List (String × Tree)},
    PrunedEntries A kvs2 kvs1 → PrunedEntries B kvs1 kvs0 → PrunedEntries (A ++ B) kvs2 kvs0
  | [], _, _, _, _, .nil _, .nil _ => .nil _
  | (_, _) :: kvs0, _, _, _, _, h2, .drop _ hm h1 =>
    .drop _ (List.mem_append_right _ hm) (prunedEntries_trans kvs0 h2 h1)
  | (_, _) :: kvs0, _, _, _, _, .drop _ hm h2, .keep _ _ h1 =>
    .drop _ (List.mem_append_left _ hm) (prunedEntries_trans kvs0 h2 h1)
  | (_, v0) :: kvs0, A, B, _, _, .keep _ hv2 h2, .keep _ hv1 h1 =>
    .keep _ (under_append _ A B ▸ prunedAt_trans v0 hv2 hv1)
      (prunedEntries_trans kvs0 h2 h1)
termination_by structural kvs0 => kvs0
end

theorem prunedEntries_mapDelete (A : List (List Step)) (key : String)
    (kvs : List (String × Tree))
    (h : key ∈ kvs.map Prod.fst → [Step.key key] ∈ A) :
    PrunedEntries A (mapDelete key kvs) kvs := by
  induction kvs with
  | nil => exact .nil A
  | cons kv kvs ih =>
    obtain ⟨k, v⟩ := kv
    have ih' := ih (fun hm => h (by simp [hm]))
    by_cases hk : k = key
    · subst hk
      simp only [mapDelete, if_true]
      exact .drop A (h (by simp)) ih'
    · simp only [mapDelete, hk, if_false]
      exact .keep A (prunedAt_refl _ v) ih'

theorem prunedEntries_mapUpdate (A : List (List Step)) (key : String) (c c' : Tree)
    (kvs : List (String × Tree)) (hl : mapLookup key kvs = some c)
    (h : PrunedAt (under (.key key) A) c' c) :
    PrunedEntries A (mapUpdate key c' kvs) kvs := by
  induction kvs with
  | nil => simp [mapLookup] at hl
  | cons kv kvs ih =>
    obtain ⟨k, v⟩ := kv
    by_cases hk : k = key
    · subst hk
      simp only [mapLookup, if_true, Option.some.injEq] at hl
      subst hl
      simp only [mapUpdate, if_true]
      exact .keep A h (prunedEntries_refl A kvs)
    · simp only [mapLookup, hk, if_false] at hl
      simp only [mapUpdate, hk, if_false]
      exact .keep A (prunedAt_refl _ v) (ih hl)

theorem prunedElems_set (A : List (List Step)) (j : Nat) (xs : List Tree) (i : Nat)
    (c c' : Tree) (hget : xs[i]? = some c)
    (h : PrunedAt (under (.idx (j + i)) A) c' c) :
    PrunedElems A j (xs.set i c') xs := by
  induction xs generalizing i j with
  | nil => simp at hget
  | cons x xs ih =>
    cases i with
    | zero =>
      simp only [List.getElem?_cons_zero, Option.some.injEq] at hget
      subst hget
      exact .cons A j h (prunedElems_refl A (j + 1) xs)
    | succ i =>
      have hget' : xs[i]? = some c := by simpa using hget
      have h' : PrunedAt (under (.idx (j + 1 + i)) A) c' c := by
        have e : j + 1 + i = j + (i + 1) := by omega
        rw [e]
        exact h
      exact .cons A j (prunedAt_refl _ x) (ih (j + 1) i hget' h')

theorem prunedElems_rangeElems (A : List (List Step)) (body : Tree → Tree × Outcome)
    (j : Nat) (xs : List Tree)
    (h : ∀ i x, xs[i]? = some x → PrunedAt (under (.idx (j + i)) A) (body x).1 x) :
    PrunedElems A j (rangeElems body xs).1 xs := by
  induction xs generalizing j with
  | nil => exact .nil A j
  | cons x xs ih =>
    have hx : PrunedAt (under (.idx j) A) (body x).1 x := h 0 x (by simp)
    have hxs : ∀ i y, xs[i]? = some y →
        PrunedAt (under (.idx (j + 1 + i)) A) (body y).1 y := by
      intro i y hy
      have e : j + 1 + i = j + (i + 1) := by omega
      rw [e]
      exact h (i + 1) y (by simpa using hy)
    by_cases hok : (body x).2 = .ok
    · rw [rangeElems_cons_ok body x xs hok]
      exact .cons A j hx (ih (j + 1) hxs)
    · rw [rangeElems_cons_stop body x xs hok]
      exact .cons A j hx (prunedElems_refl A (j + 1) xs)

/-! ## Everything `apply` removes is addressed by the path -/

theorem locations_mapKey_last_mem {part : PathPart} {key : String}
    (kvs : List (String × Tree)) (hk : part.MapKey = some key)
    (hmem : key ∈ kvs.map Prod.fst) :
    [Step.key key] ∈ locations re [part] (.map kvs) := by
  cases hl : mapLookup key kvs with
  | none => exact absurd hmem ((mapLookup_eq_none_iff key kvs).mp hl)
  | some child => simp [locations, hk, hl]

theorem locations_mapKey_found_mem {part : PathPart} {key : String}
    (kvs : List (String × Tree)) {rest : Path} {child : Tree}
    (hk : part.MapKey = some key) (hrest : rest ≠ [])
    (hl : mapLookup key kvs = some child) :
    locations re rest child ⊆ under (.key key) (locations re (part :: rest) (.map kvs)) := by
  intro loc hloc
  rw [mem_under]
  simp only [locations, hk, hl]
  simp [hrest, hloc]

theorem locations_all_mem {part : PathPart} {arrayIndex : PathPartArrayIndex} {all : Bool}
    (xs : List Tree) (rest : Path) (i : Nat) (x : Tree)
    (hk : part.MapKey = none) (ha : part.ArrayIndex = some arrayIndex)
    (hall : arrayIndex.All = some all) (hget : xs[i]? = some x) :
    locations re rest x ⊆ under (.idx i) (locations re (part :: rest) (.array xs)) := by
  intro loc hloc
  have hrest : rest ≠ [] := by
    intro e
    subst e
    simp [locations] at hloc
  rw [mem_under]
  simp only [locations, hk, ha, hall]
  rw [List.mem_flatMap]
  refine ⟨(i, x), List.mk_mem_enum_iff_getElem?.mpr hget, ?_⟩
  simp [hrest, hloc]

theorem locations_index_mem {part : PathPart} {arrayIndex : PathPartArrayIndex}
    {index : Int} (xs : List Tree) (rest : Path) (x : Tree)
    (hk : part.MapKey = none) (ha : part.ArrayIndex = some arrayIndex)
    (hall : arrayIndex.All = none) (hidx : arrayIndex.Index = some index)
    (hpos : 0 ≤ index) (hget : xs[index.toNat]? = some x) :
    locations re rest x ⊆
      under (.idx index.toNat) (locations re (part :: rest) (.array xs)) := by
  intro loc hloc
  have hrest : rest ≠ [] := by
    intro e
    subst e
    simp [locations] at hloc
  rw [mem_under]
  simp only [locations, hk, ha, hall, hidx, Int.not_lt.mpr hpos, if_false, hget]
  simp [hrest, hloc]

theorem locations_regex_mem {part : PathPart} {pattern : String} {regex : String → Bool}
    (kvs : List (String × Tree)) (rest : Path) (k : String)
    (hk : part.MapKey = none) (ha : part.ArrayIndex = none)
    (hr : part.RegexObj.Regex = some pattern) (hc : re.Compile pattern = .ok regex)
    (hmem : k ∈ (kvs.map Prod.fst).filter regex) :
    locations re (PathPart.mapKey k :: rest) (.map kvs) ⊆
      locations re (part :: rest) (.map kvs) := by
  intro loc hloc
  simp only [locations, hk, ha, hr, hc]
  rw [List.mem_flatMap]
  refine ⟨k, hmem, ?_⟩
  simpa [locations, PathPart.mapKey] using hloc

/-- What a map key part addresses in a node does not grow when the call for
any key, the same or another, has returned `nil`. -/
theorem locations_step_subset (obj : Tree) (k k' : String) (rest : Path)
    (hok : (apply re ord obj (PathPart.mapKey k' :: rest)).2 = .ok) :
    locations re (PathPart.mapKey k :: rest)
        (apply re ord obj (PathPart.mapKey k' :: rest)).1 ⊆
      locations re (PathPart.mapKey k :: rest) obj := by
  by_cases hkk : k = k'
  · subst hkk
    rw [locations_after_apply re ord obj _ hok]
    exact List.nil_subset _
  · by_cases hrest : rest = []
    · subst hrest
      cases obj with
      | map kvs =>
        rw [apply_mapKey_last_plain re ord kvs k']
        simp [locations, PathPart.mapKey, mapLookup_mapDelete_other kvs hkk]
      | null => rw [apply_mapKey_nonMap_plain re ord .null k' [] rfl]; exact fun _ h => h
      | scalar v =>
        rw [apply_mapKey_nonMap_plain re ord (.scalar v) k' [] rfl]; exact fun _ h => h
      | array xs =>
        rw [apply_mapKey_nonMap_plain re ord (.array xs) k' [] rfl]; exact fun _ h => h
    · rw [locations_after_other_key re ord obj hrest hkk]
      exact fun _ h => h

/-- The loop over the keys only removes entries that the calls for these
keys address in the node the loop started from. -/
theorem pruned_after_rangeKeys (A : List (List Step)) (rest : Path)
    (hstep : ∀ o k, PrunedAt (locations re (PathPart.mapKey k :: rest) o)
      (apply re ord o (PathPart.mapKey k :: rest)).1 o)
    (keys : List String) :
    ∀ obj, (∀ k ∈ keys, locations re (PathPart.mapKey k :: rest) obj ⊆ A) →
      PrunedAt A
        (rangeKeys (fun o key => apply re ord o (PathPart.mapKey key :: rest)) obj keys).1
        obj := by
  induction keys with
  | nil =>
    intro obj _
    exact prunedAt_refl A obj
  | cons k keys ih =>
    intro obj hsub
    have h1 : PrunedAt A (apply re ord obj (PathPart.mapKey k :: rest)).1 obj :=
      prunedAt_mono (hsub k (List.mem_cons_self _ _)) (hstep obj k)
    by_cases hok : (apply re ord obj (PathPart.mapKey k :: rest)).2 = .ok
    · rw [rangeKeys_cons_ok _ obj k keys hok]
      have h2 := ih (apply re ord obj (PathPart.mapKey k :: rest)).1 (by
        intro k2 hk2
        exact fun loc hloc =>
          hsub k2 (List.mem_cons_of_mem _ hk2)
            (locations_step_subset re ord obj k2 k rest hok hloc))
      exact prunedAt_mono (by intro loc hloc; simpa using hloc) (prunedAt_trans obj h2 h1)
    · rw [rangeKeys_cons_stop _ obj k keys hok]
      exact h1

theorem pruned_of_unchanged (A : List (List Step)) {obj : Tree} {path : Path}
    {r : Outcome} (h : apply re ord obj path = (obj, r)) :
    PrunedAt A (apply re ord obj path).1 obj := by
  rw [h]
  exact prunedAt_refl A obj

/-- Whatever the outcome, the tree a call leaves is the tree it was given
with some map entries removed, each at a location the path addresses. -/
theorem pruned_after_apply_aux (n : Nat) :
    ∀ (obj : Tree) (path : Path), pathRank path ≤ n →
      PrunedAt (locations re path obj) (apply re ord obj path).1 obj := by
  induction n using Nat.strong_induction_on with
  | _ n ih =>
    intro obj path hn
    cases path with
    | nil => exact pruned_of_unchanged re ord _ (apply.eq_1 re ord obj)
    | cons part rest =>
      have ihrest : ∀ o, PrunedAt (locations re rest o) (apply re ord o rest).1 o :=
        fun o =>
          ih (pathRank rest) (lt_of_lt_of_le (pathRank_tail_lt part rest) hn) o rest le_rfl
      cases hk : part.MapKey with
      | some key =>
        cases obj with
        | null =>
          exact pruned_of_unchanged re ord _ (apply_mapKey_nonMap re ord .null rest hk rfl)
        | scalar v =>
          exact pruned_of_unchanged re ord _
            (apply_mapKey_nonMap re ord (.scalar v) rest hk rfl)
        | array xs =>
          exact pruned_of_unchanged re ord _
            (apply_mapKey_nonMap re ord (.array xs) rest hk rfl)
        | map kvs =>
          by_cases hrest : rest = []
          · subst hrest
            rw [apply_mapKey_last re ord kvs hk]
            exact .map _ (prunedEntries_mapDelete _ key kvs
              (locations_mapKey_last_mem re kvs hk))
          · cases hl : mapLookup key kvs with
            | none =>
              exact pruned_of_unchanged re ord _
                (apply_mapKey_missing re ord kvs hk hrest hl)
            | some child =>
              rw [apply_mapKey_found re ord kvs hk hrest hl]
              exact .map _ (prunedEntries_mapUpdate _ key child _ kvs hl
                (prunedAt_mono (locations_mapKey_found_mem re kvs hk hrest hl)
                  (ihrest child)))
      | none =>
        cases ha : part.ArrayIndex with
        | none =>
          cases hr : part.RegexObj.Regex with
          | none =>
            exact pruned_of_unchanged re ord _ (apply_unexpected re ord obj rest hk ha hr)
          | some pattern =>
            cases hc : re.Compile pattern with
            | error msg =>
              exact pruned_of_unchanged re ord _
                (apply_regex_failed re ord obj rest hk ha hr hc)
            | ok regex =>
              have hstep : ∀ o k, PrunedAt (locations re (PathPart.mapKey k :: rest) o)
                  (apply re ord o (PathPart.mapKey k :: rest)).1 o := fun o k =>
                ih _ (lt_of_lt_of_le (pathRank_mapKey_lt k rest hk) hn) o _ le_rfl
              cases obj with
              | null =>
                exact pruned_of_unchanged re ord _
                  (apply_regex_nonMap re ord .null rest hk ha hr hc rfl)
              | scalar v =>
                exact pruned_of_unchanged re ord _
                  (apply_regex_nonMap re ord (.scalar v) rest hk ha hr hc rfl)
              | array xs =>
                exact pruned_of_unchanged re ord _
                  (apply_regex_nonMap re ord (.array xs) rest hk ha hr hc rfl)
              | map kvs =>
                rw [apply_regex_compiled re ord (.map kvs) rest hk ha hr hc]
                apply pruned_after_rangeKeys re ord _ rest hstep
                intro k hkmem
                apply locations_regex_mem re kvs rest k hk ha hr hc
                have hk1 := List.mem_filter.mp hkmem
                exact List.mem_filter.mpr ⟨(mem_rangeOrder ord _ _).mp hk1.1, hk1.2⟩
        | some arrayIndex =>
          by_cases hlast : rest = [] ∧ part.RegexObj.Regex = none
          · obtain ⟨hrest, hr⟩ := hlast
            subst hrest
            exact pruned_of_unchanged re ord _ (apply_arrayIndex_last re ord obj hk ha hr)
          · have hlast' : rest ≠ [] ∨ part.RegexObj.Regex ≠ none := by
              by_cases hrest : rest = []
              · exact Or.inr (fun hr => hlast ⟨hrest, hr⟩)
              · exact Or.inl hrest
            cases hall : arrayIndex.All with
            | some all =>
              cases obj with
              | null =>
                exact pruned_of_unchanged re ord _
                  (apply_all_nonArray re ord .null hk ha hlast' hall rfl)
              | scalar v =>
                exact pruned_of_unchanged re ord _
                  (apply_all_nonArray re ord (.scalar v) hk ha hlast' hall rfl)
              | map kvs =>
                exact pruned_of_unchanged re ord _
                  (apply_all_nonArray re ord (.map kvs) hk ha hlast' hall rfl)
              | array xs =>
                rw [apply_all_array re ord xs hk ha hlast' hall]
                refine .array _ (prunedElems_rangeElems _ _ 0 xs ?_)
                intro i x hget
                rw [Nat.zero_add]
                exact prunedAt_mono (locations_all_mem re xs rest i x hk ha hall hget)
                  (ihrest x)
            | none =>
              cases hidx : arrayIndex.Index with
              | none =>
                exact pruned_of_unchanged re ord _
                  (apply_arrayIndex_unknown re ord obj hk ha hlast' hall hidx)
              | some index =>
                cases obj with
                | null =>
                  exact pruned_of_unchanged re ord _
                    (apply_index_nonArray re ord .null hk ha hlast' hall hidx rfl)
                | scalar v =>
                  exact pruned_of_unchanged re ord _
                    (apply_index_nonArray re ord (.scalar v) hk ha hlast' hall hidx rfl)
                | map kvs =>
                  exact pruned_of_unchanged re ord _
                    (apply_index_nonArray re ord (.map kvs) hk ha hlast' hall hidx rfl)
                | array xs =>
                  by_cases hneg : index < 0
                  · exact pruned_of_unchanged re ord _
                      (apply_index_negative re ord xs hk ha hlast' hall hidx hneg)
                  · by_cases hlen : (xs.length : Int) ≤ index
                    · exact pruned_of_unchanged re ord _
                        (apply_index_beyond re ord xs hk ha hlast' hall hidx hlen)
                    · have hpos : 0 ≤ index := Int.not_lt.mp hneg
                      have hlt : index.toNat < xs.length := by omega
                      have hget : xs[index.toNat]? = some xs[index.toNat] :=
                        List.getElem?_eq_getElem hlt
                      rw [apply_index_within re ord xs hk ha hlast' hall hidx hpos hget]
                      refine .array _ (prunedElems_set _ 0 xs index.toNat _ _ hget ?_)
                      rw [Nat.zero_add]
                      exact prunedAt_mono
                        (locations_index_mem re xs rest _ hk ha hall hidx hpos hget)
                        (ihrest _)

theorem pruned_after_apply (obj : Tree) (path : Path) :
    PrunedAt (locations re path obj) (apply re ord obj path).1 obj :=
  pruned_after_apply_aux re ord (pathRank path) obj path le_rfl

theorem prunedElems_length : ∀ (xs : List Tree) {A : List (List Step)} {j : Nat}
    {xs' : List Tree}, PrunedElems A j xs' xs → xs'.length = xs.length
  | [], _, _, _, .nil _ _ => rfl
  | _ :: xs, _, _, _, .cons _ _ _ h => by
    simp [prunedElems_length xs h]

theorem prunedEntries_keys : ∀ (kvs : List (String × Tree)) {A : List (List Step)}
    {kvs' : List (String × Tree)}, PrunedEntries A kvs' kvs →
    (kvs'.map Prod.fst).Sublist (kvs.map Prod.fst)
  | [], _, _, .nil _ => List.Sublist.slnil
  | (_, _) :: kvs, _, _, .drop _ _ h => List.Sublist.cons _ (prunedEntries_keys kvs h)
  | (_, _) :: kvs, _, _, .keep _ _ h => List.Sublist.cons₂ _ (prunedEntries_keys kvs h)

theorem prunedEntries_missing : ∀ (kvs : List (String × Tree)) {A : List (List Step)}
    {kvs' : List (String × Tree)}, PrunedEntries A kvs' kvs →
    ∀ k, k ∈ kvs.map Prod.fst → k ∉ kvs'.map Prod.fst → [Step.key k] ∈ A
  | [], _, _, .nil _ => by
    intro k hk
    simp at hk
  | (k0, _) :: kvs, _, _, .drop _ hm h => by
    intro k hk hnot
    by_cases e : k = k0
    · rw [e]
      exact hm
    · exact prunedEntries_missing kvs h k (by simpa [e] using hk) hnot
  | (k0, _) :: kvs, _, _, .keep _ _ h => by
    intro k hk hnot
    have e : k ≠ k0 := by
      intro e
      exact hnot (by simp [e])
    exact prunedEntries_missing kvs h k (by simpa [e] using hk)
      (fun hm => hnot (by simp [hm]))

theorem prunedAt_scalar {A : List (List Step)} {t' : Tree} {v : Scalar}
    (h : PrunedAt A t' (.scalar v)) : t' = .scalar v := by
  cases h
  rfl

theorem prunedAt_array {A : List (List Step)} {t' : Tree} {xs : List Tree}
    (h : PrunedAt A t' (.array xs)) : ∃ xs', t' = .array xs' ∧ xs'.length = xs.length := by
  cases h with
  | array _ he => exact ⟨_, rfl, prunedElems_length xs he⟩

theorem prunedAt_map {A : List (List Step)} {t' : Tree} {kvs : List (String × Tree)}
    (h : PrunedAt A t' (.map kvs)) :
    ∃ kvs', t' = .map kvs' ∧ (kvs'.map Prod.fst).Sublist (kvs.map Prod.fst) ∧
      ∀ k ∈ kvs.map Prod.fst, k ∉ kvs'.map Prod.fst → [Step.key k] ∈ A := by
  cases h with
  | map _ he => exact ⟨_, rfl, prunedEntries_keys kvs he, prunedEntries_missing kvs he⟩

/-! ## A path that ends in an array index part -/

theorem rangeElems_of_unchanged (body : Tree → Tree × Outcome) (f : Tree → Outcome)
    (xs : List Tree) (h : ∀ x, body x = (x, f x)) :
    rangeElems body xs = (xs, firstNotOk (xs.map f)) := by
  induction xs with
  | nil => rfl
  | cons x xs ih =>
    by_cases hx : f x = .ok
    · have hb : (body x).2 = .ok := by rw [h x]; exact hx
      rw [rangeElems_cons_ok body x xs hb, ih, h x]
      simp [firstNotOk, hx]
    · have hb : (body x).2 ≠ .ok := by rw [h x]; exact hx
      rw [rangeElems_cons_stop body x xs hb, h x]
      cases hfx : f x with
      | ok => exact absurd hfx hx
      | error e => simp [firstNotOk, hfx]
      | fault e => simp [firstNotOk, hfx]

theorem rangeKeys_of_unchanged (body : Tree → String → Tree × Outcome) (obj : Tree)
    (g : String → Outcome) (keys : List String) (h : ∀ k, body obj k = (obj, g k)) :
    rangeKeys body obj keys = (obj, firstNotOk (keys.map g)) := by
  induction keys with
  | nil => rfl
  | cons k keys ih =>
    by_cases hk : g k = .ok
    · have hb : (body obj k).2 = .ok := by rw [h k]; exact hk
      rw [rangeKeys_cons_ok body obj k keys hb, h k]
      simp only [List.map_cons, hk, firstNotOk]
      exact ih
    · have hb : (body obj k).2 ≠ .ok := by rw [h k]; exact hk
      rw [rangeKeys_cons_stop body obj k keys hb, h k]
      cases hgk : g k with
      | ok => exact absurd hgk hk
      | error e => simp [firstNotOk, hgk]
      | fault e => simp [firstNotOk, hgk]

/-- On a path that ends in an array index part with no regex, `apply`
changes nothing and its outcome is that of the walk of the earlier parts. -/
theorem apply_before_last (P : Path) (a : PathPart) (arrayIndex : PathPartArrayIndex)
    (hk : a.MapKey = none) (ha : a.ArrayIndex = some arrayIndex)
    (hr : a.RegexObj.Regex = none) :
    ∀ T, apply re ord T (P ++ [a]) = (T, outcomeBeforeLast re ord P T) := by
  induction P with
  | nil =>
    intro T
    exact apply_arrayIndex_last re ord T hk ha hr
  | cons part rest ih =>
    intro T
    have hne : rest ++ [a] ≠ [] := by simp
    rw [List.cons_append]
    cases hpk : part.MapKey with
    | some key =>
      cases T with
      | null =>
        rw [apply_mapKey_nonMap re ord .null _ hpk rfl]
        simp [outcomeBeforeLast, hpk]
      | scalar v =>
        rw [apply_mapKey_nonMap re ord (.scalar v) _ hpk rfl]
        simp [outcomeBeforeLast, hpk]
      | array xs =>
        rw [apply_mapKey_nonMap re ord (.array xs) _ hpk rfl]
        simp [outcomeBeforeLast, hpk]
      | map kvs =>
        cases hl : mapLookup key kvs with
        | none =>
          rw [apply_mapKey_missing re ord kvs hpk hne hl]
          simp [outcomeBeforeLast, hpk, hl]
        | some child =>
          rw [apply_mapKey_found re ord kvs hpk hne hl, ih child]
          simp [outcomeBeforeLast, hpk, hl, mapUpdate_same key child kvs hl]
    | none =>
      cases hpa : part.ArrayIndex with
      | none =>
        cases hpr : part.RegexObj.Regex with
        | none =>
          rw [apply_unexpected re ord T _ hpk hpa hpr]
          simp [outcomeBeforeLast, hpk, hpa, hpr]
        | some pattern =>
          cases hc : re.Compile pattern with
          | error msg =>
            rw [apply_regex_failed re ord T _ hpk hpa hpr hc]
            simp [outcomeBeforeLast, hpk, hpa, hpr, hc]
          | ok regex =>
            cases T with
            | null =>
              rw [apply_regex_nonMap re ord .null _ hpk hpa hpr hc rfl]
              simp [outcomeBeforeLast, hpk, hpa, hpr, hc]
            | scalar v =>
              rw [apply_regex_nonMap re ord (.scalar v) _ hpk hpa hpr hc rfl]
              simp [outcomeBeforeLast, hpk, hpa, hpr, hc]
            | array xs =>
              rw [apply_regex_nonMap re ord (.array xs) _ hpk hpa hpr hc rfl]
              simp [outcomeBeforeLast, hpk, hpa, hpr, hc]
            | map kvs =>
              rw [apply_regex_compiled re ord (.map kvs) _ hpk hpa hpr hc]
              rw [rangeKeys_of_unchanged _ (.map kvs)
                (fun key =>
                  match mapLookup key kvs with
                  | none => Outcome.ok
                  | some child => outcomeBeforeLast re ord rest child)]
              · simp [outcomeBeforeLast, hpk, hpa, hpr, hc, assertMap, GoMap.entries]
              · intro k
                cases hl : mapLookup k kvs with
                | none => exact apply_mapKey_missing_plain re ord kvs k _ hne hl
                | some child =>
                  rw [apply_mapKey_found_plain re ord kvs k _ child hne hl, ih child]
                  simp [mapUpdate_same k child kvs hl]
      | some ai =>
        have hlast' : rest ++ [a] ≠ [] ∨ part.RegexObj.Regex ≠ none := Or.inl hne
        cases hall : ai.All with
        | some all =>
          cases T with
          | null =>
            rw [apply_all_nonArray re ord .null hpk hpa hlast' hall rfl]
            simp [outcomeBeforeLast, hpk, hpa, hall]
          | scalar v =>
            rw [apply_all_nonArray re ord (.scalar v) hpk hpa hlast' hall rfl]
            simp [outcomeBeforeLast, hpk, hpa, hall]
          | map kvs =>
            rw [apply_all_nonArray re ord (.map kvs) hpk hpa hlast' hall rfl]
            simp [outcomeBeforeLast, hpk, hpa, hall]
          | array xs =>
            rw [apply_all_array re ord xs hpk hpa hlast' hall,
              rangeElems_of_unchanged _ (fun x => outcomeBeforeLast re ord rest x) xs ih]
            simp [outcomeBeforeLast, hpk, hpa, hall]
        | none =>
          cases hidx : ai.Index with
          | none =>
            rw [apply_arrayIndex_unknown re ord T hpk hpa hlast' hall hidx]
            simp [outcomeBeforeLast, hpk, hpa, hall, hidx]
          | some index =>
            cases T with
            | null =>
              rw [apply_index_nonArray re ord .null hpk hpa hlast' hall hidx rfl]
              simp [outcomeBeforeLast, hpk, hpa, hall, hidx]
            | scalar v =>
              rw [apply_index_nonArray re ord (.scalar v) hpk hpa hlast' hall hidx rfl]
              simp [outcomeBeforeLast, hpk, hpa, hall, hidx]
            | map kvs =>
              rw [apply_index_nonArray re ord (.map kvs) hpk hpa hlast' hall hidx rfl]
              simp [outcomeBeforeLast, hpk, hpa, hall, hidx]
            | array xs =>
              by_cases hneg : index < 0
              · have hlt : index < xs.length := by omega
                rw [apply_index_negative re ord xs hpk hpa hlast' hall hidx hneg]
                simp [outcomeBeforeLast, hpk, hpa, hall, hidx, hneg, hlt]
              · by_cases hlen : (xs.length : Int) ≤ index
                · rw [apply_index_beyond re ord xs hpk hpa hlast' hall hidx hlen]
                  simp [outcomeBeforeLast, hpk, hpa, hall, hidx, Int.not_lt.mpr hlen]
                · have hpos : 0 ≤ index := Int.not_lt.mp hneg
                  have hlt : index.toNat < xs.length := by omega
                  have hlt' : index < xs.length := by omega
                  have hget : xs[index.toNat]? = some xs[index.toNat] :=
                    List.getElem?_eq_getElem hlt
                  rw [apply_index_within re ord xs hpk hpa hlast' hall hidx hpos hget,
                    ih _]
                  simp only [outcomeBeforeLast, hpk, hpa, hall, hidx, hlt', hneg, hget,
                    if_true, if_false, list_set_same xs _ _ hget]

/-! ## The properties -/

/-- C1 (counterexample): in `{"a": 7, "b": [{"x": 1}]}` the path
`[Regex("^"), All, MapKey("x")]` fails at key `a`, whose value is not a
sequence.  A first call that visits `a` first returns the error and leaves
the tree as it was; a second call on that tree that visits `b` first
deletes `x` under `b` before it fails, so it does change the tree. -/
theorem second_call_after_error_changes_tree :
    apply sampleRegexp storedOrder sampleMixed sampleMixedPath =
        (sampleMixed, .error (.nonArrayFound "int64")) ∧
      apply sampleRegexp reverseOrder
          (apply sampleRegexp storedOrder sampleMixed sampleMixedPath).1 sampleMixedPath =
        (.map [("a", num 7), ("b", .array [.map []])], .error (.nonArrayFound "int64")) ∧
      (apply sampleRegexp reverseOrder
          (apply sampleRegexp storedOrder sampleMixed sampleMixedPath).1 sampleMixedPath).1 ≠
        (apply sampleRegexp storedOrder sampleMixed sampleMixedPath).1 := by
  have e1 : ∀ o kvs, apply sampleRegexp o (.map kvs) [.mapKey "x"] =
      (.map (mapDelete "x" kvs), .ok) :=
    fun o kvs => apply_mapKey_last sampleRegexp o kvs rfl
  have e2 : ∀ o xs, apply sampleRegexp o (.array xs) [.all, .mapKey "x"] =
      (.array (rangeElems (fun elem => apply sampleRegexp o elem [.mapKey "x"]) xs).1,
        (rangeElems (fun elem => apply sampleRegexp o elem [.mapKey "x"]) xs).2) :=
    fun o xs => apply_all_array_plain sampleRegexp o xs _ (by simp)
  have e3 : ∀ o, apply sampleRegexp o (num 7) [.all, .mapKey "x"] =
      (num 7, .error (.nonArrayFound "int64")) :=
    fun o => apply_all_nonArray_plain sampleRegexp o (num 7) _ (by simp) rfl
  have e4 : ∀ o (key : String) kvs child, mapLookup key kvs = some child →
      apply sampleRegexp o (.map kvs) [.mapKey key, .all, .mapKey "x"] =
        (.map (mapUpdate key (apply sampleRegexp o child [.all, .mapKey "x"]).1 kvs),
          (apply sampleRegexp o child [.all, .mapKey "x"]).2) :=
    fun o key kvs child h => apply_mapKey_found sampleRegexp o kvs rfl (by simp) h
  have hc : sampleRegexp.Compile "^" = .ok (fun s => [].isPrefixOf s.data) := rfl
  have h1 : apply sampleRegexp storedOrder sampleMixed sampleMixedPath =
      (sampleMixed, .error (.nonArrayFound "int64")) := by
    simp only [sampleMixed, sampleMixedPath]
    rw [apply_regex_compiled_plain sampleRegexp storedOrder _ "^" _ _ hc]
    simp only [assertMap, GoMap.entries, storedOrder, List.map, List.filter,
      List.isPrefixOf, rangeKeys]
    rw [e4 _ "a" _ (num 7) (by simp [mapLookup]), e3]
    simp [mapUpdate]
  have h2 : apply sampleRegexp reverseOrder sampleMixed sampleMixedPath =
      (.map [("a", num 7), ("b", .array [.map []])], .error (.nonArrayFound "int64")) := by
    simp only [sampleMixed, sampleMixedPath]
    rw [apply_regex_compiled_plain sampleRegexp reverseOrder _ "^" _ _ hc]
    simp only [assertMap, GoMap.entries, reverseOrder, List.map, List.reverse_cons,
      List.reverse_nil, List.nil_append, List.cons_append, List.filter, List.isPrefixOf,
      rangeKeys]
    rw [e4 _ "b" _ (.array [.map [("x", num 1)]]) (by simp [mapLookup]), e2]
    have hab : ¬ ("a" = "b") := by decide
    simp only [rangeElems, e1, mapDelete, if_true, mapUpdate, hab, if_false]
    rw [e4 _ "a" _ (num 7) (by simp [mapLookup]), e3]
    simp [mapUpdate]
  refine ⟨h1, ?_, ?_⟩
  · rw [h1]
    exact h2
  · rw [h1]
    simp only
    rw [h2]
    simp [sampleMixed]

/-- C1 (amended): when the first call returned `nil`, a second call with
the same path on the tree it left, whatever order it visits map keys in,
leaves that tree unchanged and returns `nil`; and whatever the first call
returned, a second call that visits map keys in the same order leaves the
tree unchanged and ends as the first call did. -/
theorem remove_idempotent (T : Tree) (P : Path) :
    ((apply re ord T P).2 = .ok →
        apply re ord' (apply re ord T P).1 P = ((apply re ord T P).1, .ok)) ∧
      apply re ord (apply re ord T P).1 P = apply re ord T P :=
  ⟨apply_settled re ord ord' T P, apply_stable re ord T P⟩

/-- C2 (postcondition on success): when `apply T P` returns `nil`, the path
`P` addresses no location of the tree the call left. -/
theorem postcondition_on_success (T : Tree) (P : Path) (hok : (apply re ord T P).2 = .ok) :
    locations re P (apply re ord T P).1 = [] :=
  locations_after_apply re ord T P hok

/-- An example of C2: in `{"items": [{"x":1,"y":2},{"x":3,"y":4}]}` the path
`[MapKey("items"), All, MapKey("x")]` addresses two entries before the call
and none after it. -/
theorem postcondition_on_success_witness :
    locations sampleRegexp sampleItemsPath sampleItems =
        [[.key "items", .idx 0, .key "x"], [.key "items", .idx 1, .key "x"]] ∧
      (apply sampleRegexp storedOrder sampleItems sampleItemsPath).2 = .ok ∧
      locations sampleRegexp sampleItemsPath
        (apply sampleRegexp storedOrder sampleItems sampleItemsPath).1 = [] := by
  have e1 : ∀ kvs, apply sampleRegexp storedOrder (.map kvs) [.mapKey "x"] =
      (.map (mapDelete "x" kvs), .ok) :=
    fun kvs => apply_mapKey_last sampleRegexp storedOrder kvs rfl
  have hok : (apply sampleRegexp storedOrder sampleItems sampleItemsPath).2 = .ok := by
    simp only [sampleItems, sampleItemsPath]
    rw [apply_mapKey_found_plain sampleRegexp storedOrder _ "items" _ _ (by simp)
        (by simp [mapLookup]; rfl),
      apply_all_array_plain sampleRegexp storedOrder _ _ (by simp)]
    simp [rangeElems, e1]
  refine ⟨?_, hok, postcondition_on_success sampleRegexp storedOrder sampleItems sampleItemsPath hok⟩
  decide

/-- C3 (missing path is a no-op): when the walk of `P` from the root of `T`
through map key and `Index` parts that resolve comes to a map key part whose
key is missing, a map key part at an absent node, or an `Index` part that is
not last and lies beyond the end of its sequence, `apply` returns `nil` and
`T` is unchanged, whatever parts follow. -/
theorem missing_path_is_noop (T : Tree) (P : Path) (h : failsToResolve T P = true) :
    apply re ord T P = (T, .ok) :=
  apply_of_failsToResolve re ord T P h

/-- The example of C3: `{"items":[1,2]}` with
`[MapKey("items"), Index(5), MapKey("z")]`. -/
theorem missing_path_is_noop_witness :
    failsToResolve (.map [("items", .array [num 1, num 2])])
        [.mapKey "items", .index 5, .mapKey "z"] = true ∧
      apply sampleRegexp storedOrder (.map [("items", .array [num 1, num 2])])
        [.mapKey "items", .index 5, .mapKey "z"] =
        (.map [("items", .array [num 1, num 2])], .ok) :=
  ⟨by decide, missing_path_is_noop sampleRegexp storedOrder _ _ (by decide)⟩

/-- C4 (as the code behaves): a map key part applied to a node that is not a
mapping, be it a scalar, a sequence or absent, makes `apply` return `nil`
with the node unchanged; the error "Unexpected non-map found" is never
returned, because after a failed assertion `typedObj` is the nil map. -/
theorem mapKey_on_non_map_returns_nil (n : Tree) (part : PathPart) (key : String)
    (rest : Path) (hk : part.MapKey = some key) (hn : ∀ kvs, n ≠ .map kvs) :
    apply re ord n (part :: rest) = (n, .ok) := by
  apply apply_mapKey_nonMap re ord n rest hk
  cases n with
  | map kvs => exact absurd rfl (hn kvs)
  | _ => rfl

/-- The example of C4: `{"a": 5}` with `[MapKey("a"), MapKey("b")]` returns
`nil`, not an error. -/
theorem mapKey_on_non_map_returns_nil_witness :
    apply sampleRegexp storedOrder (.map [("a", num 5)]) [.mapKey "a", .mapKey "b"] =
      (.map [("a", num 5)], .ok) := by
  have h := mapKey_on_non_map_returns_nil sampleRegexp storedOrder (num 5) (.mapKey "b") "b" []
    rfl (by intro kvs; simp [num])
  rw [apply_mapKey_found_plain sampleRegexp storedOrder _ "a" _ (num 5) (by simp)
    (by simp [mapLookup]), h]
  simp [mapUpdate]

/-- C5 (counterexample): on the empty mapping the path
`[MapKey("a"), Index(0)]`, whose last part is a bare array index, returns
`nil`: the missing key ends the call before the last part is looked at. -/
theorem trailing_index_not_always_rejected :
    apply sampleRegexp storedOrder (.map []) [.mapKey "a", .index 0] = (.map [], .ok) ∧
      (apply sampleRegexp storedOrder (.map []) [.mapKey "a", .index 0]).2 ≠
        .error .lastPartNotMapKey := by
  have h : apply sampleRegexp storedOrder (.map []) [.mapKey "a", .index 0] = (.map [], .ok) :=
    apply_mapKey_missing_plain sampleRegexp storedOrder [] "a" _ (by simp) rfl
  exact ⟨h, by rw [h]; simp⟩

/-- C5 (amended): for every tree and every path whose last part is an array
index part with no regex set, `apply` leaves the tree unchanged and its
outcome is that of the walk of the earlier parts, `outcomeBeforeLast`: the
error "Expected last part of the path to be map key" whenever that walk
reaches the last part, also through the elements of an `All` part and the
matched keys of a regex part, and otherwise what ended the walk before it.
In particular the call fails with that error whenever the earlier parts are
map key and `Index` parts that all resolve. -/
theorem trailing_index_outcome (T : Tree) (P : Path) (a : PathPart)
    (arrayIndex : PathPartArrayIndex)
    (hk : a.MapKey = none) (ha : a.ArrayIndex = some arrayIndex)
    (hr : a.RegexObj.Regex = none) :
    apply re ord T (P ++ [a]) = (T, outcomeBeforeLast re ord P T) ∧
      (∀ n, descend T P = some n →
        apply re ord T (P ++ [a]) = (T, .error .lastPartNotMapKey)) :=
  ⟨apply_before_last re ord P a arrayIndex hk ha hr T,
    fun n hd => apply_of_descend re ord T P a n arrayIndex hk ha hr hd⟩

/-- The examples of C5: the error is reached through a map key that is
present (`{"a": [1]}` with `[MapKey("a"), Index(0)]`), through the first
element of an `All` part (`[[1], [2]]` with `[All, Index(0)]`) and through
the key matched by a regex part (`{"a": [1]}` with `[Regex("^a"), Index(0)]`);
an earlier `Index` part on a number ends the call with "Unexpected non-array
found" instead (`{"a": 5}` with `[MapKey("a"), Index(0), Index(0)]`). -/
theorem trailing_index_outcome_witness :
    descend (.map [("a", .array [num 1])]) [.mapKey "a"] = some (.array [num 1]) ∧
      apply sampleRegexp storedOrder (.map [("a", .array [num 1])]) [.mapKey "a", .index 0] =
        (.map [("a", .array [num 1])], .error .lastPartNotMapKey) ∧
      apply sampleRegexp storedOrder (.array [.array [num 1], .array [num 2]])
          [.all, .index 0] =
        (.array [.array [num 1], .array [num 2]], .error .lastPartNotMapKey) ∧
      apply sampleRegexp storedOrder (.map [("a", .array [num 1])]) [.regex "^a", .index 0] =
        (.map [("a", .array [num 1])], .error .lastPartNotMapKey) ∧
      apply sampleRegexp storedOrder (.map [("a", num 5)])
          [.mapKey "a", .index 0, .index 0] =
        (.map [("a", num 5)], .error (.nonArrayFound "int64")) :=
  ⟨by simp [descend, PathPart.mapKey, mapLookup],
    (trailing_index_outcome sampleRegexp storedOrder (.map [("a", .array [num 1])])
      [.mapKey "a"] (.index 0) _ rfl rfl rfl).2 (.array [num 1])
        (by simp [descend, PathPart.mapKey, mapLookup]),
    (trailing_index_outcome sampleRegexp storedOrder (.array [.array [num 1], .array [num 2]])
      [.all] (.index 0) _ rfl rfl rfl).1.trans (by
        simp [outcomeBeforeLast, PathPart.all, firstNotOk]),
    (trailing_index_outcome sampleRegexp storedOrder (.map [("a", .array [num 1])])
      [.regex "^a"] (.index 0) _ rfl rfl rfl).1.trans (by
        simp [outcomeBeforeLast, PathPart.regex, firstNotOk, sampleRegexp, storedOrder,
          mapLookup]),
    (trailing_index_outcome sampleRegexp storedOrder (.map [("a", num 5)])
      [.mapKey "a", .index 0] (.index 0) _ rfl rfl rfl).1.trans (by
        simp [outcomeBeforeLast, PathPart.mapKey, PathPart.index, mapLookup, num,
          Tree.goType])⟩

/-- C6 (map key removal): for a path of map key parts `k1 .. kn`, written
here as the keys `ks` followed by `k`, and a tree in which `ks` leads through
nested mappings to a mapping `m`, `apply` returns `nil` and leaves the tree
in which `m` has lost its entry for `k`: the node at `ks` is `m` without the
entries keyed `k`, whatever lies at a chain of keys that parts ways with the
path is as before, and if `m` has no key `k` the tree is unchanged. -/
theorem mapKey_removal (T : Tree) (ks : List String) (k : String)
    (m : List (String × Tree)) (h : lookupPath ks T = some (.map m)) :
    apply re ord T ((ks ++ [k]).map PathPart.mapKey) = (deleteAt (ks ++ [k]) T, .ok) ∧
      lookupPath ks (deleteAt (ks ++ [k]) T) =
        some (.map (m.filter (fun kv => decide (kv.1 ≠ k)))) ∧
      (∀ q, diverge q (ks ++ [k]) = true →
        lookupPath q (deleteAt (ks ++ [k]) T) = lookupPath q T) ∧
      (k ∉ m.map Prod.fst → deleteAt (ks ++ [k]) T = T) :=
  ⟨apply_mapKey_chain re ord T ks k m h, lookupPath_deleteAt_target T ks k m h,
    fun q hq => lookupPath_deleteAt_diverge (ks ++ [k]) T q hq,
    fun hk => deleteAt_of_absent T ks k m h hk⟩

/-- The example of C6: `{"a": {"b": 1, "c": 2}}` with
`[MapKey("a"), MapKey("b")]` gives `{"a": {"c": 2}}`. -/
theorem mapKey_removal_witness :
    apply sampleRegexp storedOrder (.map [("a", .map [("b", num 1), ("c", num 2)])])
        [.mapKey "a", .mapKey "b"] =
      (.map [("a", .map [("c", num 2)])], .ok) := by
  have h := (mapKey_removal sampleRegexp storedOrder (.map [("a", .map [("b", num 1), ("c", num 2)])])
    ["a"] "b" [("b", num 1), ("c", num 2)] (by simp [lookupPath, mapLookup])).1
  simpa [deleteAt, mapLookup, mapUpdate, mapDelete] using h

/-- C7 (wildcard fan-out): for a sequence `s` and a non-empty remaining path
`R`, `apply` on `[All] ++ R` returns `nil` exactly when `apply` with `R`
returns `nil` on every element of `s`; the result is then the sequence of
the results on the elements, in order; and an element on which `R` does not
resolve is returned as it was with `nil`, so that the loop goes on. -/
theorem wildcard_fan_out (s : List Tree) (R : Path) (hR : R ≠ []) :
    ((apply re ord (.array s) (.all :: R)).2 = .ok ↔ ∀ e ∈ s, (apply re ord e R).2 = .ok) ∧
      ((apply re ord (.array s) (.all :: R)).2 = .ok →
        apply re ord (.array s) (.all :: R) =
          (.array (s.map (fun e => (apply re ord e R).1)), .ok)) ∧
      (∀ e ∈ s, failsToResolve e R = true → apply re ord e R = (e, .ok)) := by
  have hu : apply re ord (.array s) (.all :: R) =
      (.array (rangeElems (fun elem => apply re ord elem R) s).1,
        (rangeElems (fun elem => apply re ord elem R) s).2) :=
    apply_all_array_plain re ord s R hR
  refine ⟨?_, ?_, ?_⟩
  · rw [hu]
    exact rangeElems_ok_iff _ s
  · intro hok
    rw [hu] at hok ⊢
    rw [rangeElems_of_ok _ s ((rangeElems_ok_iff _ s).mp hok)]
  · intro e _ he
    exact apply_of_failsToResolve re ord e R he

/-- The example of C7: `{"items": [{"x":1,"y":2},{"x":3,"y":4}]}` with
`[MapKey("items"), All, MapKey("x")]` gives `{"items":[{"y":2},{"y":4}]}`. -/
theorem wildcard_fan_out_witness :
    apply sampleRegexp storedOrder
        (.map [("items", .array [.map [("x", num 1), ("y", num 2)],
          .map [("x", num 3), ("y", num 4)]])])
        [.mapKey "items", .all, .mapKey "x"] =
      (.map [("items", .array [.map [("y", num 2)], .map [("y", num 4)]])], .ok) := by
  have e1 : ∀ kvs, apply sampleRegexp storedOrder (.map kvs) [.mapKey "x"] =
      (.map (mapDelete "x" kvs), .ok) :=
    fun kvs => apply_mapKey_last sampleRegexp storedOrder kvs rfl
  obtain ⟨hiff, hres, -⟩ := wildcard_fan_out sampleRegexp storedOrder
    [.map [("x", num 1), ("y", num 2)], .map [("x", num 3), ("y", num 4)]]
    [.mapKey "x"] (by simp)
  have hok := hiff.mpr (by simp [e1])
  rw [apply_mapKey_found_plain sampleRegexp storedOrder _ "items" _ _ (by simp)
    (by simp [mapLookup]; rfl), hres hok]
  simp [e1, mapUpdate, mapDelete]

/-- C8 (terminal regex fan-out): for a mapping `m` and a pattern that
compiles, `apply` with the one-part path `[Regex(p)]` returns `nil` and
leaves `m` without the entries whose key matches, every other entry kept
with its value and in its place; on an absent node it returns `nil` and the
node stays absent. -/
theorem terminal_regex_fan_out (m : List (String × Tree)) (p : String)
    (regex : String → Bool) (hc : re.Compile p = .ok regex) :
    apply re ord (.map m) [.regex p] = (.map (m.filter (fun kv => !regex kv.1)), .ok) ∧
      apply re ord .null [.regex p] = (.null, .ok) := by
  exact ⟨apply_terminal_regex re ord m rfl rfl rfl hc,
    apply_regex_nonMap_plain re ord .null p regex [] hc rfl⟩

/-- The example of C8: `{"a1":1,"a2":2,"b":3}` with `[Regex("^a")]` gives
`{"b":3}`. -/
theorem terminal_regex_fan_out_witness :
    apply sampleRegexp storedOrder (.map [("a1", num 1), ("a2", num 2), ("b", num 3)]) [.regex "^a"] =
      (.map [("b", num 3)], .ok) := by
  have h := (terminal_regex_fan_out sampleRegexp storedOrder
    [("a1", num 1), ("a2", num 2), ("b", num 3)] "^a"
    (fun s => ['a'].isPrefixOf s.data) rfl).1
  simpa using h

/-- C9 (first error wins, no roll-back): for a sequence `s` and a non-empty
remaining path `R`, if `e` is the first element, at position `k`, on which
`apply` with `R` does not return `nil`, then `apply` on `[All] ++ R`
returns the outcome of `e`; the elements before `k` hold their results, the
element at `k` is as its own call left it, and the elements after `k` are
untouched.  So there is an input on which `apply` returns an error and the
tree has changed all the same. -/
theorem first_error_wins (s : List Tree) (R : Path) (k : Nat) (e : Tree) (hR : R ≠ [])
    (hk : s[k]? = some e) (hfail : (apply re ord e R).2 ≠ .ok)
    (hfirst : ∀ j x, j < k → s[j]? = some x → (apply re ord x R).2 = .ok) :
    apply re ord (.array s) (.all :: R) =
        (.array ((s.take k).map (fun x => (apply re ord x R).1) ++
          (apply re ord e R).1 :: s.drop (k + 1)), (apply re ord e R).2) ∧
      ∃ (T : Tree) (P : Path) (err : Err),
        (apply re ord T P).2 = .error err ∧ (apply re ord T P).1 ≠ T := by
  refine ⟨?_, ?_⟩
  · rw [apply_all_array_plain re ord s R hR,
      rangeElems_first_stop _ s k e hk hfail hfirst]
  · refine ⟨.array [.array [.map [("x", num 1)]], num 5], [.all, .all, .mapKey "x"],
      .nonArrayFound "int64", ?_⟩
    have e1 : ∀ kvs, apply re ord (.map kvs) [.mapKey "x"] = (.map (mapDelete "x" kvs), .ok) :=
      fun kvs => apply_mapKey_last re ord kvs rfl
    have e2 : ∀ xs, apply re ord (.array xs) [.all, .mapKey "x"] =
        (.array (rangeElems (fun elem => apply re ord elem [.mapKey "x"]) xs).1,
          (rangeElems (fun elem => apply re ord elem [.mapKey "x"]) xs).2) :=
      fun xs => apply_all_array_plain re ord xs _ (by simp)
    have e3 : apply re ord (num 5) [.all, .mapKey "x"] =
        (num 5, .error (.nonArrayFound "int64")) :=
      apply_all_nonArray_plain re ord (num 5) _ (by simp) rfl
    rw [apply_all_array_plain re ord _ _ (by simp)]
    simp [rangeElems, e1, e2, e3, mapDelete]

/-- The example of C9: in `[[{"x":1}], 5, [{"x":2}]]` with
`[All, All, MapKey("x")]` the second element is not a sequence; the call
returns its error, the first element has lost `x` and the third has not. -/
theorem first_error_wins_witness :
    apply sampleRegexp storedOrder
        (.array [.array [.map [("x", num 1)]], num 5, .array [.map [("x", num 2)]]])
        [.all, .all, .mapKey "x"] =
      (.array [.array [.map []], num 5, .array [.map [("x", num 2)]]],
        .error (.nonArrayFound "int64")) := by
  have e1 : ∀ kvs, apply sampleRegexp storedOrder (.map kvs) [.mapKey "x"] =
      (.map (mapDelete "x" kvs), .ok) :=
    fun kvs => apply_mapKey_last sampleRegexp storedOrder kvs rfl
  have e2 : ∀ xs, apply sampleRegexp storedOrder (.array xs) [.all, .mapKey "x"] =
      (.array (rangeElems (fun elem => apply sampleRegexp storedOrder elem [.mapKey "x"]) xs).1,
        (rangeElems (fun elem => apply sampleRegexp storedOrder elem [.mapKey "x"]) xs).2) :=
    fun xs => apply_all_array_plain sampleRegexp storedOrder xs _ (by simp)
  have e3 : apply sampleRegexp storedOrder (num 5) [.all, .mapKey "x"] =
      (num 5, .error (.nonArrayFound "int64")) :=
    apply_all_nonArray_plain sampleRegexp storedOrder (num 5) _ (by simp) rfl
  have h := (first_error_wins sampleRegexp storedOrder
    [.array [.map [("x", num 1)]], num 5, .array [.map [("x", num 2)]]]
    [.all, .mapKey "x"] 1 (num 5) (by simp) (by simp) (by rw [e3]; simp)
    (by
      intro j x hj hx
      have hj0 : j = 0 := by omega
      subst hj0
      simp only [List.getElem?_cons_zero, Option.some.injEq] at hx
      subst hx
      simp [e2, e1, rangeElems])).1
  rw [h]
  simp [e1, e2, e3, rangeElems, mapDelete]

/-- C10 (array index part on a node that is not a sequence): for a node
that is a mapping, a scalar or absent, and a path that starts with an `All`
or `Index` part followed by at least one more part, `apply` fails with
"Unexpected non-array found" and the node is unchanged; on an absent node
this is an error, whereas a map key part there returns `nil`. -/
theorem arrayIndex_on_non_array_fails (n : Tree) (a : PathPart) (rest : Path) (key : String)
    (hn : ∀ xs, n ≠ .array xs) (ha : a = .all ∨ ∃ i, a = .index i) (hrest : rest ≠ []) :
    apply re ord n (a :: rest) = (n, .error (.nonArrayFound n.goType)) ∧
      apply re ord .null (a :: rest) = (.null, .error (.nonArrayFound "<nil>")) ∧
      apply re ord .null (.mapKey key :: rest) = (.null, .ok) := by
  have hgen : ∀ m : Tree, (∀ xs, m ≠ .array xs) →
      apply re ord m (a :: rest) = (m, .error (.nonArrayFound m.goType)) := by
    intro m hm
    have hm' : (assertArray m).2 = false := by
      cases m with
      | array xs => exact absurd rfl (hm xs)
      | _ => rfl
    rcases ha with h | ⟨i, h⟩
    · subst h
      exact apply_all_nonArray_plain re ord m rest hrest hm'
    · subst h
      exact apply_index_nonArray_plain re ord m i rest hrest hm'
  exact ⟨hgen n hn, hgen .null (by intro xs; simp),
    apply_mapKey_nonMap_plain re ord .null key rest rfl⟩

/-- An example of C10: a mapping met by `[Index(-1), MapKey("x")]`. -/
theorem arrayIndex_on_non_array_fails_witness :
    apply sampleRegexp storedOrder (.map [("x", num 1)]) [.index (-1), .mapKey "x"] =
      (.map [("x", num 1)], .error (.nonArrayFound "map[string]interface {}")) :=
  (arrayIndex_on_non_array_fails sampleRegexp storedOrder (.map [("x", num 1)]) (.index (-1))
    [.mapKey "x"] "x" (by intro xs; simp) (Or.inr ⟨-1, rfl⟩) (by simp)).1

/-- C11 (as the code behaves): a regex part whose pattern compiles, applied
to a node that is not a mapping, be it a scalar, a sequence or absent, finds
no key and makes `apply` return `nil` with the node unchanged; the error
"Unexpected non-map found" of `obtainMatchingRegexKeys` is never returned,
because after a failed assertion `typedObj` is the nil map. -/
theorem regex_on_non_map_returns_nil (n : Tree) (p : String) (regex : String → Bool)
    (R : Path) (hc : re.Compile p = .ok regex) (hn : ∀ kvs, n ≠ .map kvs) :
    apply re ord n (.regex p :: R) = (n, .ok) ∧
      obtainMatchingRegexKeys re ord n (.regex p) = ([], .ok) := by
  have hn' : (assertMap n).2 = false := by
    cases n with
    | map kvs => exact absurd rfl (hn kvs)
    | _ => rfl
  refine ⟨apply_regex_nonMap_plain re ord n p regex R hc hn', ?_⟩
  rw [obtainMatchingRegexKeys_compiled re ord n rfl hc, assertMap_of_false hn']
  simp [GoMap.entries, rangeOrder_nil]

/-- The example of C11: the scalar `5` and the sequence `[1]` met by
`[Regex("^a"), MapKey("b")]` both return `nil`, not an error. -/
theorem regex_on_non_map_returns_nil_witness :
    apply sampleRegexp storedOrder (num 5) [.regex "^a", .mapKey "b"] = (num 5, .ok) ∧
      apply sampleRegexp storedOrder (.array [num 1]) [.regex "^a", .mapKey "b"] =
        (.array [num 1], .ok) :=
  ⟨(regex_on_non_map_returns_nil sampleRegexp storedOrder (num 5) "^a"
      (fun s => ['a'].isPrefixOf s.data) [.mapKey "b"] rfl (by intro kvs; simp [num])).1,
    (regex_on_non_map_returns_nil sampleRegexp storedOrder (.array [num 1]) "^a"
      (fun s => ['a'].isPrefixOf s.data) [.mapKey "b"] rfl (by intro kvs; simp)).1⟩

/-- C12 (a pattern that does not compile): for a node of any kind and any
remaining path, a regex part whose pattern `regexp.Compile` rejects makes
`apply` return the compile error with the node unchanged, and
`obtainMatchingRegexKeys` returns that error before it looks at the node. -/
theorem regex_compile_error (n : Tree) (p : String) (msg : String) (R : Path)
    (hc : re.Compile p = .error msg) :
    apply re ord n (.regex p :: R) = (n, .error (.regexCompile msg)) ∧
      obtainMatchingRegexKeys re ord n (.regex p) = ([], .error (.regexCompile msg)) :=
  ⟨apply_regex_failed re ord n R rfl rfl rfl hc,
    obtainMatchingRegexKeys_failed re ord n rfl hc⟩

/-- An example of C12: the pattern `a(` is rejected by the sample engine; on
the mapping with no entries the call returns the compile error. -/
theorem regex_compile_error_witness :
    apply sampleRegexp storedOrder (.map []) [.regex "a(", .mapKey "x"] =
      (.map [], .error (.regexCompile "error parsing regexp")) :=
  (regex_compile_error sampleRegexp storedOrder (.map []) "a(" "error parsing regexp"
    [.mapKey "x"] rfl).1

/-- C13 (the order of the keys does not matter on success): for a mapping
`m`, a pattern that compiles and a remaining path `R`, two runs of `apply`
on `[Regex(p)] ++ R` under any two visiting orders of map keys succeed
together, and when they succeed they leave the same tree; the same holds
for the loop over the matched keys taken in any order `ks`. -/
theorem regex_fan_out_order_independent (m : List (String × Tree)) (p : String)
    (regex : String → Bool) (R : Path) (hc : re.Compile p = .ok regex) :
    ((apply re ord (.map m) (.regex p :: R)).2 = .ok ↔
        (apply re ord' (.map m) (.regex p :: R)).2 = .ok) ∧
      ((apply re ord (.map m) (.regex p :: R)).2 = .ok →
        apply re ord (.map m) (.regex p :: R) = apply re ord' (.map m) (.regex p :: R)) ∧
      ∀ ks : List String, ks.Perm ((m.map Prod.fst).filter regex) →
        AgreeOnSuccess
          (rangeKeys (fun o key => apply re ord o (PathPart.mapKey key :: R)) (.map m) ks)
          (apply re ord (.map m) (.regex p :: R)) := by
  have h := apply_order_agree re ord ord' (.map m) (.regex p :: R)
  refine ⟨h.1, h.2, ?_⟩
  intro ks hks
  rw [apply_regex_compiled_plain re ord (.map m) p regex R hc]
  have hperm : ks.Perm ((ord.rangeOrder (((assertMap (.map m)).1.entries).map
      Prod.fst)).filter regex) :=
    hks.trans (List.Perm.filter _ (ord.rangeOrder_perm _).symm)
  exact rangeKeys_perm _
    (fun o x y hxy => step_outcome_after_other re ord o R hxy)
    (fun o x y hxy => step_result_comm re ord o R hxy) hperm (.map m)

/-- An example of C13: `{"a": {"x": 1}, "b": {"x": 2}}` with
`[Regex("^"), MapKey("x")]` becomes `{"a": {}, "b": {}}` whether `a` or `b`
is visited first. -/
theorem regex_fan_out_order_independent_witness :
    apply sampleRegexp storedOrder samplePair samplePairPath =
        (.map [("a", .map []), ("b", .map [])], .ok) ∧
      apply sampleRegexp reverseOrder samplePair samplePairPath =
        (.map [("a", .map []), ("b", .map [])], .ok) := by
  have hc : sampleRegexp.Compile "^" = .ok (fun s => [].isPrefixOf s.data) := rfl
  have e1 : ∀ o kvs, apply sampleRegexp o (.map kvs) [.mapKey "x"] =
      (.map (mapDelete "x" kvs), .ok) :=
    fun o kvs => apply_mapKey_last_plain sampleRegexp o kvs "x"
  have e4 : ∀ o (key : String) kvs child, mapLookup key kvs = some child →
      apply sampleRegexp o (.map kvs) [.mapKey key, .mapKey "x"] =
        (.map (mapUpdate key (apply sampleRegexp o child [.mapKey "x"]).1 kvs),
          (apply sampleRegexp o child [.mapKey "x"]).2) :=
    fun o key kvs child h =>
      apply_mapKey_found_plain sampleRegexp o kvs key _ child (by simp) h
  have hab : ¬ ("a" = "b") := by decide
  have h1 : apply sampleRegexp storedOrder samplePair samplePairPath =
      (.map [("a", .map []), ("b", .map [])], .ok) := by
    simp only [samplePair, samplePairPath]
    rw [apply_regex_compiled_plain sampleRegexp storedOrder _ "^" _ _ hc]
    simp only [assertMap, GoMap.entries, storedOrder, List.map, List.filter,
      List.isPrefixOf, rangeKeys]
    rw [e4 _ "a" _ (.map [("x", num 1)]) (by simp [mapLookup]), e1]
    simp only [mapDelete, if_true, mapUpdate]
    rw [e4 _ "b" _ (.map [("x", num 2)]) (by simp [mapLookup]), e1]
    simp [mapDelete, mapUpdate]
  obtain ⟨-, h2, -⟩ := regex_fan_out_order_independent sampleRegexp storedOrder reverseOrder
    [("a", .map [("x", num 1)]), ("b", .map [("x", num 2)])] "^" _ [.mapKey "x"] hc
  refine ⟨h1, ?_⟩
  have h3 := h2 (by
    have := h1
    simp only [samplePair, samplePairPath] at this
    rw [this])
  simp only [samplePair, samplePairPath] at h1 ⊢
  rw [← h3]
  exact h1

/-- C14 (a fixed index descends into one element): for a sequence `s`, an
offset `i` with `0 ≤ i < len(s)` whose element is `e`, and a non-empty
remaining path `R`, `apply` on `[Index(i)] ++ R` ends as `apply e R` does,
and leaves `s` with element `i` replaced by what `apply e R` left; the
length and every other element are as before. -/
theorem index_descends (s : List Tree) (i : Int) (e : Tree) (R : Path) (hR : R ≠ [])
    (hpos : 0 ≤ i) (hget : s[i.toNat]? = some e) :
    (apply re ord (.array s) (.index i :: R)).2 = (apply re ord e R).2 ∧
      (apply re ord (.array s) (.index i :: R)).1 =
        .array (s.set i.toNat (apply re ord e R).1) ∧
      (s.set i.toNat (apply re ord e R).1).length = s.length ∧
      (s.set i.toNat (apply re ord e R).1)[i.toNat]? = some (apply re ord e R).1 ∧
      ∀ j, j ≠ i.toNat → (s.set i.toNat (apply re ord e R).1)[j]? = s[j]? := by
  have h := @apply_index_within re ord (PathPart.index i) _ i s R e rfl rfl (Or.inl hR)
    rfl rfl hpos hget
  have hlt : i.toNat < s.length := (List.getElem?_eq_some_iff.mp hget).1
  refine ⟨by rw [h], by rw [h], by simp, by simp [hlt], ?_⟩
  intro j hj
  exact List.getElem?_set_ne (Ne.symm hj)

/-- An example of C14: `[{"x":1},{"x":2}]` with `[Index(1), MapKey("x")]`
gives `[{"x":1},{}]`. -/
theorem index_descends_witness :
    apply sampleRegexp storedOrder (.array [.map [("x", num 1)], .map [("x", num 2)]])
        [.index 1, .mapKey "x"] =
      (.array [.map [("x", num 1)], .map []], .ok) := by
  obtain ⟨h2, h1, -⟩ := index_descends sampleRegexp storedOrder
    [.map [("x", num 1)], .map [("x", num 2)]] 1 (.map [("x", num 2)]) [.mapKey "x"]
    (by simp) (by decide) (by simp)
  have e1 : apply sampleRegexp storedOrder (.map [("x", num 2)]) [.mapKey "x"] =
      (.map (mapDelete "x" [("x", num 2)]), .ok) :=
    apply_mapKey_last_plain sampleRegexp storedOrder _ "x"
  rw [e1] at h1 h2
  exact Prod.ext (by rw [h1]; simp [mapDelete]) h2

/-- C15 (termination): every call of `apply` returns a tree and an outcome.
The recursion is well founded on `pathRank`: the calls of the map key, `All`
and `Index` cases go on with the parts after the current one, whose rank is
smaller, and the call of the regex case, which is made on the same node
with a path `[MapKey(key)] ++ rest` as long as the current one, has a
smaller rank because its first part is a map key part. -/
theorem apply_terminates (obj : Tree) (part : PathPart) (rest : Path) (key : String) :
    (∃ t r, apply re ord obj (part :: rest) = (t, r)) ∧
      pathRank rest < pathRank (part :: rest) ∧
      (part.MapKey = none →
        pathRank (PathPart.mapKey key :: rest) < pathRank (part :: rest)) ∧
      (PathPart.mapKey key :: rest).length = (part :: rest).length ∧
      (∀ pattern regex, re.Compile pattern = .ok regex →
        apply re ord obj (.regex pattern :: rest) =
          rangeKeys (fun o k => apply re ord o (PathPart.mapKey k :: rest)) obj
            ((ord.rangeOrder (((assertMap obj).1.entries).map Prod.fst)).filter regex)) :=
  ⟨⟨_, _, rfl⟩, pathRank_tail_lt part rest, pathRank_mapKey_lt key rest, rfl,
    fun pattern regex hc => apply_regex_compiled_plain re ord obj pattern regex rest hc⟩

/-- C16 (only addressed map entries are removed): whatever the outcome, the
tree that `apply T P` leaves is `T` with some map entries removed and
nothing else changed, every removed entry being at a location that `P`
addresses in `T`.  At the root this reads: a scalar is unchanged, a sequence
keeps its length, a mapping keeps a part of its keys in their order, and a
key that is gone is addressed by `P`; the relation says the same of every
element and every kept value, in its place. -/
theorem only_addressed_entries_removed (T : Tree) (P : Path) :
    PrunedAt (locations re P T) (apply re ord T P).1 T ∧
      (∀ v, T = .scalar v → (apply re ord T P).1 = .scalar v) ∧
      (∀ xs, T = .array xs →
        ∃ xs', (apply re ord T P).1 = .array xs' ∧ xs'.length = xs.length) ∧
      (∀ kvs, T = .map kvs →
        ∃ kvs', (apply re ord T P).1 = .map kvs' ∧
          (kvs'.map Prod.fst).Sublist (kvs.map Prod.fst) ∧
          ∀ k ∈ kvs.map Prod.fst, k ∉ kvs'.map Prod.fst →
            [Step.key k] ∈ locations re P T) := by
  have h := pruned_after_apply re ord T P
  refine ⟨h, ?_, ?_, ?_⟩
  · intro v hT
    rw [hT] at h
    rw [hT]
    exact prunedAt_scalar h
  · intro xs hT
    rw [hT] at h
    rw [hT]
    exact prunedAt_array h
  · intro kvs hT
    rw [hT] at h
    rw [hT]
    exact prunedAt_map h

/-- C17 (no panic on well-formed input): on a non-empty path in which every
part has exactly one of `MapKey`, `ArrayIndex`, `RegexObj.Regex` set, every
`ArrayIndex` has exactly one of `All`, `Index` set and every `Index` is not
negative, `apply` returns `nil` or an error: it does not reach
`panic("unreachable")`, the panics "Unexpected path part" and "Unknown array
index", an index out of range or a nil dereference. -/
theorem no_panic_on_well_formed_path (T : Tree) (P : Path) (hP : P ≠ [])
    (hwf : ∀ part ∈ P, part.wellFormed = true) :
    ((apply re ord T P).2 = .ok ∨ ∃ e, (apply re ord T P).2 = .error e) ∧
      ∀ f, (apply re ord T P).2 ≠ .fault f := by
  have h := apply_returns re ord T P hP hwf
  cases hr : (apply re ord T P).2 with
  | ok => exact ⟨Or.inl rfl, by intro f hf; cases hf⟩
  | error e => exact ⟨Or.inr ⟨e, rfl⟩, by intro f hf; cases hf⟩
  | fault f =>
    rw [hr] at h
    cases h

/-- An example of C17: the path `[Regex("^"), All, MapKey("x")]` is well
formed, and on `{"a": 7, "b": [{"x": 1}]}` the call ends with an error, not
a panic. -/
theorem no_panic_on_well_formed_path_witness :
    (∀ part ∈ sampleMixedPath, part.wellFormed = true) ∧
      ∀ f, (apply sampleRegexp storedOrder sampleMixed sampleMixedPath).2 ≠ .fault f :=
  ⟨by decide,
    (no_panic_on_well_formed_path sampleRegexp storedOrder sampleMixed sampleMixedPath
      (by simp [sampleMixedPath]) (by decide)).2⟩

/-- C18 (the check of a trailing array index comes first): for a node of
any kind, a sequence of any length included, and a one-part path whose part
is `All` or `Index(i)` with no regex set, `apply` fails with "Expected last
part of the path to be map key" and the node is unchanged; the type of the
node and the bounds of the index are not looked at. -/
theorem trailing_index_check_comes_first (n : Tree) (a : PathPart)
    (ha : a = .all ∨ ∃ i, a = .index i) :
    apply re ord n [a] = (n, .error .lastPartNotMapKey) := by
  rcases ha with h | ⟨i, h⟩
  · subst h
    exact @apply_arrayIndex_last re ord PathPart.all _ n rfl rfl rfl
  · subst h
    exact @apply_arrayIndex_last re ord (PathPart.index i) _ n rfl rfl rfl

/-- Examples of C18: a scalar met by `[All]`, and a sequence of one element
met by `[Index(7)]` and by `[Index(-1)]`. -/
theorem trailing_index_check_comes_first_witness :
    apply sampleRegexp storedOrder (num 5) [.all] = (num 5, .error .lastPartNotMapKey) ∧
      apply sampleRegexp storedOrder (.array [num 1]) [.index 7] =
        (.array [num 1], .error .lastPartNotMapKey) ∧
      apply sampleRegexp storedOrder (.array [num 1]) [.index (-1)] =
        (.array [num 1], .error .lastPartNotMapKey) :=
  ⟨trailing_index_check_comes_first sampleRegexp storedOrder (num 5) .all (Or.inl rfl),
    trailing_index_check_comes_first sampleRegexp storedOrder (.array [num 1]) (.index 7)
      (Or.inr ⟨7, rfl⟩),
    trailing_index_check_comes_first sampleRegexp storedOrder (.array [num 1]) (.index (-1))
      (Or.inr ⟨-1, rfl⟩)⟩

/-- C19 (as the code behaves): for a sequence `s`, a negative `i` and a
non-empty remaining path, the test `i < len(s)` holds and the index
expression `typedObj[i]` panics with an index out of range; `apply` does not
return `nil`.  The sequence is unchanged. -/
theorem negative_index_panics (s : List Tree) (i : Int) (R : Path) (hR : R ≠ [])
    (hneg : i < 0) :
    apply re ord (.array s) (.index i :: R) = (.array s, .fault .indexOutOfRange) :=
  @apply_index_negative re ord (PathPart.index i) _ i s R rfl rfl (Or.inl hR) rfl rfl hneg

/-- The example of C19: `[1, 2]` with `[Index(-1), MapKey("x")]`. -/
theorem negative_index_panics_witness :
    apply sampleRegexp storedOrder (.array [num 1, num 2]) [.index (-1), .mapKey "x"] =
      (.array [num 1, num 2], .fault .indexOutOfRange) :=
  negative_index_panics sampleRegexp storedOrder [num 1, num 2] (-1) [.mapKey "x"]
    (by simp) (by decide)

end Kapp
